import Mathlib

/-!
# Assembly-CSharp (IL2CPP output): TextureScale and FPSController

A shallow embedding of the game scripts found in `Assembly-CSharp.cpp`.

Conventions of the embedding:

* `float` values are exact rationals (`ℚ`) and `int32_t` values are unbounded
  integers (`Int`): a statement is "over exact arithmetic" unless it says
  otherwise.  Where a statement is about all inputs of the machine, the part that
  differs has a second embedding: floats that may be NaN (`Single`, the
  definitions ending in `_nan`) and the 32-bit length of the new array
  (`ThreadedScale_setup_int32`).
* A managed array is a `List`; the unchecked accessors `GetAtUnchecked` and
  `SetAtUnchecked` take the `int32_t` index of the source and answer `none`
  when the index is outside the array (the behaviour of the C++ code is then
  undefined).  A `NULL` array reference is the empty list: every access fails.
* Static fields of `TextureScale` are the fields of the record `TextureScale`,
  which is threaded through the functions that read or write them.
* Values obtained from the engine (processor count, frame times, raycast
  results, transform axes, callback payloads) are explicit arguments.
* A reference to an engine object (`InputAction`, `InputActionMap`, …) is its
  address, a natural number; the `PlayerControls` objects are kept in a heap
  indexed by address, which the methods of `PlayerActions` take and return.
* The callback methods run on a `World`: the heap of `PlayerControls` objects,
  the heap of `List<IPlayerActions>` objects (items and `_version`), and the
  log of the calls made into the input system, in program order.  `0` is the
  `null` reference.
-/

namespace Zubara

/-! ## Definitions -/

/-- Unity `Color` (`Color_tD001…`): the four channels `r`, `g`, `b`, `a`. -/
structure Color where
  r : ℚ
  g : ℚ
  b : ℚ
  a : ℚ
deriving DecidableEq, Repr

/-- `Color__ctor`: stores the four arguments in the four channels. -/
def Color__ctor (r g b a : ℚ) : Color := ⟨r, g, b, a⟩

/-- Zero-initialised colour, the content of a freshly allocated `Color[]`. -/
def Color.clear : Color := ⟨0, 0, 0, 0⟩

/-- `ThreadData`: the half-open row range `[start, end)` handed to one worker. -/
structure ThreadData where
  start : Int
  end_ : Int
deriving DecidableEq, Repr

/-- `ThreadData__ctor (s, e)`: `start = s`, `end = e`. -/
def ThreadData__ctor (s e : Int) : ThreadData := ⟨s, e⟩

/-- The part of a `Texture2D` the scaler uses: `width` (virtual slot 4),
`height` (virtual slot 6) and the pixel array returned by `GetPixels`. -/
structure Texture2D where
  width : Int
  height : Int
  pixels : List Color
deriving DecidableEq, Repr

/-- A `System.Threading.Mutex`: `owner` is the worker that holds it, if any.
`WaitOne` returns only when nobody holds the mutex and makes the caller its
owner; `ReleaseMutex`, called by the owner, leaves it without owner. -/
structure Mutex where
  owner : Option Nat
deriving DecidableEq, Repr

/-- `TextureScale_StaticFields`. -/
structure TextureScale where
  texColors : List Color
  newColors : List Color
  w : Int
  ratioX : ℚ
  ratioY : ℚ
  w2 : Int
  finishCount : Int
  mutex : Option Mutex
deriving DecidableEq, Repr

/-- `il2cpp_codegen_cast_double_to_int<int32_t>`: conversion of a floating
value to an integer, rounding toward zero (the C# `conv.i4`). -/
def il2cpp_codegen_cast_double_to_int (q : ℚ) : Int :=
  if 0 ≤ q then Int.floor q else Int.ceil q

/-- `floorf`. -/
def floorf (q : ℚ) : ℚ := (Int.floor q : Int)

/-- `arr->GetAtUnchecked(i)`: the element at index `i`, `none` outside the
array. -/
def GetAtUnchecked (arr : List Color) (i : Int) : Option Color :=
  if 0 ≤ i then arr[i.toNat]? else none

/-- `arr->SetAtUnchecked(i, c)`: the array with element `i` replaced, `none`
outside the array. -/
def SetAtUnchecked (arr : List Color) (i : Int) (c : Color) : Option (List Color) :=
  if 0 ≤ i ∧ i.toNat < arr.length then some (arr.set i.toNat c) else none

/-- `SZArrayNew(Color[], n)`: a zero-initialised array of `n` colours. -/
def SZArrayNew (n : Int) : List Color := List.replicate n.toNat Color.clear

/-- The counted loop `for (i = lo; i < lo + n; i++) body(i)` on a state, where a
failing body aborts the loop.  `forLoop body n lo` runs `n` iterations starting
at index `lo`. -/
def forLoop {σ : Type} (body : Int → σ → Option σ) : Nat → Int → σ → Option σ
  | 0, _, s => some s
  | n + 1, i, s => (body i s).bind (forLoop body n (i + 1))

/-- The loop `for (i = lo; i < hi; i++) body(i)`: it runs `hi - lo` times, and
not at all when `hi ≤ lo`. -/
def forRange {σ : Type} (lo hi : Int) (body : Int → σ → Option σ) (s : σ) : Option σ :=
  forLoop body (hi - lo).toNat lo s

/-- `Mathf_Min (a, b)` on integers: `a < b ? a : b`. -/
def Mathf_Min (a b : Int) : Int := if a < b then a else b

/-- The block shared by the end of `PointScale` and `BilinearScale`:
`mutex.WaitOne(); finishCount++; mutex.ReleaseMutex();` run by a thread on its
own.  A `NULL` mutex is a null dereference (`none`); a mutex held by somebody
else never lets the caller through (`none`); otherwise the mutex is taken, the
counter is incremented and the mutex is released again. -/
def finishLocked (s : TextureScale) : Option TextureScale :=
  match s.mutex with
  | none => none
  | some m =>
    match m.owner with
    | some _ => none
    | none => some { s with finishCount := s.finishCount + 1 }

/-- Body of the inner loop of `TextureScale_PointScale` (label `IL_002d`):
`newColors[yw + x] = texColors[(int)(thisY + ratioX * x)]`. -/
def PointScale_pixel (thisY yw : Int) (x : Int) (s : TextureScale) : Option TextureScale :=
  match GetAtUnchecked s.texColors
      (il2cpp_codegen_cast_double_to_int ((thisY : ℚ) + s.ratioX * (x : ℚ))) with
  | none => none
  | some c =>
    match SetAtUnchecked s.newColors (yw + x) c with
    | none => none
    | some arr => some { s with newColors := arr }

/-- Body of the outer loop of `TextureScale_PointScale` (label `IL_0010`):
`thisY = (int)(ratioY * y) * w; yw = y * w2; for (x = 0; x < w2; x++) …`. -/
def PointScale_row (y : Int) (s : TextureScale) : Option TextureScale :=
  let thisY := il2cpp_codegen_cast_double_to_int (s.ratioY * (y : ℚ)) * s.w
  let yw := y * s.w2
  forRange 0 s.w2 (PointScale_pixel thisY yw) s

/-- `TextureScale_PointScale (obj)`: all rows of `[obj.start, obj.end)`, then
the guarded increment of `finishCount`. -/
def TextureScale_PointScale (obj : ThreadData) (s : TextureScale) : Option TextureScale :=
  (forRange obj.start obj.end_ PointScale_row s).bind finishLocked

/-- `TextureScale_ColorLerpUnclamped (c1, c2, value)`:
`c1.k + (c2.k - c1.k) * value` on each channel. -/
def TextureScale_ColorLerpUnclamped (c1 c2 : Color) (value : ℚ) : Color :=
  Color__ctor (c1.r + (c2.r - c1.r) * value) (c1.g + (c2.g - c1.g) * value)
    (c1.b + (c2.b - c1.b) * value) (c1.a + (c2.a - c1.a) * value)

/-- Body of the inner loop of `TextureScale_BilinearScale` (label `IL_0046`). -/
def BilinearScale_pixel (y yFloor y1 y2 yw : Int) (x : Int) (s : TextureScale) :
    Option TextureScale :=
  let xFloor := il2cpp_codegen_cast_double_to_int (floorf ((x : ℚ) * s.ratioX))
  let xLerp : ℚ := (x : ℚ) * s.ratioX - (xFloor : ℚ)
  match GetAtUnchecked s.texColors (y1 + xFloor),
        GetAtUnchecked s.texColors (y1 + xFloor + 1),
        GetAtUnchecked s.texColors (y2 + xFloor),
        GetAtUnchecked s.texColors (y2 + xFloor + 1) with
  | some c11, some c12, some c21, some c22 =>
    match SetAtUnchecked s.newColors (yw + x)
        (TextureScale_ColorLerpUnclamped
          (TextureScale_ColorLerpUnclamped c11 c12 xLerp)
          (TextureScale_ColorLerpUnclamped c21 c22 xLerp)
          ((y : ℚ) * s.ratioY - (yFloor : ℚ))) with
    | none => none
    | some arr => some { s with newColors := arr }
  | _, _, _, _ => none

/-- Body of the outer loop of `TextureScale_BilinearScale` (label `IL_0013`):
`yFloor = (int)floorf(y * ratioY); y1 = yFloor * w; y2 = (yFloor + 1) * w;
yw = y * w2; for (x = 0; x < w2; x++) …`. -/
def BilinearScale_row (y : Int) (s : TextureScale) : Option TextureScale :=
  let yFloor := il2cpp_codegen_cast_double_to_int (floorf ((y : ℚ) * s.ratioY))
  let y1 := yFloor * s.w
  let y2 := (yFloor + 1) * s.w
  let yw := y * s.w2
  forRange 0 s.w2 (BilinearScale_pixel y yFloor y1 y2 yw) s

/-- `TextureScale_BilinearScale (obj)`: all rows of `[obj.start, obj.end)`,
then the guarded increment of `finishCount`. -/
def TextureScale_BilinearScale (obj : ThreadData) (s : TextureScale) : Option TextureScale :=
  (forRange obj.start obj.end_ BilinearScale_row s).bind finishLocked

/-- The values `ThreadedScale` computes before it starts any worker. -/
structure ScaleSetup where
  statics : TextureScale
  cores : Int
  slice : Int
deriving DecidableEq, Repr

/-- First part of `TextureScale_ThreadedScale` (up to label `IL_00a2`): the
static fields are filled in, `cores = Mathf.Min (processorCount, newHeight)`,
`slice = newHeight / cores`, `finishCount = 0`, and the mutex is created when
there is none yet.  The integer division traps when `cores = 0` (`none`).
The length `newWidth * newHeight` of the new array is the exact product;
`ThreadedScale_setup_int32` has the product of the machine. -/
def ThreadedScale_setup (tex : Texture2D) (newWidth newHeight : Int) (useBilinear : Bool)
    (processorCount : Int) (s : TextureScale) : Option ScaleSetup :=
  let s := { s with texColors := tex.pixels }
  let s := { s with newColors := SZArrayNew (newWidth * newHeight) }
  let s :=
    if useBilinear then
      { s with ratioX := 1 / ((newWidth : ℚ) / ((tex.width - 1 : Int) : ℚ)),
               ratioY := 1 / ((newHeight : ℚ) / ((tex.height - 1 : Int) : ℚ)) }
    else
      { s with ratioX := (tex.width : ℚ) / (newWidth : ℚ),
               ratioY := (tex.height : ℚ) / (newHeight : ℚ) }
  let s := { s with w := tex.width, w2 := newWidth }
  let cores := Mathf_Min processorCount newHeight
  if cores = 0 then none
  else
    let slice := Int.tdiv newHeight cores
    let s := { s with finishCount := 0 }
    let s := match s.mutex with
      | some _ => s
      | none => { s with mutex := some ⟨none⟩ }
    some ⟨s, cores, slice⟩

/-- The static fields other than `newColors` agree, and `newColors` has kept
its length. -/
def SameStatics (s0 s : TextureScale) : Prop :=
  s.texColors = s0.texColors ∧ s.w = s0.w ∧ s.ratioX = s0.ratioX ∧ s.ratioY = s0.ratioY ∧
    s.w2 = s0.w2 ∧ s.finishCount = s0.finishCount ∧ s.mutex = s0.mutex ∧
    s.newColors.length = s0.newColors.length

/-- The mutex is not held. -/
def MutexFree (s : TextureScale) : Prop := ∀ m, s.mutex = some m → m.owner = none

/-- The static fields as `ThreadedScale` leaves them before the workers start,
for a `w × h` source and a `w2 × h2` target with ratios `rx`, `ry`. -/
def ScalerReady (tex : Texture2D) (w2 h2 : Int) (rx ry : ℚ) (st : TextureScale) : Prop :=
  st.texColors = tex.pixels ∧ st.w = tex.width ∧ st.ratioX = rx ∧ st.ratioY = ry ∧
    st.w2 = w2 ∧ (st.newColors.length : Int) = w2 * h2 ∧ st.finishCount = 0 ∧
    st.mutex ≠ none ∧ MutexFree st

/-- Value `PointScale` stores at destination index `j` of a `w2`-wide target. -/
def pointSource (tex : Texture2D) (w2 h2 : Int) (j : Int) : Color :=
  (GetAtUnchecked tex.pixels
    (Int.floor (((j / w2 : Int) : ℚ) * tex.height / h2) * tex.width +
      Int.floor (((j % w2 : Int) : ℚ) * tex.width / w2))).getD Color.clear

/-- A `2 × 2` texture with four different pixels. -/
def tex22 : Texture2D := ⟨2, 2, [⟨1, 0, 0, 1⟩, ⟨2, 0, 0, 1⟩, ⟨3, 0, 0, 1⟩, ⟨4, 0, 0, 1⟩]⟩

/-- The static fields before the first call of `ThreadedScale`: all zero, no
arrays, no mutex. -/
def statics0 : TextureScale := ⟨[], [], 0, 0, 0, 0, 0, none⟩

/-- The two-stage interpolation formula for output pixel `(x, y)`: with
`rx = (w - 1) / w2`, `ry = (h - 1) / h2`, `xF = ⌊x * rx⌋`, `yF = ⌊y * ry⌋`,
`fx = x * rx - xF`, `fy = y * ry - yF`, the value
`Lerp (Lerp (src[yF*w + xF], src[yF*w + xF + 1], fx),
       Lerp (src[(yF+1)*w + xF], src[(yF+1)*w + xF + 1], fx), fy)`;
`none` when one of the four source indices is outside `src`. -/
def bilinearSample (src : List Color) (w h w2 h2 : Int) (y x : Int) : Option Color :=
  let rx : ℚ := ((w - 1 : Int) : ℚ) / (w2 : ℚ)
  let ry : ℚ := ((h - 1 : Int) : ℚ) / (h2 : ℚ)
  let xF : Int := Int.floor ((x : ℚ) * rx)
  let yF : Int := Int.floor ((y : ℚ) * ry)
  let fx : ℚ := (x : ℚ) * rx - (xF : ℚ)
  let fy : ℚ := (y : ℚ) * ry - (yF : ℚ)
  match GetAtUnchecked src (yF * w + xF), GetAtUnchecked src (yF * w + xF + 1),
        GetAtUnchecked src ((yF + 1) * w + xF), GetAtUnchecked src ((yF + 1) * w + xF + 1) with
  | some c11, some c12, some c21, some c22 =>
    some (TextureScale_ColorLerpUnclamped (TextureScale_ColorLerpUnclamped c11 c12 fx)
      (TextureScale_ColorLerpUnclamped c21 c22 fx) fy)
  | _, _, _, _ => none

/-- The source coordinate `⌊a * ((n - 1) / n2)⌋` used by bilinear scaling. -/
def srcFloor (n n2 a : Int) : Int := Int.floor ((a : ℚ) * (((n - 1 : Int) : ℚ) / (n2 : ℚ)))

/-- Value `BilinearScale` stores at destination index `j` of a `w2`-wide target. -/
def bilinearSource (tex : Texture2D) (w2 h2 : Int) (j : Int) : Color :=
  (bilinearSample tex.pixels tex.width tex.height w2 h2 (j / w2) (j % w2)).getD Color.clear

/-- One worker started by `ThreadedScale`: on a new thread
(`new Thread (PointScale | BilinearScale).Start (threadData)`) or by a direct
call on the calling thread. -/
inductive Launch where
  | thread (useBilinear : Bool) (d : ThreadData)
  | call (useBilinear : Bool) (d : ThreadData)
deriving DecidableEq, Repr

/-- The `ThreadData` given to the worker. -/
def Launch.data : Launch → ThreadData
  | Launch.thread _ d => d
  | Launch.call _ d => d

/-- Whether the worker runs on a new thread. -/
def Launch.onThread : Launch → Bool
  | Launch.thread _ _ => true
  | Launch.call _ _ => false

/-- Whether the worker is `BilinearScale` (otherwise `PointScale`). -/
def Launch.bilinear : Launch → Bool
  | Launch.thread b _ => b
  | Launch.call b _ => b

/-- The loop `for (i = 0; i < cores - 1; i++)` of `ThreadedScale` (labels
`IL_00ac` … `IL_00e6`): `n` iterations from index `i`, each creating
`ThreadData (slice * i, slice * (i + 1))` and starting a thread on it. -/
def ThreadedScale_spawnLoop (useBilinear : Bool) (slice : Int) : Nat → Int → List Launch
  | 0, _ => []
  | n + 1, i =>
    Launch.thread useBilinear (ThreadData__ctor (slice * i) (slice * (i + 1))) ::
      ThreadedScale_spawnLoop useBilinear slice n (i + 1)

/-- The workers `ThreadedScale` starts, in program order (labels `IL_00a2` …
`IL_012e`).  With `cores > 1` the loop starts `cores - 1` threads and leaves
`i = cores - 1`; the last range `(slice * i, newHeight)` is then processed by a
direct call.  Otherwise the single range `(0, newHeight)` is processed by a
direct call. -/
def ThreadedScale_launches (useBilinear : Bool) (cores slice newHeight : Int) : List Launch :=
  if cores > 1 then
    let n := (cores - 1 - 0).toNat
    ThreadedScale_spawnLoop useBilinear slice n 0 ++
      [Launch.call useBilinear (ThreadData__ctor (slice * ((0 : Int) + (n : Int))) newHeight)]
  else
    [Launch.call useBilinear (ThreadData__ctor 0 newHeight)]

/-- The workers started by `TextureScale_ThreadedScale (tex, newWidth,
newHeight, useBilinear)` on a machine with `processorCount` processors; `none`
when the computation of the slice size traps. -/
def ThreadedScale_plan (tex : Texture2D) (newWidth newHeight : Int) (useBilinear : Bool)
    (processorCount : Int) (s : TextureScale) : Option (List Launch) :=
  (ThreadedScale_setup tex newWidth newHeight useBilinear processorCount s).map
    (fun t => ThreadedScale_launches useBilinear t.cores t.slice newHeight)

/-- Destination indices of the `SetAtUnchecked` calls of one worker, in
execution order: `PointScale` and `BilinearScale` both store at `yw + x` with
`yw = y * w2`, for `y = start … end - 1` and `x = 0 … w2 - 1`. -/
def workerWrites (d : ThreadData) (w2 : Int) : List Int :=
  (List.range (d.end_ - d.start).toNat).flatMap
    (fun (k : Nat) =>
      (List.range (w2 - 0).toNat).map (fun (x : Nat) => (d.start + (k : Int)) * w2 + (x : Int)))

/-- A list of row ranges that follow one another from `lo` to `hi`. -/
def RangeChain : Int → List ThreadData → Int → Prop
  | lo, [], hi => lo = hi
  | lo, d :: ds, hi => d.start = lo ∧ d.start ≤ d.end_ ∧ RangeChain d.end_ ds hi

/-- Unity `Vector2`. -/
structure Vector2 where
  x : ℚ
  y : ℚ
deriving DecidableEq, Repr

/-- Unity `Vector3`. -/
structure Vector3 where
  x : ℚ
  y : ℚ
  z : ℚ
deriving DecidableEq, Repr

/-- `Vector3__ctor`. -/
def Vector3__ctor (x y z : ℚ) : Vector3 := ⟨x, y, z⟩

/-- Modelled from the spec: the static field `Vector2.zeroVector` read by
`Vector2_get_zero` is initialised outside this file; a zero input is `(0, 0)`. -/
def Vector2_get_zero : Vector2 := ⟨0, 0⟩

/-- Modelled from the spec: the static field `Vector3.upVector` read by
`Vector3_get_up` is initialised outside this file; `Vector3.up = (0, 1, 0)`. -/
def Vector3_get_up : Vector3 := ⟨0, 1, 0⟩

/-- Modelled from the spec: the static field `Vector3.downVector` read by
`Vector3_get_down` is initialised outside this file; `Vector3.down` is the
opposite of `Vector3.up`, `(0, -1, 0)`. -/
def Vector3_get_down : Vector3 := ⟨0, -1, 0⟩

/-- `Vector3_op_Multiply (a, d)`: every component times `d`. -/
def Vector3_op_Multiply (a : Vector3) (d : ℚ) : Vector3 :=
  Vector3__ctor (a.x * d) (a.y * d) (a.z * d)

/-- `Vector3_op_Addition (a, b)`: component-wise sum. -/
def Vector3_op_Addition (a b : Vector3) : Vector3 :=
  Vector3__ctor (a.x + b.x) (a.y + b.y) (a.z + b.z)

/-- The literal `9.99999944E-11f` of `Vector2_op_Equality`. -/
def kEpsilonSqr : ℚ := 999999944 / 10000000000000000000

/-- `Vector2_op_Equality (lhs, rhs)`: squared distance below `9.99999944E-11`. -/
def Vector2_op_Equality (lhs rhs : Vector2) : Bool :=
  let dx := lhs.x - rhs.x
  let dy := lhs.y - rhs.y
  decide (dx * dx + dy * dy < kEpsilonSqr)

/-- `Vector2_op_Inequality (lhs, rhs)`: the negation of `Vector2_op_Equality`. -/
def Vector2_op_Inequality (lhs rhs : Vector2) : Bool :=
  !Vector2_op_Equality lhs rhs

/-- `Mathf_Clamp (value, min, max)` over exact arithmetic: `min` when
`value < min`, otherwise `max` when `value > max`, otherwise `value`.  Every
value is a number here; `Mathf_Clamp_nan` is the same function on floats that
may be NaN. -/
def Mathf_Clamp (value min max : ℚ) : ℚ :=
  if value < min then min else if value > max then max else value

/-- The fields of `FPSController` that hold values.  The object references
`rb`, `playerCamera` and `capsuleCollider` point into the engine: what the
controller reads and writes through them is in `Engine` and `Frame`. -/
structure FPSController where
  moveSpeed : ℚ
  lookSpeed : ℚ
  lookXLimit : ℚ
  gravity : ℚ
  jumpForce : ℚ
  groundCheckDistance : ℚ
  moveInput : Vector2
  lookInput : Vector2
  isGrounded : Bool
  rotationX : ℚ
deriving DecidableEq, Repr

/-- Engine-side state the controller writes: the velocity of `rb`, the
arguments of the calls of `transform.Rotate` (latest first), and the Euler
angles `(x, y, z)` of the last `Quaternion.Euler` value assigned to
`playerCamera.transform.localRotation`, if any. -/
structure Engine where
  velocity : Vector3
  rotateCalls : List Vector3
  cameraLocalEuler : Option Vector3
deriving DecidableEq, Repr

/-- Values the engine supplies during one callback: `Time.deltaTime`,
`Time.fixedDeltaTime`, `Physics.gravity`, the position and the axes of
`transform`, `capsuleCollider.bounds.extents`, and the answer of
`Physics.Raycast (origin, direction, maxDistance)`. -/
structure Frame where
  deltaTime : ℚ
  fixedDeltaTime : ℚ
  physicsGravity : Vector3
  position : Vector3
  forward : Vector3
  right : Vector3
  boundsExtents : Vector3
  raycast : Vector3 → Vector3 → ℚ → Bool

/-- `FPSController__ctor`: the field initialisers; the other fields of a new
object are zero. -/
def FPSController__ctor : FPSController :=
  { moveSpeed := 6, lookSpeed := 2, lookXLimit := 45, gravity := 981000042 / 100000000,
    jumpForce := 5, groundCheckDistance := 100000001 / 1000000000,
    moveInput := ⟨0, 0⟩, lookInput := ⟨0, 0⟩, isGrounded := false, rotationX := 0 }

/-- `FPSController_HandleMovement`: the ground raycast, then the horizontal
velocity from the move input (`Debug.DrawRay` draws a gizmo and changes
nothing). -/
def FPSController_HandleMovement (f : Frame) (c : FPSController) (e : Engine) :
    FPSController × Engine :=
  let L_8 := f.raycast f.position Vector3_get_down (f.boundsExtents.y + c.groundCheckDistance)
  let c := { c with isGrounded := L_8 }
  if Vector2_op_Inequality c.moveInput Vector2_get_zero then
    let V_1 := Vector3_op_Addition (Vector3_op_Multiply f.forward c.moveInput.y)
      (Vector3_op_Multiply f.right c.moveInput.x)
    let L_43 := Vector3__ctor (V_1.x * c.moveSpeed) e.velocity.y (V_1.z * c.moveSpeed)
    (c, { e with velocity := L_43 })
  else
    (c, { e with velocity := Vector3__ctor 0 e.velocity.y 0 })

/-- `FPSController_ApplyGravity`. -/
def FPSController_ApplyGravity (f : Frame) (c : FPSController) (e : Engine) :
    FPSController × Engine :=
  if c.isGrounded then
    let L_24 := Vector3__ctor e.velocity.x (if e.velocity.y > 0 then e.velocity.y else 0)
      e.velocity.z
    (c, { e with velocity := L_24 })
  else
    let L_7 := Vector3_op_Multiply Vector3_get_up f.physicsGravity.y
    let L_9 := Vector3_op_Multiply L_7 f.fixedDeltaTime
    let L_10 := Vector3_op_Addition e.velocity L_9
    (c, { e with velocity := L_10 })

/-- `FPSController_HandleRotation`: with a non-zero look input, yaw the body,
update and clamp `rotationX`, and give `Quaternion.Euler (rotationX, 0, 0)` to
the camera. -/
def FPSController_HandleRotation (f : Frame) (c : FPSController) (e : Engine) :
    FPSController × Engine :=
  if Vector2_op_Inequality c.lookInput Vector2_get_zero then
    let V_0 := c.lookInput.x * c.lookSpeed * f.deltaTime
    let e := { e with rotateCalls := Vector3__ctor 0 V_0 0 :: e.rotateCalls }
    let c := { c with rotationX := c.rotationX + (-c.lookInput.y) * c.lookSpeed * f.deltaTime }
    let c := { c with rotationX := Mathf_Clamp c.rotationX (-c.lookXLimit) c.lookXLimit }
    (c, { e with cameraLocalEuler := some (Vector3__ctor c.rotationX 0 0) })
  else
    (c, e)

/-- `FPSController_FixedUpdate`: `HandleMovement`, then `ApplyGravity`. -/
def FPSController_FixedUpdate (f : Frame) (c : FPSController) (e : Engine) :
    FPSController × Engine :=
  let r := FPSController_HandleMovement f c e
  FPSController_ApplyGravity f r.1 r.2

/-- `FPSController_Update`: `HandleRotation`. -/
def FPSController_Update (f : Frame) (c : FPSController) (e : Engine) :
    FPSController × Engine :=
  FPSController_HandleRotation f c e

/-- `FPSController_OnMove (context)`: `moveInput = context.ReadValue<Vector2> ()`;
`value` is what `ReadValue` returns. -/
def FPSController_OnMove (value : Vector2) (c : FPSController) : FPSController :=
  { c with moveInput := value }

/-- `FPSController_OnMoveCanceled`: `moveInput = Vector2.zero`. -/
def FPSController_OnMoveCanceled (c : FPSController) : FPSController :=
  { c with moveInput := Vector2_get_zero }

/-- `FPSController_OnLook (context)`: `lookInput = context.ReadValue<Vector2> ()`. -/
def FPSController_OnLook (value : Vector2) (c : FPSController) : FPSController :=
  { c with lookInput := value }

/-- `FPSController_OnLookCanceled`: `lookInput = Vector2.zero`. -/
def FPSController_OnLookCanceled (c : FPSController) : FPSController :=
  { c with lookInput := Vector2_get_zero }

/-- `FPSController_OnJump`: when grounded, the vertical velocity becomes
`sqrtf (jumpForce * 2 * gravity)`; `sqrtf` is the C library function, taken as
an argument. -/
def FPSController_OnJump (sqrtf : ℚ → ℚ) (c : FPSController) (e : Engine) :
    FPSController × Engine :=
  if c.isGrounded then
    let L_11 := Vector3__ctor e.velocity.x (sqrtf (c.jumpForce * 2 * c.gravity)) e.velocity.z
    (c, { e with velocity := L_11 })
  else
    (c, e)

/-- One operation of the controller, with the values the engine supplies. -/
inductive ControllerOp where
  | OnMove (value : Vector2)
  | OnMoveCanceled
  | OnLook (value : Vector2)
  | OnLookCanceled
  | OnJump
  | FixedUpdate (f : Frame)
  | Update (f : Frame)

/-- Effect of one operation on the controller and the engine. -/
def ControllerOp.apply (sqrtf : ℚ → ℚ) (op : ControllerOp) (s : FPSController × Engine) :
    FPSController × Engine :=
  match op with
  | ControllerOp.OnMove v => (FPSController_OnMove v s.1, s.2)
  | ControllerOp.OnMoveCanceled => (FPSController_OnMoveCanceled s.1, s.2)
  | ControllerOp.OnLook v => (FPSController_OnLook v s.1, s.2)
  | ControllerOp.OnLookCanceled => (FPSController_OnLookCanceled s.1, s.2)
  | ControllerOp.OnJump => FPSController_OnJump sqrtf s.1 s.2
  | ControllerOp.FixedUpdate f => FPSController_FixedUpdate f s.1 s.2
  | ControllerOp.Update f => FPSController_Update f s.1 s.2

/-- The state after a sequence of operations, first operation first. -/
def runOps (sqrtf : ℚ → ℚ) (ops : List ControllerOp) (s : FPSController × Engine) :
    FPSController × Engine :=
  ops.foldl (fun s op => op.apply sqrtf s) s

/-- What the clamping invariant says of one state. -/
def PitchClamped (limit : ℚ) (s : FPSController × Engine) : Prop :=
  s.1.lookXLimit = limit ∧ -limit ≤ s.1.rotationX ∧ s.1.rotationX ≤ limit

/-- Program counter of one worker (the body of `PointScale` / `BilinearScale`):
`row y` is the loop test `y < end` (labels `IL_0065` / `IL_00e7`) with loop
variable `y`; `waitOne` is just before `mutex.WaitOne ()`; `load` is just
before the read of `finishCount`; `store v` is just before the write
`finishCount = v + 1`, `v` being the value read; `release` is just before
`mutex.ReleaseMutex ()`; `done` is after the return. -/
inductive WorkerPc where
  | row (y : Int)
  | waitOne
  | load
  | store (v : Int)
  | release
  | done
deriving DecidableEq, Repr

/-- A started worker: how it was started, where it is, and (a history
variable) the rows it has processed so far, oldest first. -/
structure Worker where
  launch : Launch
  pc : WorkerPc
  rowsDone : List Int
deriving DecidableEq, Repr

/-- Program counter of `ThreadedScale` after its set-up: `branch` is the test
`cores > 1` (label `IL_00a2`); `spawn i` is the loop test `i < cores - 1` (label
`IL_00e6`); `call` is inside the direct call of the last worker; `join` is the
test `finishCount < cores` (label `IL_010f`); `sleep` is `Thread.Sleep (1)`
(label `IL_0109`); `writeBack` is just before `tex.Reinitialize` (label
`IL_0135`); `finished` is after the return. -/
inductive MainPc where
  | branch
  | spawn (i : Int)
  | call
  | join
  | sleep
  | writeBack
  | finished
deriving DecidableEq, Repr

/-- State of one run of `ThreadedScale`: its arguments and locals (`cores` is
`V_0`, `slice` is `V_1`), the static fields, its program counter and the
workers started so far, in the order in which they were started. -/
structure Sys where
  tex : Texture2D
  newWidth : Int
  newHeight : Int
  useBilinear : Bool
  cores : Int
  slice : Int
  statics : TextureScale
  main : MainPc
  workers : List Worker
deriving DecidableEq, Repr

/-- Who takes the next step: `ThreadedScale` itself or the worker number `k`. -/
inductive Actor where
  | main
  | worker (k : Nat)
deriving DecidableEq, Repr

/-- One row of a worker: the outer-loop body of `BilinearScale` or of
`PointScale`. -/
def rowBody (bilinear : Bool) (y : Int) (s : TextureScale) : Option TextureScale :=
  if bilinear then BilinearScale_row y s else PointScale_row y s

/-- A worker at its entry: `y = obj.start`, no row processed. -/
def startWorker (l : Launch) : Worker := ⟨l, WorkerPc.row l.data.start, []⟩

/-- One step of worker `k` on the static fields; `none` when the worker cannot
move (it waits for the mutex, it has returned, or an array access is out of
range). -/
def Worker.step (k : Nat) (w : Worker) (s : TextureScale) : Option (Worker × TextureScale) :=
  match w.pc with
  | WorkerPc.row y =>
    if y < w.launch.data.end_ then
      (rowBody w.launch.bilinear y s).map
        (fun s1 => ({ w with pc := WorkerPc.row (y + 1), rowsDone := w.rowsDone ++ [y] }, s1))
    else some ({ w with pc := WorkerPc.waitOne }, s)
  | WorkerPc.waitOne =>
    match s.mutex with
    | none => none
    | some m =>
      match m.owner with
      | some _ => none
      | none => some ({ w with pc := WorkerPc.load }, { s with mutex := some ⟨some k⟩ })
  | WorkerPc.load => some ({ w with pc := WorkerPc.store s.finishCount }, s)
  | WorkerPc.store v => some ({ w with pc := WorkerPc.release }, { s with finishCount := v + 1 })
  | WorkerPc.release =>
    match s.mutex with
    | none => none
    | some m =>
      if m.owner = some k then
        some ({ w with pc := WorkerPc.done }, { s with mutex := some ⟨none⟩ })
      else none
  | WorkerPc.done => none

/-- One step of `ThreadedScale` itself. -/
def Sys.mainStep (s : Sys) : Option Sys :=
  match s.main with
  | MainPc.branch =>
    if s.cores > 1 then some { s with main := MainPc.spawn 0 }
    else
      some { s with
        workers := s.workers ++
          [startWorker (Launch.call s.useBilinear (ThreadData__ctor 0 s.newHeight))],
        main := MainPc.call }
  | MainPc.spawn i =>
    if i < s.cores - 1 then
      some { s with
        workers := s.workers ++
          [startWorker (Launch.thread s.useBilinear
            (ThreadData__ctor (s.slice * i) (s.slice * (i + 1))))],
        main := MainPc.spawn (i + 1) }
    else
      some { s with
        workers := s.workers ++
          [startWorker (Launch.call s.useBilinear (ThreadData__ctor (s.slice * i) s.newHeight))],
        main := MainPc.call }
  | MainPc.call =>
    match s.workers.getLast? with
    | none => none
    | some w =>
      if w.pc = WorkerPc.done then
        some { s with main := if s.cores > 1 then MainPc.join else MainPc.writeBack }
      else none
  | MainPc.join =>
    if s.statics.finishCount < s.cores then some { s with main := MainPc.sleep }
    else some { s with main := MainPc.writeBack }
  | MainPc.sleep => some { s with main := MainPc.join }
  | MainPc.writeBack =>
    some { s with
      tex := ⟨s.newWidth, s.newHeight, s.statics.newColors⟩,
      statics := { s.statics with texColors := [], newColors := [] },
      main := MainPc.finished }
  | MainPc.finished => none

/-- One step of the system by the given actor. -/
def Sys.step (a : Actor) (s : Sys) : Option Sys :=
  match a with
  | Actor.main => s.mainStep
  | Actor.worker k =>
    match s.workers[k]? with
    | none => none
    | some w =>
      (w.step k s.statics).map
        (fun r => { s with workers := s.workers.set k r.1, statics := r.2 })

/-- `TextureScale_ThreadedScale (tex, newWidth, newHeight, useBilinear)` after
its set-up, before the test `cores > 1`. -/
def ThreadedScale_start (tex : Texture2D) (newWidth newHeight : Int) (useBilinear : Bool)
    (processorCount : Int) (s : TextureScale) : Option Sys :=
  (ThreadedScale_setup tex newWidth newHeight useBilinear processorCount s).map
    (fun t => ⟨tex, newWidth, newHeight, useBilinear, t.cores, t.slice, t.statics,
      MainPc.branch, []⟩)

/-- The states reachable from `s0` under any interleaving of the actors. -/
inductive Reachable (s0 : Sys) : Sys → Prop where
  | init : Reachable s0 s0
  | step {s s1 : Sys} (a : Actor) : Reachable s0 s → Sys.step a s = some s1 → Reachable s0 s1

/-- Run a schedule: the actors take one step each, in the given order. -/
def Sys.run : List Actor → Sys → Option Sys
  | [], s => some s
  | a :: as, s => (s.step a).bind (Sys.run as)

/-- The worker is between `WaitOne` and `ReleaseMutex`. -/
def inCrit : WorkerPc → Bool
  | WorkerPc.load => true
  | WorkerPc.store _ => true
  | WorkerPc.release => true
  | _ => false

/-- The worker has written its increment of `finishCount`. -/
def incremented : WorkerPc → Bool
  | WorkerPc.release => true
  | WorkerPc.done => true
  | _ => false

/-- The rows `lo, lo + 1, …, hi - 1`. -/
def rowList (lo hi : Int) : List Int :=
  (List.range (hi - lo).toNat).map (fun (k : Nat) => lo + (k : Int))

/-- The history of a worker agrees with its program counter: in the row loop
at `y` it has processed the rows `start … y - 1`; after the loop it has
processed all the rows of its range. -/
def RowsOk (w : Worker) : Prop :=
  match w.pc with
  | WorkerPc.row y =>
    w.launch.data.start ≤ y ∧ (y ≤ w.launch.data.end_ ∨ y = w.launch.data.start) ∧
      w.rowsDone = rowList w.launch.data.start y
  | _ => w.rowsDone = rowList w.launch.data.start w.launch.data.end_

/-- What the workers started so far must be, given where `ThreadedScale` is. -/
def PlanOk (s : Sys) : Prop :=
  match s.main with
  | MainPc.branch => s.workers = []
  | MainPc.spawn i =>
    1 < s.cores ∧ 0 ≤ i ∧ i ≤ s.cores - 1 ∧
      s.workers.map Worker.launch = ThreadedScale_spawnLoop s.useBilinear s.slice i.toNat 0
  | _ =>
    s.workers.map Worker.launch =
      ThreadedScale_launches s.useBilinear s.cores s.slice s.newHeight

/-- The part of the invariant that speaks of the workers and the statics. -/
structure WInv (ws : List Worker) (st : TextureScale) : Prop where
  owner_of_crit : ∀ (k : Nat) (w : Worker), ws[k]? = some w → inCrit w.pc = true →
    st.mutex = some ⟨some k⟩
  crit_of_owner : ∀ k : Nat, st.mutex = some ⟨some k⟩ →
    ∃ w : Worker, ws[k]? = some w ∧ inCrit w.pc = true
  fresh : ∀ (k : Nat) (w : Worker) (v : Int), ws[k]? = some w → w.pc = WorkerPc.store v →
    v = st.finishCount
  count : st.finishCount = (ws.countP (fun w => incremented w.pc) : Nat)
  rows : ∀ w ∈ ws, RowsOk w

/-- The invariant of the transition system. -/
structure Inv (s : Sys) : Prop where
  cores_pos : 1 ≤ s.cores
  winv : WInv s.workers s.statics
  plan : PlanOk s
  joined : s.main = MainPc.writeBack → 1 < s.cores → ¬ s.statics.finishCount < s.cores

/-- A one-pixel texture. -/
def tex11 : Texture2D := ⟨1, 1, [⟨5, 6, 7, 1⟩]⟩

/-- The start of `ThreadedScale (tex11, 1, 2, false)` on two processors. -/
def demoInit : Sys :=
  match ThreadedScale_start tex11 1 2 false 2 statics0 with
  | some s => s
  | none => ⟨tex11, 1, 2, false, 0, 0, statics0, MainPc.finished, []⟩

/-- A schedule that takes `demoInit` to the write-back: the calling thread
starts one thread and runs its own worker to the end while the thread
processes its row, finds `finishCount = 1` and sleeps; the thread then
finishes, and the join test succeeds. -/
def demoSchedule : List Actor :=
  [Actor.main, Actor.main, Actor.main,
   Actor.worker 1, Actor.worker 1, Actor.worker 1, Actor.worker 0, Actor.worker 1,
   Actor.worker 1, Actor.worker 1, Actor.main, Actor.main,
   Actor.worker 0, Actor.main, Actor.main,
   Actor.worker 0, Actor.worker 0, Actor.worker 0, Actor.worker 0, Actor.main, Actor.main]

/-- The state after the first `n` steps of `demoSchedule`. -/
def demoState (n : Nat) : Sys :=
  match Sys.run (demoSchedule.take n) demoInit with
  | some s => s
  | none => demoInit

/-- The argument of the call of `Rigidbody_set_velocity` in `FPSController_OnJump`,
when the call is executed: the call is in the block skipped by
`if (!isGrounded) goto IL_0050`. -/
def FPSController_OnJump_setVelocity (sqrtf : ℚ → ℚ) (c : FPSController) (e : Engine) :
    Option Vector3 :=
  if c.isGrounded then
    some (Vector3__ctor e.velocity.x (sqrtf (c.jumpForce * 2 * c.gravity)) e.velocity.z)
  else
    none

/-- The fields of a `PlayerControls` object.  Every field is a reference to an
engine object, kept as its address (`0` is `null`). -/
structure PlayerControls where
  asset : Nat
  m_Player : Nat
  m_PlayerActionsCallbackInterfaces : Nat
  m_Player_Move : Nat
  m_Player_Look : Nat
  m_Player_Jump : Nat
deriving DecidableEq, Repr

/-- The struct `PlayerActions`: its one field `m_Wrapper` is a reference to a
`PlayerControls` object. -/
structure PlayerActions where
  m_Wrapper : Nat
deriving DecidableEq, Repr

/-- The `PlayerControls` objects of the managed heap by address; there is no
object at `null` or at a dangling address. -/
abbrev ControlsHeap := Nat → Option PlayerControls

/-- `PlayerActions__ctor (wrapper)`: `m_Wrapper = wrapper`. -/
def PlayerActions__ctor (wrapper : Nat) : PlayerActions := ⟨wrapper⟩

/-- `PlayerControls_get_Player`: a zeroed `PlayerActions` initialised by
`PlayerActions__ctor (this)`.  The object `this` is not read. -/
def PlayerControls_get_Player (this : Nat) (heap : ControlsHeap) : PlayerActions × ControlsHeap :=
  (PlayerActions__ctor this, heap)

/-- `PlayerActions_get_Move`: `m_Wrapper->m_Player_Move`; a wrapper that is no
object is a null dereference (`none`). -/
def PlayerActions_get_Move (p : PlayerActions) (heap : ControlsHeap) :
    Option (Nat × ControlsHeap) :=
  match heap p.m_Wrapper with
  | none => none
  | some L_0 => some (L_0.m_Player_Move, heap)

/-- `PlayerActions_get_Look`: `m_Wrapper->m_Player_Look`. -/
def PlayerActions_get_Look (p : PlayerActions) (heap : ControlsHeap) :
    Option (Nat × ControlsHeap) :=
  match heap p.m_Wrapper with
  | none => none
  | some L_0 => some (L_0.m_Player_Look, heap)

/-- `PlayerActions_get_Jump`: `m_Wrapper->m_Player_Jump`. -/
def PlayerActions_get_Jump (p : PlayerActions) (heap : ControlsHeap) :
    Option (Nat × ControlsHeap) :=
  match heap p.m_Wrapper with
  | none => none
  | some L_0 => some (L_0.m_Player_Jump, heap)

/-- `PlayerActions_Get`: `m_Wrapper->m_Player`. -/
def PlayerActions_Get (p : PlayerActions) (heap : ControlsHeap) :
    Option (Nat × ControlsHeap) :=
  match heap p.m_Wrapper with
  | none => none
  | some L_0 => some (L_0.m_Player, heap)

/-- `PlayerActions_op_Implicit (set)`: the conversion to `InputActionMap` is
`PlayerActions_Get (&set)`. -/
def PlayerActions_op_Implicit (set : PlayerActions) (heap : ControlsHeap) :
    Option (Nat × ControlsHeap) :=
  PlayerActions_Get set heap

/-- A heap with one `PlayerControls` object, at address `7`. -/
def heap7 : ControlsHeap := fun a => if a = 7 then some ⟨1, 2, 3, 4, 5, 6⟩ else none

/-- The local `yFloor` of `BilinearScale` for the row `y`:
`(int)floorf (y * ratioY)`. -/
def BilinearScale_yFloor (y : Int) (s : TextureScale) : Int :=
  il2cpp_codegen_cast_double_to_int (floorf ((y : ℚ) * s.ratioY))

/-- The local `xFloor` of `BilinearScale` for the column `x`:
`(int)floorf (x * ratioX)`. -/
def BilinearScale_xFloor (x : Int) (s : TextureScale) : Int :=
  il2cpp_codegen_cast_double_to_int (floorf ((x : ℚ) * s.ratioX))

/-- The four indices of `texColors` that `BilinearScale` reads for the output
pixel `(y, x)`, in the order of the reads: `y1 + xFloor`, `y1 + xFloor + 1`,
`y2 + xFloor`, `y2 + xFloor + 1` with `y1 = yFloor * w`, `y2 = (yFloor + 1) * w`. -/
def BilinearScale_srcIndices (y x : Int) (s : TextureScale) : List Int :=
  let yFloor := BilinearScale_yFloor y s
  let xFloor := BilinearScale_xFloor x s
  let y1 := yFloor * s.w
  let y2 := (yFloor + 1) * s.w
  [y1 + xFloor, y1 + xFloor + 1, y2 + xFloor, y2 + xFloor + 1]

/-- The index of `texColors` that `PointScale` reads for the output pixel
`(y, x)`: `(int)(thisY + ratioX * x)` with `thisY = (int)(ratioY * y) * w`. -/
def PointScale_srcIndex (y x : Int) (s : TextureScale) : Int :=
  il2cpp_codegen_cast_double_to_int
    (((il2cpp_codegen_cast_double_to_int (s.ratioY * (y : ℚ)) * s.w : Int) : ℚ) +
      s.ratioX * (x : ℚ))

/-- The colour that the inner-loop body of `BilinearScale` (`bilinear = true`)
or of `PointScale` computes for the output pixel `(y, x)`; `none` when it reads
outside `texColors`. -/
def pixelValue (bilinear : Bool) (y x : Int) (s : TextureScale) : Option Color :=
  if bilinear then
    let yFloor := BilinearScale_yFloor y s
    let xFloor := BilinearScale_xFloor x s
    let y1 := yFloor * s.w
    let y2 := (yFloor + 1) * s.w
    let xLerp : ℚ := (x : ℚ) * s.ratioX - (xFloor : ℚ)
    match GetAtUnchecked s.texColors (y1 + xFloor),
          GetAtUnchecked s.texColors (y1 + xFloor + 1),
          GetAtUnchecked s.texColors (y2 + xFloor),
          GetAtUnchecked s.texColors (y2 + xFloor + 1) with
    | some c11, some c12, some c21, some c22 =>
      some (TextureScale_ColorLerpUnclamped
        (TextureScale_ColorLerpUnclamped c11 c12 xLerp)
        (TextureScale_ColorLerpUnclamped c21 c22 xLerp)
        ((y : ℚ) * s.ratioY - (yFloor : ℚ)))
    | _, _, _, _ => none
  else
    GetAtUnchecked s.texColors (PointScale_srcIndex y x s)

/-- The store that ends the inner-loop body: `newColors[i] = v`, where a
missing value or an index outside `newColors` aborts. -/
def storePixel (v : Option Color) (i : Int) (t : TextureScale) : Option TextureScale :=
  match v with
  | none => none
  | some c =>
    match SetAtUnchecked t.newColors i c with
    | none => none
    | some arr => some { t with newColors := arr }

/-- Two values of the static fields show the same images to a worker: the
source, the ratios and the widths agree and `newColors` has the same length
(`finishCount` and the mutex may differ). -/
def SameImage (s t : TextureScale) : Prop :=
  t.texColors = s.texColors ∧ t.w = s.w ∧ t.ratioX = s.ratioX ∧ t.ratioY = s.ratioY ∧
    t.w2 = s.w2 ∧ t.newColors.length = s.newColors.length

/-- Every access of the row `y` is inside its array: each pixel of the row has
a value and a destination index inside `newColors`. -/
def RowOk (b : Bool) (y : Int) (s : TextureScale) : Prop :=
  ∀ x : Int, 0 ≤ x → x < s.w2 →
    (pixelValue b y x s).isSome = true ∧ 0 ≤ y * s.w2 + x ∧
      y * s.w2 + x < (s.newColors.length : Int)

/-- A `2 × 1` texture: one row of two pixels. -/
def tex21 : Texture2D := ⟨2, 1, [⟨1, 0, 0, 1⟩, ⟨2, 0, 0, 1⟩]⟩

/-- Some worker has processed the row `y`. -/
def RowDone (ws : List Worker) (y : Int) : Prop := ∃ w ∈ ws, y ∈ w.rowsDone

/-- What the images are during a run of `ThreadedScale` that started with the
static fields `st`: the workers see the images of `st`; every processed row
made its accesses inside the arrays; `newColors` holds the pixel values in the
processed rows and is as in `st` elsewhere; from the write-back on all workers
have left their loops; after it the texture holds what a single worker
over `[0, newHeight)` produces from `st`. -/
structure ImgInv (st : TextureScale) (s : Sys) : Prop where
  bil : ∀ w ∈ s.workers, w.launch.bilinear = s.useBilinear
  same : s.main ≠ MainPc.finished → SameImage st s.statics
  ok : ∀ y, RowDone s.workers y → RowOk s.useBilinear y st
  pix : s.main ≠ MainPc.finished → ∀ j,
    (RowDone s.workers (j / st.w2) →
      GetAtUnchecked s.statics.newColors j =
        pixelValue s.useBilinear (j / st.w2) (j % st.w2) st) ∧
    (¬ RowDone s.workers (j / st.w2) →
      GetAtUnchecked s.statics.newColors j = GetAtUnchecked st.newColors j)
  allDone : s.main = MainPc.writeBack ∨ s.main = MainPc.finished →
    ∀ w ∈ s.workers, incremented w.pc = true
  fin : s.main = MainPc.finished →
    ∃ t, forRange 0 s.newHeight (rowBody s.useBilinear) st = some t ∧
      s.tex = ⟨s.newWidth, s.newHeight, t.newColors⟩

/-- The state `s` with `ThreadedScale` at `m`, the workers `ws` and the static
fields `st`. -/
def Sys.update (s : Sys) (m : MainPc) (ws : List Worker) (st : TextureScale) : Sys :=
  { s with main := m, workers := ws, statics := st }

/-- The value `v` lies between the smallest and the largest of `a`, `b`, `c`
and `d`. -/
def between4 (a b c d v : ℚ) : Prop :=
  min (min a b) (min c d) ≤ v ∧ v ≤ max (max a b) (max c d)

/-- The three events of an `InputAction`: `started`, `performed`, `canceled`. -/
inductive Phase where
  | started
  | performed
  | canceled
deriving DecidableEq, Repr

/-- The method a delegate is bound to: slot `slot` of the interface
`IPlayerActions` (what `GetInterfaceMethodInfo (target, slot, IPlayerActions)`
finds on the target), or one of the handlers of `FPSController`
(`FPSController_OnMove_…_RuntimeMethod_var` and so on). -/
inductive Method where
  | IPlayerActions (slot : Nat)
  | OnMove
  | OnMoveCanceled
  | OnLook
  | OnLookCanceled
  | OnJump
deriving DecidableEq, Repr

/-- An `Action_1<CallbackContext>` delegate as `Action_1__ctor (target, method)`
makes it.  Two delegates with the same target and the same method are equal,
as for `Delegate.Equals`. -/
structure Action_1 where
  target : Nat
  method : Method
deriving DecidableEq, Repr

/-- A call into the input system: `InputActionMap_Enable (map)`,
`InputActionMap_Disable (map)`, `InputAction_add_started / add_performed /
add_canceled (action, d)` and `InputAction_remove_started / remove_performed /
remove_canceled (action, d)`. -/
inductive InputCall where
  | Enable (map : Nat)
  | Disable (map : Nat)
  | add (action : Nat) (phase : Phase) (d : Action_1)
  | remove (action : Nat) (phase : Phase) (d : Action_1)
deriving DecidableEq, Repr

/-- A `List<IPlayerActions>` object: its elements `_items[0 .. _size)`, oldest
first, and its `_version`.  The capacity of `_items` is not kept. -/
structure List_1 where
  items : List Nat
  version : Int
deriving DecidableEq, Repr

/-- The managed objects the input wrappers work on: the `PlayerControls`
objects and the `List<IPlayerActions>` objects by address, and the calls made
into the input system so far, oldest first. -/
structure World where
  controls : ControlsHeap
  lists : Nat → Option List_1
  calls : List InputCall

/-- Modelled from the spec: `GetInterfaceMethodInfo` is part of the IL2CPP
runtime, outside this file.  It reads the class of `obj`, so `obj = null` is a
null dereference (`none`); otherwise it finds the method in slot `slot` of
`IPlayerActions`. -/
def GetInterfaceMethodInfo (obj : Nat) (slot : Nat) : Option Method :=
  if obj = 0 then none else some (Method.IPlayerActions slot)

/-- Modelled from the spec: `InputAction.started += d` is engine code outside
this file; the call is recorded. -/
def InputAction_add_started (action : Nat) (d : Action_1) (w : World) : World :=
  { w with calls := w.calls ++ [InputCall.add action Phase.started d] }

/-- Modelled from the spec: `InputAction.performed += d`, recorded. -/
def InputAction_add_performed (action : Nat) (d : Action_1) (w : World) : World :=
  { w with calls := w.calls ++ [InputCall.add action Phase.performed d] }

/-- Modelled from the spec: `InputAction.canceled += d`, recorded. -/
def InputAction_add_canceled (action : Nat) (d : Action_1) (w : World) : World :=
  { w with calls := w.calls ++ [InputCall.add action Phase.canceled d] }

/-- Modelled from the spec: `InputAction.started -= d`, recorded. -/
def InputAction_remove_started (action : Nat) (d : Action_1) (w : World) : World :=
  { w with calls := w.calls ++ [InputCall.remove action Phase.started d] }

/-- Modelled from the spec: `InputAction.performed -= d`, recorded. -/
def InputAction_remove_performed (action : Nat) (d : Action_1) (w : World) : World :=
  { w with calls := w.calls ++ [InputCall.remove action Phase.performed d] }

/-- Modelled from the spec: `InputAction.canceled -= d`, recorded. -/
def InputAction_remove_canceled (action : Nat) (d : Action_1) (w : World) : World :=
  { w with calls := w.calls ++ [InputCall.remove action Phase.canceled d] }

/-- Modelled from the spec: `InputActionMap.Enable ()`, recorded. -/
def InputActionMap_Enable (map : Nat) (w : World) : World :=
  { w with calls := w.calls ++ [InputCall.Enable map] }

/-- Modelled from the spec: `InputActionMap.Disable ()`, recorded. -/
def InputActionMap_Disable (map : Nat) (w : World) : World :=
  { w with calls := w.calls ++ [InputCall.Disable map] }

/-- Modelled from the spec: `List_1__ctor` only forwards to the generic
constructor of `List<T>`, library code whose body is outside this file: the
new list is empty and its `_version` is `0`. -/
def List_1__ctor : List_1 := ⟨[], 0⟩

/-- Modelled from the spec: `List<T>.Contains (item)` is library code outside
this file; it compares references.  `none` when there is no list at `a`. -/
def List_1_Contains (a : Nat) (item : Nat) (w : World) : Option Bool :=
  match w.lists a with
  | none => none
  | some l => some (decide (item ∈ l.items))

/-- `List_1_Add (item)` on the list at `a`: `_version++` and the item is
stored at index `_size` (in place, or by `AddWithResize` when `_items` is
full). -/
def List_1_Add (a : Nat) (item : Nat) (w : World) : Option World :=
  match w.lists a with
  | none => none
  | some l =>
    some { w with lists := Function.update w.lists a (some ⟨l.items ++ [item], l.version + 1⟩) }

/-- Modelled from the spec: `List<T>.Remove (item)` is library code outside
this file; it removes the first element equal to `item` and answers whether
there was one. -/
def List_1_Remove (a : Nat) (item : Nat) (w : World) : Option (Bool × World) :=
  match w.lists a with
  | none => none
  | some l =>
    if item ∈ l.items then
      some (true,
        { w with lists := Function.update w.lists a (some ⟨l.items.erase item, l.version + 1⟩) })
    else some (false, w)

/-- `List_1_Clear` on the list at `a`: `_version++`, `_size = 0`. -/
def List_1_Clear (a : Nat) (w : World) : Option World :=
  match w.lists a with
  | none => none
  | some l => some { w with lists := Function.update w.lists a (some ⟨[], l.version + 1⟩) }

/-- Modelled from the spec: the check at the start of `Enumerator_MoveNext`,
library code outside this file: it fails (`InvalidOperationException`) when
the `_version` of the list at `a` is no longer `version`, the value at
`GetEnumerator`. -/
def Enumerator_checkVersion (a : Nat) (version : Int) (u : World) : Option World :=
  match u.lists a with
  | none => none
  | some l => if l.version = version then some u else none

/-- Modelled from the spec: the loop `foreach (var item in list) body (item)`
over the list at `a` with `List<T>.Enumerator`: before every element, and once
more after the last, `MoveNext` checks the version of the list. -/
def List_1_forEach (a : Nat) (body : Nat → World → Option World) (w : World) : Option World :=
  match w.lists a with
  | none => none
  | some l0 =>
    (l0.items.foldlM (fun u item => (Enumerator_checkVersion a l0.version u).bind (body item))
      w).bind (Enumerator_checkVersion a l0.version)

/-- One statement `action.phase += instance.Method` of `AddCallbacks`, where
`getter` is `PlayerActions_get_Move`, `get_Look` or `get_Jump`, `slot` is the
interface slot of the method and `add` is `InputAction_add_started`,
`add_performed` or `add_canceled`: the getter is called, the delegate
`Action_1 (instance, GetInterfaceMethodInfo (instance, slot, IPlayerActions))`
is made, and `add` is called on the action. -/
def addCallback (getter : PlayerActions → ControlsHeap → Option (Nat × ControlsHeap))
    (slot : Nat) (add : Nat → Action_1 → World → World) (p : PlayerActions) (inst : Nat)
    (w : World) : Option World :=
  match getter p w.controls with
  | none => none
  | some (L_8, heap) =>
    match GetInterfaceMethodInfo inst slot with
    | none => none
    | some m => some (add L_8 ⟨inst, m⟩ { w with controls := heap })

/-- `PlayerActions_AddCallbacks (instance)`: nothing when `instance` is null or
already in `m_Wrapper.m_PlayerActionsCallbackInterfaces`; otherwise the
instance is added to that list and its three interface methods are added to
`started`, `performed` and `canceled` of `Move` (slot 0), `Look` (slot 1)
and `Jump` (slot 2). -/
def PlayerActions_AddCallbacks (p : PlayerActions) (inst : Nat) (w : World) : Option World :=
  if inst = 0 then some w
  else
    match w.controls p.m_Wrapper with
    | none => none
    | some L_1 =>
      match List_1_Contains L_1.m_PlayerActionsCallbackInterfaces inst w with
      | none => none
      | some true => some w
      | some false =>
        (List_1_Add L_1.m_PlayerActionsCallbackInterfaces inst w).bind fun w =>
        (addCallback PlayerActions_get_Move 0 InputAction_add_started p inst w).bind fun w =>
        (addCallback PlayerActions_get_Move 0 InputAction_add_performed p inst w).bind fun w =>
        (addCallback PlayerActions_get_Move 0 InputAction_add_canceled p inst w).bind fun w =>
        (addCallback PlayerActions_get_Look 1 InputAction_add_started p inst w).bind fun w =>
        (addCallback PlayerActions_get_Look 1 InputAction_add_performed p inst w).bind fun w =>
        (addCallback PlayerActions_get_Look 1 InputAction_add_canceled p inst w).bind fun w =>
        (addCallback PlayerActions_get_Jump 2 InputAction_add_started p inst w).bind fun w =>
        (addCallback PlayerActions_get_Jump 2 InputAction_add_performed p inst w).bind fun w =>
        addCallback PlayerActions_get_Jump 2 InputAction_add_canceled p inst w

/-- `PlayerActions_UnregisterCallbacks (instance)`: the three interface methods
of the instance are removed from `started`, `performed` and `canceled` of
`Move` (slot 0), `Look` (slot 1) and `Jump` (slot 2); every statement has the
shape of `addCallback` with a `remove_…` call. -/
def PlayerActions_UnregisterCallbacks (p : PlayerActions) (inst : Nat) (w : World) :
    Option World :=
  (addCallback PlayerActions_get_Move 0 InputAction_remove_started p inst w).bind fun w =>
  (addCallback PlayerActions_get_Move 0 InputAction_remove_performed p inst w).bind fun w =>
  (addCallback PlayerActions_get_Move 0 InputAction_remove_canceled p inst w).bind fun w =>
  (addCallback PlayerActions_get_Look 1 InputAction_remove_started p inst w).bind fun w =>
  (addCallback PlayerActions_get_Look 1 InputAction_remove_performed p inst w).bind fun w =>
  (addCallback PlayerActions_get_Look 1 InputAction_remove_canceled p inst w).bind fun w =>
  (addCallback PlayerActions_get_Jump 2 InputAction_remove_started p inst w).bind fun w =>
  (addCallback PlayerActions_get_Jump 2 InputAction_remove_performed p inst w).bind fun w =>
  addCallback PlayerActions_get_Jump 2 InputAction_remove_canceled p inst w

/-- `PlayerActions_RemoveCallbacks (instance)`: when `List.Remove` finds the
instance, `UnregisterCallbacks (instance)`. -/
def PlayerActions_RemoveCallbacks (p : PlayerActions) (inst : Nat) (w : World) : Option World :=
  match w.controls p.m_Wrapper with
  | none => none
  | some L_0 =>
    match List_1_Remove L_0.m_PlayerActionsCallbackInterfaces inst w with
    | none => none
    | some (true, w) => PlayerActions_UnregisterCallbacks p inst w
    | some (false, w) => some w

/-- `PlayerActions_SetCallbacks (instance)`: `UnregisterCallbacks` for every
element of the list, `Clear`, then `AddCallbacks (instance)`. -/
def PlayerActions_SetCallbacks (p : PlayerActions) (inst : Nat) (w : World) : Option World :=
  match w.controls p.m_Wrapper with
  | none => none
  | some L_0 =>
    (List_1_forEach L_0.m_PlayerActionsCallbackInterfaces
      (fun item u => PlayerActions_UnregisterCallbacks p item u) w).bind fun w =>
    match w.controls p.m_Wrapper with
    | none => none
    | some L_6 =>
      (List_1_Clear L_6.m_PlayerActionsCallbackInterfaces w).bind fun w =>
      PlayerActions_AddCallbacks p inst w

/-- `PlayerControls__ctor` on the object at `this`, in the order of the source:
`m_PlayerActionsCallbackInterfaces = new List<IPlayerActions> ()`
(`List_1__ctor` on a new object), then
`asset = InputActionAsset.FromJson (…)`, `m_Player = asset.FindActionMap
("Player", true)` and `m_Player_Move`, `m_Player_Look`, `m_Player_Jump =
m_Player.FindAction (…, true)`.  The address `list` of the new list and the
references `asset`, `map`, `move`, `look`, `jump` the engine answers are
arguments. -/
def PlayerControls__ctor (this list asset map move look jump : Nat) (w : World) : World :=
  { w with
    lists := Function.update w.lists list (some List_1__ctor),
    controls := Function.update w.controls this (some ⟨asset, map, list, move, look, jump⟩) }

/-- One call of the public interface for callback instances. -/
inductive CallbackOp where
  | AddCallbacks (inst : Nat)
  | RemoveCallbacks (inst : Nat)
  | SetCallbacks (inst : Nat)
deriving DecidableEq, Repr

/-- The call `op` on the wrapper `p`. -/
def CallbackOp.apply (p : PlayerActions) : CallbackOp → World → Option World
  | CallbackOp.AddCallbacks inst, w => PlayerActions_AddCallbacks p inst w
  | CallbackOp.RemoveCallbacks inst, w => PlayerActions_RemoveCallbacks p inst w
  | CallbackOp.SetCallbacks inst, w => PlayerActions_SetCallbacks p inst w

/-- A sequence of calls on the wrapper `p`, in order; a failing call ends the
run. -/
def runCallbackOps (p : PlayerActions) : List CallbackOp → World → Option World
  | [], w => some w
  | op :: ops, w => (op.apply p w).bind (runCallbackOps p ops)

/-- An empty world: no objects, no calls. -/
def world0 : World := ⟨fun _ => none, fun _ => none, []⟩

/-- The world after `new PlayerControls ()` at address `7` with its list at
`8`, the asset at `1`, the map at `2` and the actions at `4`, `5`, `6`. -/
def world7 : World := PlayerControls__ctor 7 8 1 2 4 5 6 world0

/-- The nine registrations of `AddCallbacks (inst)` on the actions of the
`PlayerControls` object `c`, in program order. -/
def registrations (c : PlayerControls) (inst : Nat) : List InputCall :=
  [InputCall.add c.m_Player_Move Phase.started ⟨inst, Method.IPlayerActions 0⟩,
   InputCall.add c.m_Player_Move Phase.performed ⟨inst, Method.IPlayerActions 0⟩,
   InputCall.add c.m_Player_Move Phase.canceled ⟨inst, Method.IPlayerActions 0⟩,
   InputCall.add c.m_Player_Look Phase.started ⟨inst, Method.IPlayerActions 1⟩,
   InputCall.add c.m_Player_Look Phase.performed ⟨inst, Method.IPlayerActions 1⟩,
   InputCall.add c.m_Player_Look Phase.canceled ⟨inst, Method.IPlayerActions 1⟩,
   InputCall.add c.m_Player_Jump Phase.started ⟨inst, Method.IPlayerActions 2⟩,
   InputCall.add c.m_Player_Jump Phase.performed ⟨inst, Method.IPlayerActions 2⟩,
   InputCall.add c.m_Player_Jump Phase.canceled ⟨inst, Method.IPlayerActions 2⟩]

/-- The removal that matches a registration: same action, same phase, same
delegate. -/
def InputCall.undo : InputCall → InputCall
  | InputCall.add action phase d => InputCall.remove action phase d
  | InputCall.remove action phase d => InputCall.add action phase d
  | InputCall.Enable map => InputCall.Disable map
  | InputCall.Disable map => InputCall.Enable map

/-- The nine removals of `UnregisterCallbacks (inst)` on the actions of `c`, in
program order. -/
def removals (c : PlayerControls) (inst : Nat) : List InputCall :=
  [InputCall.remove c.m_Player_Move Phase.started ⟨inst, Method.IPlayerActions 0⟩,
   InputCall.remove c.m_Player_Move Phase.performed ⟨inst, Method.IPlayerActions 0⟩,
   InputCall.remove c.m_Player_Move Phase.canceled ⟨inst, Method.IPlayerActions 0⟩,
   InputCall.remove c.m_Player_Look Phase.started ⟨inst, Method.IPlayerActions 1⟩,
   InputCall.remove c.m_Player_Look Phase.performed ⟨inst, Method.IPlayerActions 1⟩,
   InputCall.remove c.m_Player_Look Phase.canceled ⟨inst, Method.IPlayerActions 1⟩,
   InputCall.remove c.m_Player_Jump Phase.started ⟨inst, Method.IPlayerActions 2⟩,
   InputCall.remove c.m_Player_Jump Phase.performed ⟨inst, Method.IPlayerActions 2⟩,
   InputCall.remove c.m_Player_Jump Phase.canceled ⟨inst, Method.IPlayerActions 2⟩]

/-- The callback-interface list of the wrapper is in order: the wrapper of `p`
is the object `c`, its list exists, holds no `null` and no instance twice. -/
def ListOk (p : PlayerActions) (c : PlayerControls) (w : World) : Prop :=
  w.controls p.m_Wrapper = some c ∧
    ∃ l, w.lists c.m_PlayerActionsCallbackInterfaces = some l ∧ 0 ∉ l.items ∧ l.items.Nodup

/-- `PlayerActions_Enable`: `InputActionMap_Enable (PlayerActions_Get (this))`. -/
def PlayerActions_Enable (p : PlayerActions) (w : World) : Option World :=
  match PlayerActions_Get p w.controls with
  | none => none
  | some (L_0, heap) => some (InputActionMap_Enable L_0 { w with controls := heap })

/-- `PlayerActions_Disable`: `InputActionMap_Disable (PlayerActions_Get (this))`. -/
def PlayerActions_Disable (p : PlayerActions) (w : World) : Option World :=
  match PlayerActions_Get p w.controls with
  | none => none
  | some (L_0, heap) => some (InputActionMap_Disable L_0 { w with controls := heap })

/-- One statement `inputActions.Player.X.phase += handler` (or `-=`) of the
controller at `this`, whose field `inputActions` holds the reference
`inputActions`: `PlayerControls_get_Player`, the getter of the action, the
delegate `Action_1 (this, handler)`, then the engine call `change`. -/
def handlerStatement (getter : PlayerActions → ControlsHeap → Option (Nat × ControlsHeap))
    (change : Nat → Action_1 → World → World) (handler : Method) (this inputActions : Nat)
    (w : World) : Option World :=
  match PlayerControls_get_Player inputActions w.controls with
  | (V_0, heap) =>
    match getter V_0 heap with
    | none => none
    | some (L_4, heap) => some (change L_4 ⟨this, handler⟩ { w with controls := heap })

/-- `FPSController_OnEnable` of the controller at `this` with the field
`inputActions`: `inputActions.Player.Enable ()`, then the five subscriptions. -/
def FPSController_OnEnable (this inputActions : Nat) (w : World) : Option World :=
  match PlayerControls_get_Player inputActions w.controls with
  | (V_0, heap) =>
    (PlayerActions_Enable V_0 { w with controls := heap }).bind fun w =>
    (handlerStatement PlayerActions_get_Move InputAction_add_performed Method.OnMove
      this inputActions w).bind fun w =>
    (handlerStatement PlayerActions_get_Move InputAction_add_canceled Method.OnMoveCanceled
      this inputActions w).bind fun w =>
    (handlerStatement PlayerActions_get_Look InputAction_add_performed Method.OnLook
      this inputActions w).bind fun w =>
    (handlerStatement PlayerActions_get_Look InputAction_add_canceled Method.OnLookCanceled
      this inputActions w).bind fun w =>
    handlerStatement PlayerActions_get_Jump InputAction_add_performed Method.OnJump
      this inputActions w

/-- `FPSController_OnDisable`: `inputActions.Player.Disable ()`, then the five
removals, in the order of `OnEnable`. -/
def FPSController_OnDisable (this inputActions : Nat) (w : World) : Option World :=
  match PlayerControls_get_Player inputActions w.controls with
  | (V_0, heap) =>
    (PlayerActions_Disable V_0 { w with controls := heap }).bind fun w =>
    (handlerStatement PlayerActions_get_Move InputAction_remove_performed Method.OnMove
      this inputActions w).bind fun w =>
    (handlerStatement PlayerActions_get_Move InputAction_remove_canceled Method.OnMoveCanceled
      this inputActions w).bind fun w =>
    (handlerStatement PlayerActions_get_Look InputAction_remove_performed Method.OnLook
      this inputActions w).bind fun w =>
    (handlerStatement PlayerActions_get_Look InputAction_remove_canceled Method.OnLookCanceled
      this inputActions w).bind fun w =>
    handlerStatement PlayerActions_get_Jump InputAction_remove_performed Method.OnJump
      this inputActions w

/-- One entry of a subscription state: the delegate `d` is subscribed to the
event `phase` of the action `action`. -/
structure Subscription where
  action : Nat
  phase : Phase
  d : Action_1
deriving DecidableEq, Repr

/-- The five subscriptions the spec lists for the controller at `this` on the
actions of `c`: Move.performed to OnMove, Move.canceled to OnMoveCanceled,
Look.performed to OnLook, Look.canceled to OnLookCanceled, Jump.performed to
OnJump. -/
def handlers (this : Nat) (c : PlayerControls) : List Subscription :=
  [⟨c.m_Player_Move, Phase.performed, ⟨this, Method.OnMove⟩⟩,
   ⟨c.m_Player_Move, Phase.canceled, ⟨this, Method.OnMoveCanceled⟩⟩,
   ⟨c.m_Player_Look, Phase.performed, ⟨this, Method.OnLook⟩⟩,
   ⟨c.m_Player_Look, Phase.canceled, ⟨this, Method.OnLookCanceled⟩⟩,
   ⟨c.m_Player_Jump, Phase.performed, ⟨this, Method.OnJump⟩⟩]

/-- Modelled from the spec: the effect of one engine call on an explicit
subscription state, a multiset of entries.  The engine's event lists are not
in this file; in the spec's words an addition puts one entry in and a removal
deletes one matching entry (none when there is no match).  Enabling and
disabling a map leave the subscriptions alone. -/
def InputCall.run : InputCall → Multiset Subscription → Multiset Subscription
  | InputCall.add action phase d, S => (⟨action, phase, d⟩ : Subscription) ::ₘ S
  | InputCall.remove action phase d, S => S.erase ⟨action, phase, d⟩
  | InputCall.Enable _, S => S
  | InputCall.Disable _, S => S

/-- The effect of a sequence of engine calls, in order, on a subscription
state. -/
def runCalls (calls : List InputCall) (S : Multiset Subscription) : Multiset Subscription :=
  calls.foldl (fun S call => call.run S) S

/-- A `float` that is a number or NaN.  A number is an exact rational, as
everywhere in this file (rounding and the infinities are left out); `nan` is
the value for which every ordered comparison is false. -/
inductive Single where
  | num (q : ℚ)
  | nan
deriving DecidableEq, Repr

/-- `il2cpp_codegen_add` on floats: NaN when an operand is NaN. -/
def Single.add : Single → Single → Single
  | Single.num a, Single.num b => Single.num (a + b)
  | _, _ => Single.nan

/-- `il2cpp_codegen_subtract` on floats: NaN when an operand is NaN. -/
def Single.sub : Single → Single → Single
  | Single.num a, Single.num b => Single.num (a - b)
  | _, _ => Single.nan

/-- `il2cpp_codegen_multiply` on floats: NaN when an operand is NaN. -/
def Single.mul : Single → Single → Single
  | Single.num a, Single.num b => Single.num (a * b)
  | _, _ => Single.nan

/-- Unary minus on floats: `-NaN` is NaN. -/
def Single.neg : Single → Single
  | Single.num a => Single.num (-a)
  | Single.nan => Single.nan

/-- The comparison `a < b` of C on floats: false when an operand is NaN. -/
def Single.lt : Single → Single → Bool
  | Single.num a, Single.num b => decide (a < b)
  | _, _ => false

/-- The comparison `a > b` of C on floats: false when an operand is NaN. -/
def Single.gt (a b : Single) : Bool := Single.lt b a

/-- The comparison `a <= b` of C on floats: false when an operand is NaN. -/
def Single.le : Single → Single → Bool
  | Single.num a, Single.num b => decide (a ≤ b)
  | _, _ => false

/-- Unity `Vector2` with components that may be NaN. -/
structure Vector2_nan where
  x : Single
  y : Single
deriving DecidableEq, Repr

/-- `Vector2_op_Equality (lhs, rhs)` on floats that may be NaN:
`dx * dx + dy * dy < 9.99999944E-11f`, false when the sum is NaN. -/
def Vector2_op_Equality_nan (lhs rhs : Vector2_nan) : Bool :=
  let V_0 := Single.sub lhs.x rhs.x
  let V_1 := Single.sub lhs.y rhs.y
  Single.lt (Single.add (Single.mul V_0 V_0) (Single.mul V_1 V_1)) (Single.num kEpsilonSqr)

/-- `Vector2_op_Inequality (lhs, rhs)`: the negation of `Vector2_op_Equality`. -/
def Vector2_op_Inequality_nan (lhs rhs : Vector2_nan) : Bool :=
  !Vector2_op_Equality_nan lhs rhs

/-- `Mathf_Clamp (value, min, max)` on floats that may be NaN, test by test
as in the source: `min` when `value < min`, otherwise `max` when
`value > max`, otherwise `value`.  Both tests are false for a NaN `value`,
which is returned as it is. -/
def Mathf_Clamp_nan (value min max : Single) : Single :=
  if Single.lt value min then min else if Single.gt value max then max else value

/-- The fields of `FPSController` that `OnLook` and `HandleRotation` read or
write, as floats that may be NaN. -/
structure FPSController_nan where
  lookSpeed : Single
  lookXLimit : Single
  lookInput : Vector2_nan
  rotationX : Single
deriving DecidableEq, Repr

/-- What `HandleRotation` gives to the engine: the second argument of the
calls `transform.Rotate (0, V_0, 0)` (latest first), and the first argument of
the last `Quaternion.Euler (rotationX, 0, 0)` assigned to the local rotation of
the camera, if any. -/
structure Engine_nan where
  rotateCalls : List Single
  cameraPitch : Option Single
deriving DecidableEq, Repr

/-- `FPSController_OnLook (context)` on floats that may be NaN:
`lookInput = context.ReadValue<Vector2> ()`. -/
def FPSController_OnLook_nan (value : Vector2_nan) (c : FPSController_nan) :
    FPSController_nan :=
  { c with lookInput := value }

/-- `FPSController_HandleRotation` on floats that may be NaN, with
`Time.deltaTime = deltaTime`: the same statements as
`FPSController_HandleRotation`. -/
def FPSController_HandleRotation_nan (deltaTime : Single) (c : FPSController_nan)
    (e : Engine_nan) : FPSController_nan × Engine_nan :=
  if Vector2_op_Inequality_nan c.lookInput ⟨Single.num 0, Single.num 0⟩ then
    let V_0 := Single.mul (Single.mul c.lookInput.x c.lookSpeed) deltaTime
    let e := { e with rotateCalls := V_0 :: e.rotateCalls }
    let L_13 := Single.mul (Single.mul (Single.neg c.lookInput.y) c.lookSpeed) deltaTime
    let c := { c with rotationX := Single.add c.rotationX L_13 }
    let L_17 := Mathf_Clamp_nan c.rotationX (Single.neg c.lookXLimit) c.lookXLimit
    let c := { c with rotationX := L_17 }
    (c, { e with cameraPitch := some c.rotationX })
  else
    (c, e)

/-- `FPSController_Update` on floats that may be NaN: `HandleRotation`. -/
def FPSController_Update_nan (deltaTime : Single) (c : FPSController_nan) (e : Engine_nan) :
    FPSController_nan × Engine_nan :=
  FPSController_HandleRotation_nan deltaTime c e

/-- The look fields of a controller over exact numbers, as floats. -/
def FPSController.toNan (c : FPSController) : FPSController_nan :=
  ⟨Single.num c.lookSpeed, Single.num c.lookXLimit,
    ⟨Single.num c.lookInput.x, Single.num c.lookInput.y⟩, Single.num c.rotationX⟩

/-- The rotations given to the engine over exact numbers, as floats. -/
def Engine.toNan (e : Engine) : Engine_nan :=
  ⟨e.rotateCalls.map (fun v => Single.num v.y), e.cameraLocalEuler.map (fun v => Single.num v.x)⟩

/-- The first part of `TextureScale_ThreadedScale` with the length of the new
array in machine arithmetic.  The source allocates
`SZArrayNew (Color[], (uint32_t)((int32_t) il2cpp_codegen_multiply (newWidth,
newHeight)))`: the product of the two `int32_t` wraps and its low 32 bits are
the length, `(newWidth * newHeight) % 2 ^ 32`.  Everything else is as in
`ThreadedScale_setup`, where the product is exact. -/
def ThreadedScale_setup_int32 (tex : Texture2D) (newWidth newHeight : Int)
    (useBilinear : Bool) (processorCount : Int) (s : TextureScale) : Option ScaleSetup :=
  let s := { s with texColors := tex.pixels }
  let s := { s with newColors := SZArrayNew ((newWidth * newHeight) % 2 ^ 32) }
  let s :=
    if useBilinear then
      { s with ratioX := 1 / ((newWidth : ℚ) / ((tex.width - 1 : Int) : ℚ)),
               ratioY := 1 / ((newHeight : ℚ) / ((tex.height - 1 : Int) : ℚ)) }
    else
      { s with ratioX := (tex.width : ℚ) / (newWidth : ℚ),
               ratioY := (tex.height : ℚ) / (newHeight : ℚ) }
  let s := { s with w := tex.width, w2 := newWidth }
  let cores := Mathf_Min processorCount newHeight
  if cores = 0 then none
  else
    let slice := Int.tdiv newHeight cores
    let s := { s with finishCount := 0 }
    let s := match s.mutex with
      | some _ => s
      | none => { s with mutex := some ⟨none⟩ }
    some ⟨s, cores, slice⟩

theorem GetAtUnchecked_SetAtUnchecked {arr arr1 : List Color} {i : Int} {c : Color}
    (h : SetAtUnchecked arr i c = some arr1) (j : Int) :
    GetAtUnchecked arr1 j = if j = i then some c else GetAtUnchecked arr j := by
  unfold SetAtUnchecked at h
  split at h
  · rename_i hi
    obtain ⟨hi0, hilt⟩ := hi
    simp only [Option.some.injEq] at h
    subst h
    unfold GetAtUnchecked
    by_cases hj0 : 0 ≤ j
    · simp only [hj0, if_true, List.getElem?_set]
      by_cases hji : j = i
      · subst hji
        simp [hilt]
      · have : i.toNat ≠ j.toNat := by
          intro hc
          apply hji
          omega
        simp [hji, this]
    · simp only [hj0, if_false]
      have : j ≠ i := by omega
      simp [this]
  · simp at h

theorem length_SetAtUnchecked {arr arr1 : List Color} {i : Int} {c : Color}
    (h : SetAtUnchecked arr i c = some arr1) : arr1.length = arr.length := by
  unfold SetAtUnchecked at h
  split at h
  · simp only [Option.some.injEq] at h
    subst h
    simp
  · simp at h

theorem SetAtUnchecked_isSome {l : List Color} {i : Int} (c : Color)
    (h0 : 0 ≤ i) (h1 : i < l.length) : ∃ arr1, SetAtUnchecked l i c = some arr1 := by
  unfold SetAtUnchecked
  have : i.toNat < l.length := by omega
  simp [h0, this]

theorem GetAtUnchecked_isSome {l : List Color} {i : Int}
    (h0 : 0 ≤ i) (h1 : i < l.length) : ∃ c, GetAtUnchecked l i = some c := by
  unfold GetAtUnchecked
  have : i.toNat < l.length := by omega
  simp [h0, List.getElem?_eq_getElem this]

theorem forLoop_inv {σ : Type} (body : Int → σ → Option σ) (P : Int → σ → Prop) :
    ∀ (n : Nat) (lo : Int) (s : σ),
      (∀ i t, lo ≤ i → i < lo + n → P i t → ∃ t1, body i t = some t1 ∧ P (i + 1) t1) →
      P lo s → ∃ s1, forLoop body n lo s = some s1 ∧ P (lo + n) s1 := by
  intro n
  induction n with
  | zero =>
    intro lo s _ h0
    exact ⟨s, rfl, by simpa using h0⟩
  | succ k ih =>
    intro lo s hstep h0
    obtain ⟨t1, ht1, hP1⟩ := hstep lo s (le_refl _) (by push_cast; omega) h0
    obtain ⟨s1, hs1, hP⟩ := ih (lo + 1) t1
      (fun i t hi1 hi2 hPi => hstep i t (by omega) (by push_cast at hi2 ⊢; omega) hPi) hP1
    refine ⟨s1, ?_, ?_⟩
    · simp [forLoop, ht1, hs1]
    · have : lo + ((k + 1 : Nat) : Int) = lo + 1 + (k : Int) := by push_cast; ring
      rw [this]
      exact hP

theorem SameStatics.refl (s : TextureScale) : SameStatics s s :=
  ⟨rfl, rfl, rfl, rfl, rfl, rfl, rfl, rfl⟩

theorem SameStatics.setNew {s0 s : TextureScale} (h : SameStatics s0 s) {arr : List Color}
    (ha : arr.length = s.newColors.length) : SameStatics s0 { s with newColors := arr } := by
  obtain ⟨h1, h2, h3, h4, h5, h6, h7, h8⟩ := h
  exact ⟨h1, h2, h3, h4, h5, h6, h7, by simpa [ha] using h8⟩

/-- One pass of an inner loop that stores `E (base + x)` at index `base + x`
for `x = 0 … n - 1` fills the interval `[base, base + n)` and nothing else. -/
theorem fill_row (body : Int → TextureScale → Option TextureScale) (E : Int → Color)
    (s0 s : TextureScale) (base n : Int) (hn : 0 ≤ n)
    (hbody : ∀ x t, 0 ≤ x → x < n → SameStatics s0 t →
      ∃ arr, SetAtUnchecked t.newColors (base + x) (E (base + x)) = some arr ∧
        body x t = some { t with newColors := arr })
    (hs : SameStatics s0 s) :
    ∃ s1, forRange 0 n body s = some s1 ∧ SameStatics s0 s1 ∧
      ∀ j, GetAtUnchecked s1.newColors j =
        if base ≤ j ∧ j < base + n then some (E j) else GetAtUnchecked s.newColors j := by
  have key := forLoop_inv body
    (fun x t => SameStatics s0 t ∧ ∀ j, GetAtUnchecked t.newColors j =
        if base ≤ j ∧ j < base + x then some (E j) else GetAtUnchecked s.newColors j)
    (n - 0).toNat 0 s ?_ ?_
  · obtain ⟨s1, h1, h2, h3⟩ := key
    refine ⟨s1, h1, h2, ?_⟩
    have e : (0 : Int) + ((n - 0).toNat : Int) = n := by omega
    rw [e] at h3
    exact h3
  · intro x t hx0 hxn hP
    obtain ⟨hsame, hget⟩ := hP
    obtain ⟨arr, harr, hb⟩ := hbody x t hx0 (by omega) hsame
    refine ⟨_, hb, hsame.setNew (length_SetAtUnchecked harr), ?_⟩
    intro j
    show GetAtUnchecked arr j = _
    rw [GetAtUnchecked_SetAtUnchecked harr j, hget j]
    by_cases hj : j = base + x
    · subst hj
      have : base ≤ base + x ∧ base + x < base + (x + 1) := by omega
      simp [this]
    · by_cases hc : base ≤ j ∧ j < base + x
      · have : base ≤ j ∧ j < base + (x + 1) := by omega
        simp [hj, hc, this]
      · have : ¬ (base ≤ j ∧ j < base + (x + 1)) := by omega
        simp [hj, hc, this]
  · refine ⟨hs, ?_⟩
    intro j
    have : ¬ (base ≤ j ∧ j < base) := by omega
    simp [this]

/-- An outer loop whose row `y` fills `[y * W, y * W + W)` fills, over the rows
`lo … hi - 1`, the interval `[lo * W, hi * W)` and nothing else. -/
theorem fill_rows (rowBody : Int → TextureScale → Option TextureScale) (E : Int → Color)
    (s0 s : TextureScale) (W lo hi : Int) (hW : 0 ≤ W) (hlohi : lo ≤ hi)
    (hrow : ∀ y t, lo ≤ y → y < hi → SameStatics s0 t →
      ∃ t1, rowBody y t = some t1 ∧ SameStatics s0 t1 ∧
        ∀ j, GetAtUnchecked t1.newColors j =
          if y * W ≤ j ∧ j < y * W + W then some (E j) else GetAtUnchecked t.newColors j)
    (hs : SameStatics s0 s) :
    ∃ s1, forRange lo hi rowBody s = some s1 ∧ SameStatics s0 s1 ∧
      ∀ j, GetAtUnchecked s1.newColors j =
        if lo * W ≤ j ∧ j < hi * W then some (E j) else GetAtUnchecked s.newColors j := by
  have key := forLoop_inv rowBody
    (fun y t => lo ≤ y ∧ SameStatics s0 t ∧ ∀ j, GetAtUnchecked t.newColors j =
        if lo * W ≤ j ∧ j < y * W then some (E j) else GetAtUnchecked s.newColors j)
    (hi - lo).toNat lo s ?_ ?_
  · obtain ⟨s1, h1, _, h2, h3⟩ := key
    refine ⟨s1, h1, h2, ?_⟩
    have e : lo + ((hi - lo).toNat : Int) = hi := by omega
    rw [e] at h3
    exact h3
  · intro y t hy0 hyn hP
    obtain ⟨hloy, hsame, hget⟩ := hP
    obtain ⟨t1, hb, hsame1, hget1⟩ := hrow y t hy0 (by omega) hsame
    refine ⟨t1, hb, by omega, hsame1, ?_⟩
    intro j
    rw [hget1 j, hget j]
    have e1 : (y + 1) * W = y * W + W := by ring
    have e2 : lo * W ≤ y * W := Int.mul_le_mul_of_nonneg_right hloy hW
    rw [e1]
    by_cases hc1 : y * W ≤ j ∧ j < y * W + W
    · have : lo * W ≤ j ∧ j < y * W + W := ⟨by omega, hc1.2⟩
      simp [hc1, this]
    · by_cases hc2 : lo * W ≤ j ∧ j < y * W
      · have : lo * W ≤ j ∧ j < y * W + W := ⟨hc2.1, by omega⟩
        simp [hc1, hc2, this]
      · have : ¬ (lo * W ≤ j ∧ j < y * W + W) := by
          intro h
          rcases h with ⟨ha, hb⟩
          by_cases hd : j < y * W
          · exact hc2 ⟨ha, hd⟩
          · exact hc1 ⟨by omega, hb⟩
        simp [hc1, hc2, this]
  · refine ⟨le_refl _, hs, ?_⟩
    intro j
    have : ¬ (lo * W ≤ j ∧ j < lo * W) := by omega
    simp [this]

theorem cast_double_to_int_of_nonneg {q : ℚ} (h : 0 ≤ q) :
    il2cpp_codegen_cast_double_to_int q = Int.floor q := by
  simp [il2cpp_codegen_cast_double_to_int, h]

/-- For `0 ≤ a < m` the scaled coordinate `⌊a * n / m⌋` lies in `[0, n)`. -/
theorem floor_scale_bounds (a n m : Int) (hn : 0 ≤ n) (hm : 1 ≤ m) (ha0 : 0 ≤ a)
    (ham : a < m) : 0 ≤ Int.floor ((a : ℚ) * n / m) ∧ (n = 0 ∨ Int.floor ((a : ℚ) * n / m) < n) := by
  have hmq : (0 : ℚ) < (m : ℚ) := by exact_mod_cast (by omega : (0 : Int) < m)
  have hnq : (0 : ℚ) ≤ (n : ℚ) := by exact_mod_cast hn
  have haq : (0 : ℚ) ≤ (a : ℚ) := by exact_mod_cast ha0
  have hamq : (a : ℚ) < (m : ℚ) := by exact_mod_cast ham
  constructor
  · apply Int.floor_nonneg.mpr
    positivity
  · by_cases h0 : n = 0
    · exact Or.inl h0
    · right
      have hnpos : (0 : ℚ) < (n : ℚ) := by
        have : (0 : Int) < n := by omega
        exact_mod_cast this
      rw [Int.floor_lt, div_lt_iff₀ hmq]
      nlinarith

/-- A source position `(ys, xs)` inside a `w × h` image has a linear index
inside `[0, w * h)`. -/
theorem index_in_image (w h ys xs : Int) (hy0 : 0 ≤ ys) (hy1 : ys < h) (hx0 : 0 ≤ xs)
    (hx1 : xs < w) : 0 ≤ ys * w + xs ∧ ys * w + xs < w * h := by
  have hw : 0 ≤ w := by omega
  have h1 : 0 ≤ ys * w := Int.mul_nonneg hy0 hw
  have h2 : ys * w ≤ (h - 1) * w := Int.mul_le_mul_of_nonneg_right (by omega) hw
  have h3 : (h - 1) * w = w * h - w := by ring
  constructor
  · omega
  · omega

/-- The linear destination index `y * W + x` determines `y` and `x`. -/
theorem dest_decode (W y x : Int) (hx0 : 0 ≤ x) (hx1 : x < W) :
    (y * W + x) / W = y ∧ (y * W + x) % W = x := by
  have hW : 0 < W := by omega
  have h := (Int.ediv_emod_unique (a := y * W + x) (r := x) (q := y) hW).mpr
    ⟨by ring, hx0, hx1⟩
  exact h

theorem setup_ready (tex : Texture2D) (w2 h2 pc : Int) (useBilinear : Bool) (s0 : TextureScale)
    (hw2 : 1 ≤ w2) (hh2 : 1 ≤ h2) (hpc : 1 ≤ pc) (hm : MutexFree s0) :
    ∃ t, ThreadedScale_setup tex w2 h2 useBilinear pc s0 = some t ∧
      t.cores = Mathf_Min pc h2 ∧ t.slice = Int.tdiv h2 (Mathf_Min pc h2) ∧
      ScalerReady tex w2 h2
        (if useBilinear then 1 / ((w2 : ℚ) / ((tex.width - 1 : Int) : ℚ))
          else (tex.width : ℚ) / (w2 : ℚ))
        (if useBilinear then 1 / ((h2 : ℚ) / ((tex.height - 1 : Int) : ℚ))
          else (tex.height : ℚ) / (h2 : ℚ)) t.statics := by
  have hc : Mathf_Min pc h2 ≠ 0 := by
    unfold Mathf_Min
    split <;> omega
  have hlen : ((SZArrayNew (w2 * h2)).length : Int) = w2 * h2 := by
    have : 0 ≤ w2 * h2 := Int.mul_nonneg (by omega) (by omega)
    simp [SZArrayNew]
    omega
  unfold ThreadedScale_setup
  simp only [hc, if_false]
  refine ⟨_, rfl, rfl, rfl, ?_⟩
  cases hmx : s0.mutex with
  | none =>
    cases useBilinear <;>
      simp [ScalerReady, MutexFree, hmx, hlen]
  | some m =>
    have := hm m hmx
    cases useBilinear <;>
      simp [ScalerReady, MutexFree, hmx, hlen, this]

theorem finishLocked_ready {st t : TextureScale} (hne : st.mutex ≠ none) (hfree : MutexFree st)
    (hs : SameStatics st t) :
    finishLocked t = some { t with finishCount := t.finishCount + 1 } := by
  obtain ⟨_, _, _, _, _, _, hmx, _⟩ := hs
  unfold finishLocked
  cases hm : st.mutex with
  | none => exact absurd hm hne
  | some m =>
    have ho := hfree m hm
    rw [hmx, hm]
    simp [ho]

theorem PointScale_row_fill (tex : Texture2D) (w2 h2 : Int) (st : TextureScale)
    (hw : 1 ≤ tex.width) (hh : 1 ≤ tex.height)
    (hlen : (tex.pixels.length : Int) = tex.width * tex.height)
    (hw2 : 1 ≤ w2) (hh2 : 1 ≤ h2)
    (hst : ScalerReady tex w2 h2 ((tex.width : ℚ) / (w2 : ℚ)) ((tex.height : ℚ) / (h2 : ℚ)) st)
    (y : Int) (hy0 : 0 ≤ y) (hy1 : y < h2) (t : TextureScale) (ht : SameStatics st t) :
    ∃ t1, PointScale_row y t = some t1 ∧ SameStatics st t1 ∧
      ∀ j, GetAtUnchecked t1.newColors j =
        if y * w2 ≤ j ∧ j < y * w2 + w2 then some (pointSource tex w2 h2 j)
        else GetAtUnchecked t.newColors j := by
  obtain ⟨htex, hsw, hrx, hry, hsw2, hnew, _, _, _⟩ := hst
  have ht' := ht
  obtain ⟨t1x, t2x, t3x, t4x, t5x, _, _, t8x⟩ := ht'
  have hyq : (0 : ℚ) ≤ (y : ℚ) := by exact_mod_cast hy0
  have hhq : (0 : ℚ) < (tex.height : ℚ) := by exact_mod_cast (by omega : (0 : Int) < tex.height)
  have hh2q : (0 : ℚ) < (h2 : ℚ) := by exact_mod_cast (by omega : (0 : Int) < h2)
  have hwq : (0 : ℚ) < (tex.width : ℚ) := by exact_mod_cast (by omega : (0 : Int) < tex.width)
  have hw2q : (0 : ℚ) < (w2 : ℚ) := by exact_mod_cast (by omega : (0 : Int) < w2)
  -- the source row
  have hrow : il2cpp_codegen_cast_double_to_int (t.ratioY * (y : ℚ)) =
      Int.floor ((y : ℚ) * tex.height / h2) := by
    rw [t4x, hry, cast_double_to_int_of_nonneg (by positivity)]
    congr 1
    ring
  obtain ⟨hys0, hys1⟩ := floor_scale_bounds y tex.height h2 (by omega) hh2 hy0 hy1
  have hys1 : Int.floor ((y : ℚ) * tex.height / h2) < tex.height := by
    rcases hys1 with h | h
    · omega
    · exact h
  unfold PointScale_row
  simp only [hrow, t5x, hsw2, t2x, hsw]
  apply fill_row _ (pointSource tex w2 h2) st t (y * w2) w2 (by omega) _ ht
  intro x u hx0 hx1 hu
  obtain ⟨u1, _, u3, _, _, _, _, u8⟩ := hu
  obtain ⟨hxs0, hxs1⟩ := floor_scale_bounds x tex.width w2 (by omega) hw2 hx0 hx1
  have hxs1 : Int.floor ((x : ℚ) * tex.width / w2) < tex.width := by
    rcases hxs1 with h | h
    · omega
    · exact h
  have hxq : (0 : ℚ) ≤ (x : ℚ) := by exact_mod_cast hx0
  have hysq : (0 : ℚ) ≤ ((Int.floor ((y : ℚ) * tex.height / h2) * tex.width : Int) : ℚ) := by
    exact_mod_cast Int.mul_nonneg hys0 (by omega)
  have hidx : il2cpp_codegen_cast_double_to_int
      (((Int.floor ((y : ℚ) * tex.height / h2) * tex.width : Int) : ℚ) + u.ratioX * (x : ℚ)) =
      Int.floor ((y : ℚ) * tex.height / h2) * tex.width +
        Int.floor ((x : ℚ) * tex.width / w2) := by
    rw [u3, hrx, cast_double_to_int_of_nonneg (by positivity), Int.floor_int_add]
    congr 2
    ring
  obtain ⟨hi0, hi1⟩ := index_in_image tex.width tex.height _ _ hys0 hys1 hxs0 hxs1
  obtain ⟨c, hc⟩ := GetAtUnchecked_isSome (l := tex.pixels) hi0 (by omega)
  obtain ⟨hd0, hd1⟩ := index_in_image w2 h2 y x hy0 hy1 hx0 hx1
  obtain ⟨arr, harr⟩ := SetAtUnchecked_isSome (l := u.newColors) c hd0 (by rw [u8]; omega)
  obtain ⟨e1, e2⟩ := dest_decode w2 y x hx0 hx1
  have hE : pointSource tex w2 h2 (y * w2 + x) = c := by
    unfold pointSource
    rw [e1, e2, hc]
    rfl
  refine ⟨arr, by rw [hE]; exact harr, ?_⟩
  unfold PointScale_pixel
  rw [hidx, u1, htex, hc]
  simp only [harr]

/-- C1. Point scaling is nearest-neighbour (floor) sampling: with the static
fields as `ThreadedScale` sets them for `useBilinear = false`, a
`TextureScale_PointScale` worker over any row range inside `[0, h2)` returns,
and every output pixel `(x, y)` of its range then holds
`src[⌊y * h / h2⌋ * w + ⌊x * w / w2⌋]`. -/
theorem C1_pointScale_nearest (tex : Texture2D) (w2 h2 pc : Int) (s0 : TextureScale)
    (hw : 1 ≤ tex.width) (hh : 1 ≤ tex.height)
    (hlen : (tex.pixels.length : Int) = tex.width * tex.height)
    (hw2 : 1 ≤ w2) (hh2 : 1 ≤ h2) (hpc : 1 ≤ pc) (hm : MutexFree s0) :
    ∃ t, ThreadedScale_setup tex w2 h2 false pc s0 = some t ∧
      ∀ d : ThreadData, 0 ≤ d.start → d.end_ ≤ h2 →
        ∃ s1, TextureScale_PointScale d t.statics = some s1 ∧
          ∀ y x : Int, d.start ≤ y → y < d.end_ → 0 ≤ x → x < w2 →
            ∃ c, GetAtUnchecked tex.pixels
                (Int.floor ((y : ℚ) * tex.height / h2) * tex.width +
                  Int.floor ((x : ℚ) * tex.width / w2)) = some c ∧
              GetAtUnchecked s1.newColors (y * w2 + x) = some c := by
  obtain ⟨t, ht, _, _, hready⟩ := setup_ready tex w2 h2 pc false s0 hw2 hh2 hpc hm
  simp only [Bool.false_eq_true, if_false] at hready
  refine ⟨t, ht, ?_⟩
  intro d hd0 hd1
  by_cases hlohi : d.start ≤ d.end_
  · obtain ⟨s1, hs1, hsame, hget⟩ := fill_rows PointScale_row (pointSource tex w2 h2)
      t.statics t.statics w2 d.start d.end_ (by omega) hlohi
      (fun y u hy0 hy1 hu =>
        PointScale_row_fill tex w2 h2 t.statics hw hh hlen hw2 hh2 hready y (by omega)
          (by omega) u hu)
      (SameStatics.refl _)
    have hfin := finishLocked_ready hready.2.2.2.2.2.2.2.1 hready.2.2.2.2.2.2.2.2 hsame
    refine ⟨{ s1 with finishCount := s1.finishCount + 1 },
      by simp [TextureScale_PointScale, hs1, hfin], ?_⟩
    intro y x hy0 hy1 hx0 hx1
    show ∃ c, _ ∧ GetAtUnchecked s1.newColors (y * w2 + x) = some c
    obtain ⟨hys0, hys1⟩ := floor_scale_bounds y tex.height h2 (by omega) hh2 (by omega) (by omega)
    obtain ⟨hxs0, hxs1⟩ := floor_scale_bounds x tex.width w2 (by omega) hw2 hx0 hx1
    obtain ⟨hi0, hi1⟩ := index_in_image tex.width tex.height _ _ hys0
      (by rcases hys1 with h | h; omega; exact h) hxs0
      (by rcases hxs1 with h | h; omega; exact h)
    obtain ⟨c, hc⟩ := GetAtUnchecked_isSome (l := tex.pixels) hi0 (by omega)
    refine ⟨c, hc, ?_⟩
    obtain ⟨e1, e2⟩ := dest_decode w2 y x hx0 hx1
    have hin : d.start * w2 ≤ y * w2 + x ∧ y * w2 + x < d.end_ * w2 := by
      have a1 : d.start * w2 ≤ y * w2 := Int.mul_le_mul_of_nonneg_right hy0 (by omega)
      have a2 : (y + 1) * w2 ≤ d.end_ * w2 := Int.mul_le_mul_of_nonneg_right (by omega) (by omega)
      have a3 : (y + 1) * w2 = y * w2 + w2 := by ring
      constructor <;> omega
    rw [hget, if_pos hin]
    unfold pointSource
    rw [e1, e2, hc]
    rfl
  · have hz : (d.end_ - d.start).toNat = 0 := by omega
    have hfin := finishLocked_ready hready.2.2.2.2.2.2.2.1 hready.2.2.2.2.2.2.2.2
      (SameStatics.refl t.statics)
    refine ⟨{ t.statics with finishCount := t.statics.finishCount + 1 },
      by simp [TextureScale_PointScale, forRange, hz, forLoop, hfin], ?_⟩
    intro y x hy0 hy1
    omega

theorem C1_pointScale_nearest_witness :
    ∃ t, ThreadedScale_setup tex22 3 3 false 2 statics0 = some t ∧
      ∀ d : ThreadData, 0 ≤ d.start → d.end_ ≤ 3 →
        ∃ s1, TextureScale_PointScale d t.statics = some s1 ∧
          ∀ y x : Int, d.start ≤ y → y < d.end_ → 0 ≤ x → x < 3 →
            ∃ c, GetAtUnchecked tex22.pixels
                (Int.floor ((y : ℚ) * tex22.height / (3 : Int)) * tex22.width +
                  Int.floor ((x : ℚ) * tex22.width / (3 : Int))) = some c ∧
              GetAtUnchecked s1.newColors (y * 3 + x) = some c :=
  C1_pointScale_nearest tex22 3 3 2 statics0 (by decide) (by decide) (by decide) (by decide)
    (by decide) (by decide) (by intro m h; simp [statics0] at h)

theorem cast_double_to_int_intCast (n : Int) :
    il2cpp_codegen_cast_double_to_int ((n : Int) : ℚ) = n := by
  unfold il2cpp_codegen_cast_double_to_int
  split
  · exact Int.floor_intCast n
  · exact Int.ceil_intCast n

theorem srcFloor_bounds (n n2 a : Int) (hn : 2 ≤ n) (hn2 : 1 ≤ n2) (ha0 : 0 ≤ a)
    (ha1 : a < n2) : 0 ≤ srcFloor n n2 a ∧ srcFloor n n2 a + 1 < n := by
  have hb := floor_scale_bounds a (n - 1) n2 (by omega) hn2 ha0 ha1
  have e : (a : ℚ) * (((n - 1 : Int) : ℚ) / (n2 : ℚ)) = (a : ℚ) * ((n - 1 : Int) : ℚ) / n2 := by
    ring
  rw [← e] at hb
  obtain ⟨h0, h1⟩ := hb
  unfold srcFloor
  constructor
  · exact h0
  · rcases h1 with h | h
    · omega
    · omega

/-- With `w ≥ 2`, `h ≥ 2` the four source pixels of an output pixel exist. -/
theorem bilinear_sources (src : List Color) (w h w2 h2 : Int) (hw : 2 ≤ w) (hh : 2 ≤ h)
    (hlen : (src.length : Int) = w * h) (hw2 : 1 ≤ w2) (hh2 : 1 ≤ h2)
    (y x : Int) (hy0 : 0 ≤ y) (hy1 : y < h2) (hx0 : 0 ≤ x) (hx1 : x < w2) :
    ∃ c11 c12 c21 c22,
      GetAtUnchecked src (srcFloor h h2 y * w + srcFloor w w2 x) = some c11 ∧
      GetAtUnchecked src (srcFloor h h2 y * w + srcFloor w w2 x + 1) = some c12 ∧
      GetAtUnchecked src ((srcFloor h h2 y + 1) * w + srcFloor w w2 x) = some c21 ∧
      GetAtUnchecked src ((srcFloor h h2 y + 1) * w + srcFloor w w2 x + 1) = some c22 := by
  obtain ⟨hx0', hx1'⟩ := srcFloor_bounds w w2 x hw hw2 hx0 hx1
  obtain ⟨hy0', hy1'⟩ := srcFloor_bounds h h2 y hh hh2 hy0 hy1
  generalize srcFloor w w2 x = xF at hx0' hx1' ⊢
  generalize srcFloor h h2 y = yF at hy0' hy1' ⊢
  have i1 := index_in_image w h yF xF hy0' (by omega) hx0' (by omega)
  have i2 := index_in_image w h yF (xF + 1) hy0' (by omega) (by omega) (by omega)
  have i3 := index_in_image w h (yF + 1) xF (by omega) (by omega) hx0' (by omega)
  have i4 := index_in_image w h (yF + 1) (xF + 1) (by omega) (by omega) (by omega) (by omega)
  obtain ⟨c11, h11⟩ := GetAtUnchecked_isSome (l := src) i1.1 (by omega)
  obtain ⟨c12, h12⟩ := GetAtUnchecked_isSome (l := src) (i := yF * w + xF + 1)
    (by omega) (by omega)
  obtain ⟨c21, h21⟩ := GetAtUnchecked_isSome (l := src) i3.1 (by omega)
  obtain ⟨c22, h22⟩ := GetAtUnchecked_isSome (l := src) (i := (yF + 1) * w + xF + 1)
    (by omega) (by omega)
  exact ⟨c11, c12, c21, c22, h11, h12, h21, h22⟩

theorem bilinearSample_eq (src : List Color) (w h w2 h2 y x : Int) (c11 c12 c21 c22 : Color)
    (h11 : GetAtUnchecked src (srcFloor h h2 y * w + srcFloor w w2 x) = some c11)
    (h12 : GetAtUnchecked src (srcFloor h h2 y * w + srcFloor w w2 x + 1) = some c12)
    (h21 : GetAtUnchecked src ((srcFloor h h2 y + 1) * w + srcFloor w w2 x) = some c21)
    (h22 : GetAtUnchecked src ((srcFloor h h2 y + 1) * w + srcFloor w w2 x + 1) = some c22) :
    bilinearSample src w h w2 h2 y x =
      some (TextureScale_ColorLerpUnclamped
        (TextureScale_ColorLerpUnclamped c11 c12
          ((x : ℚ) * (((w - 1 : Int) : ℚ) / (w2 : ℚ)) - (srcFloor w w2 x : ℚ)))
        (TextureScale_ColorLerpUnclamped c21 c22
          ((x : ℚ) * (((w - 1 : Int) : ℚ) / (w2 : ℚ)) - (srcFloor w w2 x : ℚ)))
        ((y : ℚ) * (((h - 1 : Int) : ℚ) / (h2 : ℚ)) - (srcFloor h h2 y : ℚ))) := by
  unfold srcFloor at h11 h12 h21 h22
  simp only [bilinearSample, h11, h12, h21, h22]
  rfl

theorem BilinearScale_row_fill (tex : Texture2D) (w2 h2 : Int) (st : TextureScale)
    (hw : 2 ≤ tex.width) (hh : 2 ≤ tex.height)
    (hlen : (tex.pixels.length : Int) = tex.width * tex.height)
    (hw2 : 1 ≤ w2) (hh2 : 1 ≤ h2)
    (hst : ScalerReady tex w2 h2 (1 / ((w2 : ℚ) / ((tex.width - 1 : Int) : ℚ)))
      (1 / ((h2 : ℚ) / ((tex.height - 1 : Int) : ℚ))) st)
    (y : Int) (hy0 : 0 ≤ y) (hy1 : y < h2) (t : TextureScale) (ht : SameStatics st t) :
    ∃ t1, BilinearScale_row y t = some t1 ∧ SameStatics st t1 ∧
      ∀ j, GetAtUnchecked t1.newColors j =
        if y * w2 ≤ j ∧ j < y * w2 + w2 then some (bilinearSource tex w2 h2 j)
        else GetAtUnchecked t.newColors j := by
  obtain ⟨htex, hsw, hrx, hry, hsw2, hnew, _, _, _⟩ := hst
  rw [one_div_div] at hrx hry
  have ht' := ht
  obtain ⟨_, t2x, _, t4x, t5x, _, _, _⟩ := ht'
  have hyF : il2cpp_codegen_cast_double_to_int (floorf ((y : ℚ) * t.ratioY)) =
      srcFloor tex.height h2 y := by
    rw [t4x, hry]
    exact cast_double_to_int_intCast _
  unfold BilinearScale_row
  simp only [hyF, t5x, hsw2, t2x, hsw]
  apply fill_row _ (bilinearSource tex w2 h2) st t (y * w2) w2 (by omega) _ ht
  intro x u hx0 hx1 hu
  obtain ⟨u1, _, u3, u4, _, _, _, u8⟩ := hu
  have hxF : il2cpp_codegen_cast_double_to_int (floorf ((x : ℚ) * u.ratioX)) =
      srcFloor tex.width w2 x := by
    rw [u3, hrx]
    exact cast_double_to_int_intCast _
  obtain ⟨c11, c12, c21, c22, h11, h12, h21, h22⟩ :=
    bilinear_sources tex.pixels tex.width tex.height w2 h2 hw hh hlen hw2 hh2 y x hy0 hy1 hx0 hx1
  have hsample := bilinearSample_eq tex.pixels tex.width tex.height w2 h2 y x c11 c12 c21 c22
    h11 h12 h21 h22
  obtain ⟨hd0, hd1⟩ := index_in_image w2 h2 y x hy0 hy1 hx0 hx1
  obtain ⟨e1, e2⟩ := dest_decode w2 y x hx0 hx1
  have hE : bilinearSource tex w2 h2 (y * w2 + x) =
      (bilinearSample tex.pixels tex.width tex.height w2 h2 y x).getD Color.clear := by
    unfold bilinearSource
    rw [e1, e2]
  rw [hsample, Option.getD_some] at hE
  obtain ⟨arr, harr⟩ := SetAtUnchecked_isSome (l := u.newColors)
    (bilinearSource tex w2 h2 (y * w2 + x)) hd0 (by rw [u8]; omega)
  refine ⟨arr, harr, ?_⟩
  rw [hE] at harr
  rw [u3, hrx] at hxF
  unfold BilinearScale_pixel
  simp only [hxF, u1, htex, h11, h12, h21, h22, u3, hrx, u4, hry, harr]

/-- C2. Bilinear scaling is two-stage linear interpolation: with the static
fields as `ThreadedScale` sets them for `useBilinear = true` and a source of
width and height at least 2, a `TextureScale_BilinearScale` worker over any row
range inside `[0, h2)` returns, and every output pixel `(x, y)` of its range
then holds the value of the interpolation formula `bilinearSample`, whose four
source pixels all exist. -/
theorem C2_bilinearScale_interpolation (tex : Texture2D) (w2 h2 pc : Int) (s0 : TextureScale)
    (hw : 2 ≤ tex.width) (hh : 2 ≤ tex.height)
    (hlen : (tex.pixels.length : Int) = tex.width * tex.height)
    (hw2 : 1 ≤ w2) (hh2 : 1 ≤ h2) (hpc : 1 ≤ pc) (hm : MutexFree s0) :
    ∃ t, ThreadedScale_setup tex w2 h2 true pc s0 = some t ∧
      ∀ d : ThreadData, 0 ≤ d.start → d.end_ ≤ h2 →
        ∃ s1, TextureScale_BilinearScale d t.statics = some s1 ∧
          ∀ y x : Int, d.start ≤ y → y < d.end_ → 0 ≤ x → x < w2 →
            ∃ c, bilinearSample tex.pixels tex.width tex.height w2 h2 y x = some c ∧
              GetAtUnchecked s1.newColors (y * w2 + x) = some c := by
  obtain ⟨t, ht, _, _, hready⟩ := setup_ready tex w2 h2 pc true s0 hw2 hh2 hpc hm
  simp only [if_true] at hready
  refine ⟨t, ht, ?_⟩
  intro d hd0 hd1
  by_cases hlohi : d.start ≤ d.end_
  · obtain ⟨s1, hs1, hsame, hget⟩ := fill_rows BilinearScale_row (bilinearSource tex w2 h2)
      t.statics t.statics w2 d.start d.end_ (by omega) hlohi
      (fun y u hy0 hy1 hu =>
        BilinearScale_row_fill tex w2 h2 t.statics hw hh hlen hw2 hh2 hready y (by omega)
          (by omega) u hu)
      (SameStatics.refl _)
    have hfin := finishLocked_ready hready.2.2.2.2.2.2.2.1 hready.2.2.2.2.2.2.2.2 hsame
    refine ⟨{ s1 with finishCount := s1.finishCount + 1 },
      by simp [TextureScale_BilinearScale, hs1, hfin], ?_⟩
    intro y x hy0 hy1 hx0 hx1
    show ∃ c, _ ∧ GetAtUnchecked s1.newColors (y * w2 + x) = some c
    obtain ⟨c11, c12, c21, c22, h11, h12, h21, h22⟩ :=
      bilinear_sources tex.pixels tex.width tex.height w2 h2 hw hh hlen hw2 hh2 y x
        (by omega) (by omega) hx0 hx1
    have hsample := bilinearSample_eq tex.pixels tex.width tex.height w2 h2 y x c11 c12 c21 c22
      h11 h12 h21 h22
    refine ⟨_, hsample, ?_⟩
    obtain ⟨e1, e2⟩ := dest_decode w2 y x hx0 hx1
    have hin : d.start * w2 ≤ y * w2 + x ∧ y * w2 + x < d.end_ * w2 := by
      have a1 : d.start * w2 ≤ y * w2 := Int.mul_le_mul_of_nonneg_right hy0 (by omega)
      have a2 : (y + 1) * w2 ≤ d.end_ * w2 := Int.mul_le_mul_of_nonneg_right (by omega) (by omega)
      have a3 : (y + 1) * w2 = y * w2 + w2 := by ring
      constructor <;> omega
    rw [hget, if_pos hin]
    unfold bilinearSource
    rw [e1, e2, hsample]
    rfl
  · have hz : (d.end_ - d.start).toNat = 0 := by omega
    have hfin := finishLocked_ready hready.2.2.2.2.2.2.2.1 hready.2.2.2.2.2.2.2.2
      (SameStatics.refl t.statics)
    refine ⟨{ t.statics with finishCount := t.statics.finishCount + 1 },
      by simp [TextureScale_BilinearScale, forRange, hz, forLoop, hfin], ?_⟩
    intro y x hy0 hy1
    omega

theorem C2_bilinearScale_interpolation_witness :
    ∃ t, ThreadedScale_setup tex22 3 3 true 2 statics0 = some t ∧
      ∀ d : ThreadData, 0 ≤ d.start → d.end_ ≤ 3 →
        ∃ s1, TextureScale_BilinearScale d t.statics = some s1 ∧
          ∀ y x : Int, d.start ≤ y → y < d.end_ → 0 ≤ x → x < 3 →
            ∃ c, bilinearSample tex22.pixels tex22.width tex22.height 3 3 y x = some c ∧
              GetAtUnchecked s1.newColors (y * 3 + x) = some c :=
  C2_bilinearScale_interpolation tex22 3 3 2 statics0 (by decide) (by decide) (by decide)
    (by decide) (by decide) (by decide) (by intro m h; simp [statics0] at h)

theorem RangeChain.le {lo hi : Int} {ds : List ThreadData} (h : RangeChain lo ds hi) :
    lo ≤ hi := by
  induction ds generalizing lo with
  | nil => exact le_of_eq h
  | cons d ds ih =>
    obtain ⟨h1, h2, h3⟩ := h
    have := ih h3
    omega

theorem RangeChain.bounds {lo hi : Int} {ds : List ThreadData} (h : RangeChain lo ds hi) :
    ∀ d ∈ ds, lo ≤ d.start ∧ d.start ≤ d.end_ ∧ d.end_ ≤ hi := by
  induction ds generalizing lo with
  | nil => intro d hd; simp at hd
  | cons e es ih =>
    obtain ⟨h1, h2, h3⟩ := h
    intro d hd
    rcases List.mem_cons.mp hd with rfl | hd
    · exact ⟨by omega, h2, h3.le⟩
    · obtain ⟨a, b, c⟩ := ih h3 d hd
      exact ⟨by omega, b, c⟩

theorem RangeChain.append {lo mid hi : Int} {ds es : List ThreadData}
    (h1 : RangeChain lo ds mid) (h2 : RangeChain mid es hi) : RangeChain lo (ds ++ es) hi := by
  induction ds generalizing lo with
  | nil =>
    have : lo = mid := h1
    subst this
    exact h2
  | cons d ds ih =>
    obtain ⟨a, b, c⟩ := h1
    exact ⟨a, b, ih c⟩

/-- Every row of `[lo, hi)` lies in exactly one range of a chain from `lo` to
`hi`. -/
theorem RangeChain.cover {lo hi : Int} {ds : List ThreadData} (h : RangeChain lo ds hi) :
    ∀ y, lo ≤ y → y < hi →
      ∃! i : Nat, ∃ d, ds[i]? = some d ∧ d.start ≤ y ∧ y < d.end_ := by
  induction ds generalizing lo with
  | nil =>
    intro y h1 h2
    have : lo = hi := h
    omega
  | cons a as ih =>
    obtain ⟨h1, h2, h3⟩ := h
    intro y hy0 hy1
    by_cases hya : y < a.end_
    · refine ⟨0, ⟨a, by simp, by omega, hya⟩, ?_⟩
      rintro i ⟨d, hd, hd1, hd2⟩
      cases i with
      | zero => rfl
      | succ k =>
        simp only [List.getElem?_cons_succ] at hd
        have := (h3.bounds d (List.mem_iff_getElem?.mpr ⟨_, hd⟩)).1
        omega
    · obtain ⟨k, ⟨d, hd, hd1, hd2⟩, huniq⟩ := ih h3 y (by omega) hy1
      refine ⟨k + 1, ⟨d, by simpa using hd, hd1, hd2⟩, ?_⟩
      rintro i ⟨e, he, he1, he2⟩
      cases i with
      | zero =>
        simp only [List.getElem?_cons_zero, Option.some.injEq] at he
        subst he
        omega
      | succ j =>
        simp only [List.getElem?_cons_succ] at he
        have := huniq j ⟨e, he, he1, he2⟩
        omega

theorem spawnLoop_length (ub : Bool) (s : Int) (n : Nat) (i : Int) :
    (ThreadedScale_spawnLoop ub s n i).length = n := by
  induction n generalizing i with
  | zero => rfl
  | succ k ih => simp [ThreadedScale_spawnLoop, ih]

theorem spawnLoop_getElem? (ub : Bool) (s : Int) (n : Nat) (i : Int) (k : Nat) (hk : k < n) :
    (ThreadedScale_spawnLoop ub s n i)[k]? =
      some (Launch.thread ub ⟨s * (i + k), s * (i + k + 1)⟩) := by
  induction n generalizing i k with
  | zero => omega
  | succ m ih =>
    cases k with
    | zero => simp [ThreadedScale_spawnLoop, ThreadData__ctor]
    | succ j =>
      simp only [ThreadedScale_spawnLoop, List.getElem?_cons_succ]
      rw [ih (i + 1) j (by omega)]
      push_cast
      have e1 : i + 1 + (j : Int) = i + ((j : Int) + 1) := by ring
      rw [e1]

theorem spawnLoop_chain (ub : Bool) (s : Int) (hs : 0 ≤ s) (n : Nat) (i : Int) :
    RangeChain (s * i) ((ThreadedScale_spawnLoop ub s n i).map Launch.data)
      (s * (i + n)) := by
  induction n generalizing i with
  | zero => simp [ThreadedScale_spawnLoop, RangeChain]
  | succ k ih =>
    simp only [ThreadedScale_spawnLoop, List.map_cons, RangeChain, Launch.data, ThreadData__ctor]
    refine ⟨trivial, ?_, ?_⟩
    · have : s * (i + 1) = s * i + s := by ring
      omega
    · have := ih (i + 1)
      have e : s * (i + 1 + (k : Int)) = s * (i + ((k + 1 : Nat) : Int)) := by
        push_cast; ring
      rw [e] at this
      exact this

theorem spawnLoop_map_data (ub : Bool) (s : Int) (n : Nat) (i : Int) :
    (ThreadedScale_spawnLoop ub s n i).map Launch.data =
      (List.range n).map
        (fun (k : Nat) => (⟨(i + (k : Int)) * s, (i + (k : Int) + 1) * s⟩ : ThreadData)) := by
  apply List.ext_getElem?
  intro k
  by_cases hk : k < n
  · rw [List.getElem?_map, spawnLoop_getElem? ub s n i k hk, List.getElem?_map,
      List.getElem?_range hk]
    simp only [Option.map_some', Launch.data, Option.some.injEq, ThreadData.mk.injEq]
    constructor <;> ring
  · rw [List.getElem?_eq_none (by simp [spawnLoop_length]; omega),
      List.getElem?_eq_none (by simp; omega)]

/-- Arithmetic of the split: with `n = min (processorCount, newHeight)` and
`s = newHeight / n`, `1 ≤ n ≤ newHeight`, `1 ≤ s` and `s * n ≤ newHeight`. -/
theorem split_arith (nh pc : Int) (hnh : 1 ≤ nh) (hpc : 1 ≤ pc) :
    1 ≤ Mathf_Min pc nh ∧ Mathf_Min pc nh ≤ nh ∧ Mathf_Min pc nh ≤ pc ∧
      1 ≤ Int.tdiv nh (Mathf_Min pc nh) ∧
      Int.tdiv nh (Mathf_Min pc nh) * Mathf_Min pc nh ≤ nh ∧
      nh < (Int.tdiv nh (Mathf_Min pc nh) + 1) * Mathf_Min pc nh ∧
      Int.tdiv nh (Mathf_Min pc nh) = nh / Mathf_Min pc nh := by
  have h1 : 1 ≤ Mathf_Min pc nh ∧ Mathf_Min pc nh ≤ nh ∧ Mathf_Min pc nh ≤ pc := by
    unfold Mathf_Min
    split <;> omega
  obtain ⟨a, b, c⟩ := h1
  generalize Mathf_Min pc nh = n at a b c ⊢
  have e : Int.tdiv nh n = nh / n := Int.tdiv_eq_ediv (by omega) (by omega)
  rw [e]
  have h2 := Int.ediv_mul_le nh (by omega : n ≠ 0)
  have h3 := Int.lt_ediv_add_one_mul_self nh (by omega : 0 < n)
  have h4 : 1 ≤ nh / n := (Int.le_ediv_iff_mul_le (by omega)).mpr (by omega)
  exact ⟨a, b, c, h4, h2, h3, rfl⟩

theorem plan_eq (tex : Texture2D) (nw nh pc : Int) (ub : Bool) (s0 : TextureScale)
    (hnh : 1 ≤ nh) (hpc : 1 ≤ pc) :
    ThreadedScale_plan tex nw nh ub pc s0 =
      some (ThreadedScale_launches ub (Mathf_Min pc nh) (nh / Mathf_Min pc nh) nh) := by
  obtain ⟨a, _, _, _, _, _, e⟩ := split_arith nh pc hnh hpc
  have hc : Mathf_Min pc nh ≠ 0 := by omega
  unfold ThreadedScale_plan ThreadedScale_setup
  simp only [hc, if_false, Option.map_some', e]

theorem launches_split (ub : Bool) (n s nh : Int) (hn : 1 ≤ n) :
    ThreadedScale_launches ub n s nh =
      ThreadedScale_spawnLoop ub s (n - 1).toNat 0 ++
        [Launch.call ub ⟨s * (n - 1), nh⟩] := by
  unfold ThreadedScale_launches
  by_cases h1 : n > 1
  · simp only [h1, if_true, ThreadData__ctor]
    have e : (0 : Int) + ((n - 1 - 0).toNat : Int) = n - 1 := by omega
    rw [e]
    simp
  · have e : n = 1 := by omega
    subst e
    simp [ThreadedScale_spawnLoop, ThreadData__ctor]

theorem launches_data (ub : Bool) (n s nh : Int) (hn : 1 ≤ n) :
    (ThreadedScale_launches ub n s nh).map Launch.data =
      (List.range (n - 1).toNat).map
        (fun (i : Nat) => (⟨(i : Int) * s, ((i : Int) + 1) * s⟩ : ThreadData)) ++
        [⟨(n - 1) * s, nh⟩] := by
  rw [launches_split ub n s nh hn, List.map_append, spawnLoop_map_data]
  simp only [zero_add, List.map_cons, List.map_nil, Launch.data]
  rw [mul_comm s (n - 1)]

theorem launches_chain (ub : Bool) (n s nh : Int) (hn : 1 ≤ n) (hs : 0 ≤ s)
    (hsn : s * n ≤ nh) : RangeChain 0 ((ThreadedScale_launches ub n s nh).map Launch.data) nh := by
  rw [launches_split ub n s nh hn, List.map_append]
  have h1 := spawnLoop_chain ub s hs (n - 1).toNat 0
  have e : (0 : Int) + ((n - 1).toNat : Int) = n - 1 := by omega
  rw [e, mul_zero] at h1
  apply h1.append
  simp only [List.map_cons, List.map_nil, Launch.data, RangeChain]
  refine ⟨trivial, ?_, trivial⟩
  have : s * n = s * (n - 1) + s := by ring
  omega

theorem launches_length (ub : Bool) (n s nh : Int) (hn : 1 ≤ n) :
    ((ThreadedScale_launches ub n s nh).length : Int) = n := by
  rw [launches_split ub n s nh hn]
  simp [spawnLoop_length]
  omega

theorem launches_eval_5_2 :
    ThreadedScale_launches false (Mathf_Min 2 5) (5 / Mathf_Min 2 5) 5 =
      [Launch.thread false ⟨0, 2⟩, Launch.call false ⟨2, 5⟩] := by decide

theorem launches_eval_3_8 :
    ThreadedScale_launches true (Mathf_Min 8 3) (3 / Mathf_Min 8 3) 3 =
      [Launch.thread true ⟨0, 1⟩, Launch.thread true ⟨1, 2⟩, Launch.call true ⟨2, 3⟩] := by
  decide

theorem workerWrites_eval : workerWrites ⟨2, 4⟩ 3 = [6, 7, 8, 9, 10, 11] := by decide

theorem spawnLoop_all_threads (ub : Bool) (s : Int) (n : Nat) (i : Int) :
    ∀ l ∈ ThreadedScale_spawnLoop ub s n i, ∃ e, l = Launch.thread ub e := by
  induction n generalizing i with
  | zero => intro l hl; simp [ThreadedScale_spawnLoop] at hl
  | succ k ih =>
    intro l hl
    simp only [ThreadedScale_spawnLoop, List.mem_cons] at hl
    rcases hl with rfl | hl
    · exact ⟨_, rfl⟩
    · exact ih (i + 1) l hl

/-- C4. `ThreadedScale` runs exactly `n = min (processorCount, newHeight)`
scaling workers, all of the requested kind: the list of workers it starts is
`T ++ [call d]` where `T` holds `n - 1` workers started on new threads and the
last worker is a direct call on the calling thread; when `n = 1` no thread is
started and the single worker processes `[0, newHeight)`. -/
theorem C4_worker_count (tex : Texture2D) (nw nh pc : Int) (ub : Bool) (s0 : TextureScale)
    (hnh : 1 ≤ nh) (hpc : 1 ≤ pc) :
    ∃ T d, ThreadedScale_plan tex nw nh ub pc s0 = some (T ++ [Launch.call ub d]) ∧
      ((T ++ [Launch.call ub d]).length : Int) = Mathf_Min pc nh ∧
      (T.length : Int) = Mathf_Min pc nh - 1 ∧
      (∀ l ∈ T, ∃ e, l = Launch.thread ub e) ∧
      ((T ++ [Launch.call ub d]).filter Launch.onThread = T) ∧
      ((T ++ [Launch.call ub d]).filter (fun l => !l.onThread) = [Launch.call ub d]) ∧
      (Mathf_Min pc nh = 1 → T = [] ∧ d = ⟨0, nh⟩) := by
  obtain ⟨hn1, _, _, _, _, _, _⟩ := split_arith nh pc hnh hpc
  have hall := spawnLoop_all_threads ub (nh / Mathf_Min pc nh) (Mathf_Min pc nh - 1).toNat 0
  have hT : ∀ l ∈ ThreadedScale_spawnLoop ub (nh / Mathf_Min pc nh) (Mathf_Min pc nh - 1).toNat 0,
      Launch.onThread l = true := by
    intro l hl
    obtain ⟨e, rfl⟩ := hall l hl
    rfl
  refine ⟨ThreadedScale_spawnLoop ub (nh / Mathf_Min pc nh) (Mathf_Min pc nh - 1).toNat 0,
    ⟨(nh / Mathf_Min pc nh) * (Mathf_Min pc nh - 1), nh⟩, ?_, ?_, ?_, hall, ?_, ?_, ?_⟩
  · rw [plan_eq tex nw nh pc ub s0 hnh hpc, launches_split ub _ _ nh hn1]
  · rw [← launches_split ub _ _ nh hn1]
    exact launches_length ub _ _ nh hn1
  · rw [spawnLoop_length]
    omega
  · rw [List.filter_append, List.filter_eq_self.mpr hT]
    simp [Launch.onThread]
  · rw [List.filter_append]
    have : List.filter (fun l => !l.onThread)
        (ThreadedScale_spawnLoop ub (nh / Mathf_Min pc nh) (Mathf_Min pc nh - 1).toNat 0) = [] := by
      rw [List.filter_eq_nil_iff]
      intro l hl
      simp [hT l hl]
    rw [this]
    simp [Launch.onThread]
  · intro h1
    rw [h1]
    simp [ThreadedScale_spawnLoop]

/-- C5, as stated, fails: for `newHeight = 5` on two processors the two row
ranges are `[0, 2)` and `[2, 5)`; the second holds 3 rows, not `5 / 2 = 2`. -/
theorem C5_counterexample :
    ∃ L, ThreadedScale_plan tex22 3 5 false 2 statics0 = some L ∧
      L.map Launch.data = [⟨0, 2⟩, ⟨2, 5⟩] ∧
      (5 : Int) / Mathf_Min 2 5 = 2 ∧
      ¬ (∀ d ∈ L.map Launch.data, d.end_ - d.start = 5 / Mathf_Min 2 5) := by
  refine ⟨_, plan_eq tex22 3 5 2 false statics0 (by decide) (by decide), ?_, ?_, ?_⟩
  · decide
  · decide
  · decide

/-- C5, amended. With `n = min (processorCount, newHeight)`: each of the first
`n - 1` row ranges created by `ThreadedScale` contains `newHeight / n` rows and
the last one contains `newHeight / n + newHeight % n` rows; all `n` ranges
contain `newHeight / n` rows exactly when `n` divides `newHeight`. -/
theorem C5_rows_per_worker (tex : Texture2D) (nw nh pc : Int) (ub : Bool) (s0 : TextureScale)
    (hnh : 1 ≤ nh) (hpc : 1 ≤ pc) :
    ∃ L, ThreadedScale_plan tex nw nh ub pc s0 = some L ∧
      (L.length : Int) = Mathf_Min pc nh ∧
      (∀ (i : Nat) (d : ThreadData), (i : Int) < Mathf_Min pc nh - 1 →
        (L.map Launch.data)[i]? = some d → d.end_ - d.start = nh / Mathf_Min pc nh) ∧
      (∃ d, (L.map Launch.data)[(Mathf_Min pc nh - 1).toNat]? = some d ∧
        d.end_ - d.start = nh / Mathf_Min pc nh + nh % Mathf_Min pc nh) ∧
      ((∀ d ∈ L.map Launch.data, d.end_ - d.start = nh / Mathf_Min pc nh) ↔
        nh % Mathf_Min pc nh = 0) := by
  obtain ⟨hn1, _, _, _, _, _, _⟩ := split_arith nh pc hnh hpc
  refine ⟨_, plan_eq tex nw nh pc ub s0 hnh hpc, launches_length ub _ _ nh hn1, ?_⟩
  rw [launches_data ub _ _ nh hn1]
  generalize hn : Mathf_Min pc nh = n at hn1 ⊢
  have hdiv := Int.ediv_add_emod nh n
  generalize nh / n = s at hdiv ⊢
  have hlen : ((List.range (n - 1).toNat).map
      (fun (i : Nat) => (⟨(i : Int) * s, ((i : Int) + 1) * s⟩ : ThreadData))).length =
      (n - 1).toNat := by simp
  have hfirst : ∀ (i : Nat) (d : ThreadData), (i : Int) < n - 1 →
      ((List.range (n - 1).toNat).map
        (fun (i : Nat) => (⟨(i : Int) * s, ((i : Int) + 1) * s⟩ : ThreadData)) ++
        [⟨(n - 1) * s, nh⟩])[i]? = some d → d.end_ - d.start = s := by
    intro i d hi hd
    have hi' : i < (n - 1).toNat := by omega
    rw [List.getElem?_append_left (by rw [hlen]; exact hi'), List.getElem?_map,
      List.getElem?_range hi'] at hd
    simp only [Option.map_some', Option.some.injEq] at hd
    subst hd
    simp only
    ring
  have hlast : ((List.range (n - 1).toNat).map
        (fun (i : Nat) => (⟨(i : Int) * s, ((i : Int) + 1) * s⟩ : ThreadData)) ++
        [⟨(n - 1) * s, nh⟩])[(n - 1).toNat]? = some ⟨(n - 1) * s, nh⟩ := by
    rw [List.getElem?_append_right (by rw [hlen]), hlen]
    simp
  have hsz : nh - (n - 1) * s = s + nh % n := by
    have : (n - 1) * s = n * s - s := by ring
    omega
  refine ⟨hfirst, ⟨_, hlast, hsz⟩, ?_⟩
  constructor
  · intro hall
    have := hall ⟨(n - 1) * s, nh⟩ (List.mem_iff_getElem?.mpr ⟨_, hlast⟩)
    simp only at this
    omega
  · intro hz d hd
    obtain ⟨i, hi⟩ := List.mem_iff_getElem?.mp hd
    by_cases hlt : (i : Int) < n - 1
    · exact hfirst i d hlt hi
    · have hil : i < (n - 1).toNat + 1 := by
        have := (List.getElem?_eq_some.mp hi).1
        simp at this
        omega
      have hie : i = (n - 1).toNat := by omega
      rw [hie, hlast] at hi
      simp only [Option.some.injEq] at hi
      subst hi
      simp only
      omega

theorem C5_rows_per_worker_witness :
    ∃ L, ThreadedScale_plan tex22 3 5 false 2 statics0 = some L ∧
      (L.length : Int) = Mathf_Min 2 5 ∧
      (∀ (i : Nat) (d : ThreadData), (i : Int) < Mathf_Min 2 5 - 1 →
        (L.map Launch.data)[i]? = some d → d.end_ - d.start = 5 / Mathf_Min 2 5) ∧
      (∃ d, (L.map Launch.data)[(Mathf_Min 2 5 - 1).toNat]? = some d ∧
        d.end_ - d.start = 5 / Mathf_Min 2 5 + 5 % Mathf_Min 2 5) ∧
      ((∀ d ∈ L.map Launch.data, d.end_ - d.start = 5 / Mathf_Min 2 5) ↔
        (5 : Int) % Mathf_Min 2 5 = 0) :=
  C5_rows_per_worker tex22 3 5 2 false statics0 (by decide) (by decide)

theorem C4_worker_count_witness :
    ∃ T d, ThreadedScale_plan tex22 3 5 false 2 statics0 = some (T ++ [Launch.call false d]) ∧
      ((T ++ [Launch.call false d]).length : Int) = Mathf_Min 2 5 ∧
      (T.length : Int) = Mathf_Min 2 5 - 1 ∧
      (∀ l ∈ T, ∃ e, l = Launch.thread false e) ∧
      ((T ++ [Launch.call false d]).filter Launch.onThread = T) ∧
      ((T ++ [Launch.call false d]).filter (fun l => !l.onThread) = [Launch.call false d]) ∧
      (Mathf_Min 2 5 = 1 → T = [] ∧ d = ⟨0, 5⟩) :=
  C4_worker_count tex22 3 5 2 false statics0 (by decide) (by decide)

theorem Mathf_Clamp_bounds (v lo hi : ℚ) (h : lo ≤ hi) :
    lo ≤ Mathf_Clamp v lo hi ∧ Mathf_Clamp v lo hi ≤ hi := by
  unfold Mathf_Clamp
  split
  · exact ⟨le_refl _, h⟩
  · split
    · exact ⟨h, le_refl _⟩
    · constructor
      · linarith
      · linarith

theorem HandleRotation_clamped (limit : ℚ) (hl : 0 ≤ limit) (f : Frame)
    (s : FPSController × Engine) (h : PitchClamped limit s) :
    PitchClamped limit (FPSController_HandleRotation f s.1 s.2) := by
  obtain ⟨h1, h2, h3⟩ := h
  unfold FPSController_HandleRotation
  split
  · have hb := Mathf_Clamp_bounds
      (s.1.rotationX + (-s.1.lookInput.y) * s.1.lookSpeed * f.deltaTime) (-limit) limit
      (by linarith)
    refine ⟨h1, ?_, ?_⟩
    · simp only [h1]; exact hb.1
    · simp only [h1]; exact hb.2
  · exact ⟨h1, h2, h3⟩

theorem apply_clamped (sqrtf : ℚ → ℚ) (limit : ℚ) (hl : 0 ≤ limit) (op : ControllerOp)
    (s : FPSController × Engine) (h : PitchClamped limit s) :
    PitchClamped limit (op.apply sqrtf s) := by
  cases op with
  | OnMove v => exact h
  | OnMoveCanceled => exact h
  | OnLook v => exact h
  | OnLookCanceled => exact h
  | OnJump =>
    simp only [ControllerOp.apply, FPSController_OnJump]
    split
    · exact h
    · exact h
  | FixedUpdate f =>
    simp only [ControllerOp.apply, FPSController_FixedUpdate, FPSController_HandleMovement,
      FPSController_ApplyGravity]
    split <;> split <;> exact h
  | Update f => exact HandleRotation_clamped limit hl f s h

theorem runOps_clamped (sqrtf : ℚ → ℚ) (limit : ℚ) (hl : 0 ≤ limit) (ops : List ControllerOp) :
    ∀ s, PitchClamped limit s → PitchClamped limit (runOps sqrtf ops s) := by
  induction ops with
  | nil => intro s h; exact h
  | cons op ops ih =>
    intro s h
    exact ih _ (apply_clamped sqrtf limit hl op s h)

/-- C10. Velocity-based movement: `HandleMovement` keeps the vertical velocity
and sets the horizontal components from the input only.  When
`moveInput.x² + moveInput.y²` is not below the `Vector2` equality threshold the
new velocity is `(m.x * moveSpeed, v.y, m.z * moveSpeed)` with
`m = forward * moveInput.y + right * moveInput.x`; otherwise it is
`(0, v.y, 0)`. -/
theorem C10_handleMovement_velocity (f : Frame) (c : FPSController) (e : Engine) :
    (FPSController_HandleMovement f c e).2.velocity.y = e.velocity.y ∧
      (¬ (c.moveInput.x ^ 2 + c.moveInput.y ^ 2 < 999999944 / 10000000000000000000) →
        (FPSController_HandleMovement f c e).2.velocity =
          ⟨(f.forward.x * c.moveInput.y + f.right.x * c.moveInput.x) * c.moveSpeed,
            e.velocity.y,
            (f.forward.z * c.moveInput.y + f.right.z * c.moveInput.x) * c.moveSpeed⟩) ∧
      (c.moveInput.x ^ 2 + c.moveInput.y ^ 2 < 999999944 / 10000000000000000000 →
        (FPSController_HandleMovement f c e).2.velocity = ⟨0, e.velocity.y, 0⟩) := by
  have hiff : Vector2_op_Inequality c.moveInput Vector2_get_zero = true ↔
      ¬ (c.moveInput.x ^ 2 + c.moveInput.y ^ 2 < 999999944 / 10000000000000000000) := by
    simp [Vector2_op_Inequality, Vector2_op_Equality, Vector2_get_zero, kEpsilonSqr, sq]
  by_cases hz : c.moveInput.x ^ 2 + c.moveInput.y ^ 2 < 999999944 / 10000000000000000000
  · have hne : ¬ (Vector2_op_Inequality c.moveInput Vector2_get_zero = true) := by
      rw [hiff]; exact not_not.mpr hz
    simp [FPSController_HandleMovement, hne, hz, Vector3__ctor]
  · have hne : Vector2_op_Inequality c.moveInput Vector2_get_zero = true := hiff.mpr hz
    simp [FPSController_HandleMovement, hne, hz, Vector3__ctor, Vector3_op_Addition,
      Vector3_op_Multiply]

theorem HandleMovement_eval :
    (FPSController_HandleMovement
      ⟨1, 1, ⟨0, -10, 0⟩, ⟨0, 0, 0⟩, ⟨0, 0, 1⟩, ⟨1, 0, 0⟩, ⟨1, 1, 1⟩, fun _ _ _ => true⟩
      { FPSController__ctor with moveInput := ⟨1, 0⟩ } ⟨⟨7, -3, 7⟩, [], none⟩).2.velocity =
      ⟨6, -3, 0⟩ := by
  norm_num [FPSController_HandleMovement, Vector2_op_Inequality, Vector2_op_Equality,
    Vector2_get_zero, kEpsilonSqr, FPSController__ctor, Vector3__ctor, Vector3_op_Addition,
    Vector3_op_Multiply]

theorem SameStatics.trans {a b c : TextureScale} (h1 : SameStatics a b) (h2 : SameStatics b c) :
    SameStatics a c := by
  obtain ⟨a1, a2, a3, a4, a5, a6, a7, a8⟩ := h1
  obtain ⟨b1, b2, b3, b4, b5, b6, b7, b8⟩ := h2
  exact ⟨b1.trans a1, b2.trans a2, b3.trans a3, b4.trans a4, b5.trans a5, b6.trans a6,
    b7.trans a7, b8.trans a8⟩

theorem forLoop_rel {σ : Type} (body : Int → σ → Option σ) (R : σ → σ → Prop)
    (hrefl : ∀ s, R s s) (htrans : ∀ a b c, R a b → R b c → R a c)
    (hbody : ∀ i s t, body i s = some t → R s t) :
    ∀ (n : Nat) (lo : Int) (s t : σ), forLoop body n lo s = some t → R s t := by
  intro n
  induction n with
  | zero =>
    intro lo s t h
    simp only [forLoop, Option.some.injEq] at h
    subst h
    exact hrefl s
  | succ k ih =>
    intro lo s t h
    simp only [forLoop] at h
    cases hb : body lo s with
    | none => rw [hb] at h; simp at h
    | some u =>
      rw [hb] at h
      simp only [Option.some_bind] at h
      exact htrans _ _ _ (hbody lo s u hb) (ih (lo + 1) u t h)

theorem PointScale_pixel_same {thisY yw x : Int} {s t : TextureScale}
    (h : PointScale_pixel thisY yw x s = some t) : SameStatics s t := by
  unfold PointScale_pixel at h
  split at h
  · simp at h
  · split at h
    · simp at h
    · rename_i arr harr
      simp only [Option.some.injEq] at h
      subst h
      exact (SameStatics.refl s).setNew (length_SetAtUnchecked harr)

theorem BilinearScale_pixel_same {y yFloor y1 y2 yw x : Int} {s t : TextureScale}
    (h : BilinearScale_pixel y yFloor y1 y2 yw x s = some t) : SameStatics s t := by
  unfold BilinearScale_pixel at h
  simp only at h
  split at h
  · split at h
    · simp at h
    · rename_i arr harr
      simp only [Option.some.injEq] at h
      subst h
      exact (SameStatics.refl s).setNew (length_SetAtUnchecked harr)
  · simp at h

/-- A row of either worker changes `newColors` only, and keeps its length. -/
theorem rowBody_same {b : Bool} {y : Int} {s t : TextureScale} (h : rowBody b y s = some t) :
    SameStatics s t := by
  unfold rowBody at h
  split at h
  · exact forLoop_rel _ SameStatics SameStatics.refl (fun _ _ _ => SameStatics.trans)
      (fun _ _ _ hb => BilinearScale_pixel_same hb) _ _ _ _ h
  · exact forLoop_rel _ SameStatics SameStatics.refl (fun _ _ _ => SameStatics.trans)
      (fun _ _ _ hb => PointScale_pixel_same hb) _ _ _ _ h

theorem rowList_self (lo : Int) : rowList lo lo = [] := by
  simp [rowList]

theorem rowList_empty {lo hi : Int} (h : hi ≤ lo) : rowList lo hi = [] := by
  have : (hi - lo).toNat = 0 := by omega
  simp [rowList, this]

theorem rowList_succ {lo y : Int} (h : lo ≤ y) : rowList lo (y + 1) = rowList lo y ++ [y] := by
  unfold rowList
  have e : (y + 1 - lo).toNat = (y - lo).toNat + 1 := by omega
  rw [e, List.range_succ, List.map_append]
  simp only [List.map_cons, List.map_nil]
  congr 2
  omega

theorem mem_rowList {lo hi y : Int} : y ∈ rowList lo hi ↔ lo ≤ y ∧ y < hi := by
  unfold rowList
  simp only [List.mem_map, List.mem_range]
  constructor
  · rintro ⟨k, hk, rfl⟩
    omega
  · rintro ⟨h1, h2⟩
    exact ⟨(y - lo).toNat, by omega, by omega⟩

theorem countP_set_eq {α : Type} (p : α → Bool) :
    ∀ (l : List α) (k : Nat) (w w1 : α), l[k]? = some w →
      (l.set k w1).countP p + (if p w then 1 else 0) =
        l.countP p + (if p w1 then 1 else 0) := by
  intro l
  induction l with
  | nil => intro k w w1 h; simp at h
  | cons a as ih =>
    intro k w w1 h
    cases k with
    | zero =>
      simp only [List.getElem?_cons_zero, Option.some.injEq] at h
      subst h
      simp only [List.set_cons_zero, List.countP_cons]
      omega
    | succ j =>
      simp only [List.getElem?_cons_succ] at h
      have := ih j w w1 h
      simp only [List.set_cons_succ, List.countP_cons]
      omega

theorem getElem?_set_of_lt {α : Type} {l : List α} {k j : Nat} {w w1 : α}
    (hk : l[k]? = some w) : (l.set k w1)[j]? = if k = j then some w1 else l[j]? := by
  rw [List.getElem?_set]
  have hlt : k < l.length := (List.getElem?_eq_some.mp hk).1
  simp [hlt]

theorem getElem?_snoc {α : Type} (l : List α) (a : α) (k : Nat) (w : α)
    (h : (l ++ [a])[k]? = some w) : l[k]? = some w ∨ (k = l.length ∧ w = a) := by
  by_cases hk : k < l.length
  · rw [List.getElem?_append_left hk] at h
    exact Or.inl h
  · rw [List.getElem?_append_right (by omega)] at h
    have hlt := (List.getElem?_eq_some.mp h).1
    simp only [List.length_singleton] at hlt
    have e : k - l.length = 0 := by omega
    rw [e] at h
    simp only [List.getElem?_cons_zero, Option.some.injEq] at h
    exact Or.inr ⟨by omega, h.symm⟩

theorem RowsOk_start (l : Launch) : RowsOk (startWorker l) := by
  simp [RowsOk, startWorker, rowList_self]

theorem WInv.append_start {ws : List Worker} {st : TextureScale} (h : WInv ws st) (l : Launch) :
    WInv (ws ++ [startWorker l]) st where
  owner_of_crit := by
    intro k w hk hc
    rcases getElem?_snoc ws _ k w hk with h1 | ⟨_, h2⟩
    · exact h.owner_of_crit k w h1 hc
    · subst h2
      simp [startWorker, inCrit] at hc
  crit_of_owner := by
    intro k hk
    obtain ⟨w, hw, hc⟩ := h.crit_of_owner k hk
    have hlt := (List.getElem?_eq_some.mp hw).1
    exact ⟨w, by rw [List.getElem?_append_left hlt]; exact hw, hc⟩
  fresh := by
    intro k w v hk hpc
    rcases getElem?_snoc ws _ k w hk with h1 | ⟨_, h2⟩
    · exact h.fresh k w v h1 hpc
    · subst h2
      simp [startWorker] at hpc
  count := by
    rw [List.countP_append, h.count]
    simp [startWorker, incremented]
  rows := by
    intro w hw
    rcases List.mem_append.mp hw with h1 | h1
    · exact h.rows w h1
    · simp only [List.mem_singleton] at h1
      subst h1
      exact RowsOk_start l

theorem WInv.statics {ws : List Worker} {st st1 : TextureScale} (h : WInv ws st)
    (hm : st1.mutex = st.mutex) (hf : st1.finishCount = st.finishCount) : WInv ws st1 where
  owner_of_crit := by rw [hm]; exact h.owner_of_crit
  crit_of_owner := by rw [hm]; exact h.crit_of_owner
  fresh := by rw [hf]; exact h.fresh
  count := by rw [hf]; exact h.count
  rows := h.rows

theorem set_cases {l : List Worker} {k j : Nat} {w w1 x : Worker} (hk : l[k]? = some w)
    (hj : (l.set k w1)[j]? = some x) : (j = k ∧ x = w1) ∨ (j ≠ k ∧ l[j]? = some x) := by
  rw [getElem?_set_of_lt hk] at hj
  by_cases h : k = j
  · simp only [h, if_true, Option.some.injEq] at hj
    exact Or.inl ⟨h.symm, hj.symm⟩
  · simp only [h, if_false] at hj
    exact Or.inr ⟨fun e => h e.symm, hj⟩

theorem set_self {l : List Worker} {k : Nat} {w w1 : Worker} (hk : l[k]? = some w) :
    (l.set k w1)[k]? = some w1 := by
  rw [getElem?_set_of_lt hk]
  simp

theorem set_other {l : List Worker} {k j : Nat} {w w1 : Worker} (hk : l[k]? = some w)
    (hne : j ≠ k) : (l.set k w1)[j]? = l[j]? := by
  rw [getElem?_set_of_lt hk]
  have : ¬ k = j := fun e => hne e.symm
  simp [this]

theorem mem_set_cases {l : List Worker} {k : Nat} {w1 x : Worker} (h : x ∈ l.set k w1) :
    x = w1 ∨ x ∈ l := by
  obtain ⟨j, hj⟩ := List.mem_iff_getElem?.mp h
  rw [List.getElem?_set] at hj
  split at hj
  · split at hj
    · simp only [Option.some.injEq] at hj
      exact Or.inl hj.symm
    · simp at hj
  · exact Or.inr (List.mem_iff_getElem?.mpr ⟨j, hj⟩)

/-- A worker step that keeps the mutex and the counter, and moves between two
program counters that are neither in the critical section nor past it. -/
theorem WInv.set_outside {ws : List Worker} {st st1 : TextureScale} (h : WInv ws st)
    {k : Nat} {w w1 : Worker} (hk : ws[k]? = some w)
    (hm : st1.mutex = st.mutex) (hf : st1.finishCount = st.finishCount)
    (hc : inCrit w.pc = false) (hc1 : inCrit w1.pc = false)
    (hi : incremented w.pc = false) (hi1 : incremented w1.pc = false)
    (hs1 : ∀ v, w1.pc ≠ WorkerPc.store v) (hr : RowsOk w1) : WInv (ws.set k w1) st1 where
  owner_of_crit := by
    intro j x hj hx
    rcases set_cases hk hj with ⟨_, e⟩ | ⟨_, e⟩
    · subst e; rw [hc1] at hx; exact absurd hx (by decide)
    · rw [hm]; exact h.owner_of_crit j x e hx
  crit_of_owner := by
    intro j hj
    rw [hm] at hj
    obtain ⟨x, hx, hxc⟩ := h.crit_of_owner j hj
    have hne : j ≠ k := by
      intro e
      subst e
      rw [hk] at hx
      simp only [Option.some.injEq] at hx
      subst hx
      rw [hc] at hxc
      exact absurd hxc (by decide)
    exact ⟨x, by rw [set_other hk hne]; exact hx, hxc⟩
  fresh := by
    intro j x v hj hx
    rcases set_cases hk hj with ⟨_, e⟩ | ⟨_, e⟩
    · subst e; exact absurd hx (hs1 v)
    · rw [hf]; exact h.fresh j x v e hx
  count := by
    have := countP_set_eq (fun w => incremented w.pc) ws k w w1 hk
    simp only [hi, hi1] at this
    rw [hf, h.count]
    simp only [Bool.false_eq_true, if_false, add_zero] at this
    rw [this]
  rows := by
    intro x hx
    rcases mem_set_cases hx with e | e
    · subst e; exact hr
    · exact h.rows x e

/-- Two workers inside the critical section are the same worker. -/
theorem WInv.crit_unique {ws : List Worker} {st : TextureScale} (h : WInv ws st)
    {j k : Nat} {x w : Worker} (hj : ws[j]? = some x) (hk : ws[k]? = some w)
    (hx : inCrit x.pc = true) (hw : inCrit w.pc = true) : j = k := by
  have e1 := h.owner_of_crit j x hj hx
  have e2 := h.owner_of_crit k w hk hw
  rw [e1] at e2
  simp only [Option.some.injEq, Mutex.mk.injEq] at e2
  exact e2

theorem count_set_same {ws : List Worker} {k : Nat} {w w1 : Worker} (hk : ws[k]? = some w)
    (e : incremented w1.pc = incremented w.pc) :
    (ws.set k w1).countP (fun w => incremented w.pc) =
      ws.countP (fun w => incremented w.pc) := by
  have := countP_set_eq (fun w => incremented w.pc) ws k w w1 hk
  simp only [e] at this
  omega

theorem count_set_incr {ws : List Worker} {k : Nat} {w w1 : Worker} (hk : ws[k]? = some w)
    (e : incremented w.pc = false) (e1 : incremented w1.pc = true) :
    (ws.set k w1).countP (fun w => incremented w.pc) =
      ws.countP (fun w => incremented w.pc) + 1 := by
  have := countP_set_eq (fun w => incremented w.pc) ws k w w1 hk
  simp only [e, e1, Bool.false_eq_true, if_false, if_true] at this
  omega

/-- Every step of a worker keeps the worker part of the invariant, keeps the
way the worker was started, and never decreases `finishCount`. -/
theorem WInv.worker_step {ws : List Worker} {st : TextureScale} (h : WInv ws st)
    {k : Nat} {w : Worker} (hk : ws[k]? = some w) {r : Worker × TextureScale}
    (hs : w.step k st = some r) :
    WInv (ws.set k r.1) r.2 ∧ r.1.launch = w.launch ∧ st.finishCount ≤ r.2.finishCount := by
  have hrow := h.rows w (List.mem_iff_getElem?.mpr ⟨k, hk⟩)
  unfold Worker.step at hs
  split at hs
  · -- row y
    rename_i y hpc
    simp only [RowsOk, hpc] at hrow
    obtain ⟨r1, r2, r3⟩ := hrow
    split at hs
    · rename_i hlt
      cases hb : rowBody w.launch.bilinear y st with
      | none => rw [hb] at hs; simp at hs
      | some s1 =>
        rw [hb] at hs
        simp only [Option.map_some', Option.some.injEq] at hs
        subst hs
        obtain ⟨_, _, _, _, _, e6, e7, _⟩ := rowBody_same hb
        refine ⟨h.set_outside hk e7 e6 (by simp [hpc, inCrit]) (by simp [inCrit])
          (by simp [hpc, incremented]) (by simp [incremented]) (by simp) ?_, rfl,
          by simp only [e6]; exact le_refl _⟩
        simp only [RowsOk]
        exact ⟨by omega, Or.inl (by omega), by rw [r3, rowList_succ r1]⟩
    · rename_i hge
      simp only [Option.some.injEq] at hs
      subst hs
      refine ⟨h.set_outside hk rfl rfl (by simp [hpc, inCrit]) (by simp [inCrit])
        (by simp [hpc, incremented]) (by simp [incremented]) (by simp) ?_, rfl, le_refl _⟩
      simp only [RowsOk]
      rcases r2 with r2 | r2
      · have : y = w.launch.data.end_ := by omega
        rw [r3, this]
      · rw [r3, r2, rowList_self, rowList_empty (by omega)]
  · -- waitOne
    rename_i hpc
    simp only [RowsOk, hpc] at hrow
    split at hs
    · simp at hs
    · rename_i m hm
      split at hs
      · simp at hs
      · rename_i ho
        simp only [Option.some.injEq] at hs
        subst hs
        have hfree : ∀ j, st.mutex ≠ some ⟨some j⟩ := by
          intro j hj
          rw [hm] at hj
          simp only [Option.some.injEq] at hj
          rw [hj] at ho
          simp at ho
        refine ⟨⟨?_, ?_, ?_, ?_, ?_⟩, rfl, le_refl _⟩
        · intro j x hj hx
          rcases set_cases hk hj with ⟨e1, _⟩ | ⟨_, e⟩
          · subst e1; rfl
          · exact absurd (h.owner_of_crit j x e hx) (hfree j)
        · intro j hj
          simp only [Option.some.injEq, Mutex.mk.injEq] at hj
          subst hj
          exact ⟨_, set_self hk, rfl⟩
        · intro j x v hj hx
          rcases set_cases hk hj with ⟨_, e⟩ | ⟨_, e⟩
          · subst e; simp at hx
          · exact h.fresh j x v e hx
        · show st.finishCount = _
          rw [h.count]
          congr 1
          exact (count_set_same hk (by simp [hpc, incremented])).symm
        · intro x hx
          rcases mem_set_cases hx with e | e
          · subst e; simpa [RowsOk] using hrow
          · exact h.rows x e
  · -- load
    rename_i hpc
    simp only [RowsOk, hpc] at hrow
    simp only [Option.some.injEq] at hs
    subst hs
    have hown := h.owner_of_crit k w hk (by simp [hpc, inCrit])
    refine ⟨⟨?_, ?_, ?_, ?_, ?_⟩, rfl, le_refl _⟩
    · intro j x hj hx
      rcases set_cases hk hj with ⟨e1, _⟩ | ⟨_, e⟩
      · subst e1; exact hown
      · exact h.owner_of_crit j x e hx
    · intro j hj
      rw [hown] at hj
      simp only [Option.some.injEq, Mutex.mk.injEq] at hj
      subst hj
      exact ⟨_, set_self hk, rfl⟩
    · intro j x v hj hx
      rcases set_cases hk hj with ⟨_, e⟩ | ⟨_, e⟩
      · subst e
        simp only [WorkerPc.store.injEq] at hx
        exact hx.symm
      · exact h.fresh j x v e hx
    · show st.finishCount = _
      rw [h.count]
      congr 1
      exact (count_set_same hk (by simp [hpc, incremented])).symm
    · intro x hx
      rcases mem_set_cases hx with e | e
      · subst e; simpa [RowsOk] using hrow
      · exact h.rows x e
  · -- store v
    rename_i v hpc
    simp only [RowsOk, hpc] at hrow
    simp only [Option.some.injEq] at hs
    subst hs
    have hown := h.owner_of_crit k w hk (by simp [hpc, inCrit])
    have hv := h.fresh k w v hk hpc
    refine ⟨⟨?_, ?_, ?_, ?_, ?_⟩, rfl, by simp only [hv]; omega⟩
    · intro j x hj hx
      rcases set_cases hk hj with ⟨e1, _⟩ | ⟨_, e⟩
      · subst e1; exact hown
      · exact h.owner_of_crit j x e hx
    · intro j hj
      have hj' : st.mutex = some ⟨some j⟩ := hj
      rw [hown] at hj'
      simp only [Option.some.injEq, Mutex.mk.injEq] at hj'
      subst hj'
      exact ⟨_, set_self hk, rfl⟩
    · intro j x v1 hj hx
      rcases set_cases hk hj with ⟨_, e⟩ | ⟨hne, e⟩
      · subst e; simp at hx
      · exact absurd (h.crit_unique e hk (by simp [hx, inCrit]) (by simp [hpc, inCrit])) hne
    · show v + 1 = ((List.countP (fun w => incremented w.pc)
          (ws.set k { w with pc := WorkerPc.release }) : Nat) : Int)
      rw [count_set_incr hk (by simp [hpc, incremented]) (by simp [incremented]), hv, h.count]
      push_cast
      rfl
    · intro x hx
      rcases mem_set_cases hx with e | e
      · subst e; simpa [RowsOk] using hrow
      · exact h.rows x e
  · -- release
    rename_i hpc
    simp only [RowsOk, hpc] at hrow
    split at hs
    · simp at hs
    · rename_i m hm
      split at hs
      · rename_i ho
        simp only [Option.some.injEq] at hs
        subst hs
        have hown := h.owner_of_crit k w hk (by simp [hpc, inCrit])
        refine ⟨⟨?_, ?_, ?_, ?_, ?_⟩, rfl, le_refl _⟩
        · intro j x hj hx
          rcases set_cases hk hj with ⟨_, e⟩ | ⟨hne, e⟩
          · subst e; simp [inCrit] at hx
          · exact absurd (h.crit_unique e hk hx (by simp [hpc, inCrit])) hne
        · intro j hj
          simp at hj
        · intro j x v hj hx
          rcases set_cases hk hj with ⟨_, e⟩ | ⟨_, e⟩
          · subst e; simp at hx
          · exact h.fresh j x v e hx
        · show st.finishCount = _
          rw [h.count]
          congr 1
          exact (count_set_same hk (by simp [hpc, incremented])).symm
        · intro x hx
          rcases mem_set_cases hx with e | e
          · subst e; simpa [RowsOk] using hrow
          · exact h.rows x e
      · simp at hs
  · simp at hs

theorem spawnLoop_snoc (ub : Bool) (s : Int) (n : Nat) (i : Int) :
    ThreadedScale_spawnLoop ub s (n + 1) i =
      ThreadedScale_spawnLoop ub s n i ++
        [Launch.thread ub (ThreadData__ctor (s * (i + n)) (s * (i + n + 1)))] := by
  induction n generalizing i with
  | zero => simp [ThreadedScale_spawnLoop]
  | succ k ih =>
    rw [ThreadedScale_spawnLoop, ih (i + 1)]
    simp only [ThreadedScale_spawnLoop, List.cons_append]
    have e : i + 1 + (k : Int) = i + ((k + 1 : Nat) : Int) := by push_cast; ring
    rw [e]

theorem map_launch_set {ws : List Worker} {k : Nat} {w w1 : Worker} (hk : ws[k]? = some w)
    (e : w1.launch = w.launch) : (ws.set k w1).map Worker.launch = ws.map Worker.launch := by
  apply List.ext_getElem?
  intro j
  rw [List.getElem?_map, List.getElem?_map, getElem?_set_of_lt hk]
  by_cases h : k = j
  · subst h
    simp [hk, e]
  · simp [h]

/-- The arguments and locals of `ThreadedScale` never change. -/
theorem step_consts {s s1 : Sys} {a : Actor} (hs : Sys.step a s = some s1) :
    s1.cores = s.cores ∧ s1.slice = s.slice ∧ s1.newHeight = s.newHeight ∧
      s1.newWidth = s.newWidth ∧ s1.useBilinear = s.useBilinear := by
  cases a with
  | main =>
    simp only [Sys.step, Sys.mainStep] at hs
    split at hs
    · split at hs <;> (simp only [Option.some.injEq] at hs; subst hs; simp)
    · split at hs <;> (simp only [Option.some.injEq] at hs; subst hs; simp)
    · split at hs
      · simp at hs
      · split at hs
        · simp only [Option.some.injEq] at hs; subst hs; simp
        · simp at hs
    · split at hs <;> (simp only [Option.some.injEq] at hs; subst hs; simp)
    · simp only [Option.some.injEq] at hs; subst hs; simp
    · simp only [Option.some.injEq] at hs; subst hs; simp
    · simp at hs
  | worker k =>
    simp only [Sys.step] at hs
    split at hs
    · simp at hs
    · rename_i w hw
      cases hr : w.step k s.statics with
      | none => rw [hr] at hs; simp at hs
      | some r =>
        rw [hr] at hs
        simp only [Option.map_some', Option.some.injEq] at hs
        subst hs
        simp

theorem Inv.step {s s1 : Sys} (h : Inv s) (a : Actor) (hs : Sys.step a s = some s1) :
    Inv s1 := by
  cases a with
  | worker k =>
    simp only [Sys.step] at hs
    split at hs
    · simp at hs
    · rename_i w hw
      cases hr : w.step k s.statics with
      | none => rw [hr] at hs; simp at hs
      | some r =>
        rw [hr] at hs
        simp only [Option.map_some', Option.some.injEq] at hs
        subst hs
        obtain ⟨hw1, hl, hmono⟩ := h.winv.worker_step hw hr
        refine ⟨h.cores_pos, hw1, ?_, ?_⟩
        · have hp := h.plan
          unfold PlanOk at hp ⊢
          simp only
          rw [map_launch_set hw hl]
          split <;> rename_i hm <;> simp only [hm] at hp
          · simp only [hp] at hw; simp at hw
          · exact hp
          · exact hp
        · intro hm hc
          have := h.joined hm hc
          show ¬ r.2.finishCount < s.cores
          omega
  | main =>
    simp only [Sys.step, Sys.mainStep] at hs
    have hp := h.plan
    unfold PlanOk at hp
    split at hs
    · -- branch
      rename_i hm
      simp only [hm] at hp
      split at hs
      · rename_i hc
        simp only [Option.some.injEq] at hs
        subst hs
        refine ⟨h.cores_pos, h.winv, ?_, by intro hm1; simp at hm1⟩
        simp only [PlanOk]
        exact ⟨hc, le_refl _, by omega, by simp [hp, ThreadedScale_spawnLoop]⟩
      · rename_i hc
        simp only [Option.some.injEq] at hs
        subst hs
        refine ⟨h.cores_pos, h.winv.append_start _, ?_, by intro hm1; simp at hm1⟩
        simp only [PlanOk, hp, List.nil_append, List.map_cons, List.map_nil, startWorker,
          ThreadedScale_launches, hc, if_false]
    · -- spawn i
      rename_i i hm
      simp only [hm] at hp
      obtain ⟨p1, p2, p3, p4⟩ := hp
      split at hs
      · rename_i hc
        simp only [Option.some.injEq] at hs
        subst hs
        refine ⟨h.cores_pos, h.winv.append_start _, ?_, by intro hm1; simp at hm1⟩
        simp only [PlanOk]
        refine ⟨p1, by omega, by omega, ?_⟩
        have e : (i + 1).toNat = i.toNat + 1 := by omega
        rw [e, spawnLoop_snoc, List.map_append, p4]
        have e2 : (0 : Int) + (i.toNat : Int) = i := by omega
        simp only [List.map_cons, List.map_nil, startWorker, e2]
      · rename_i hc
        simp only [Option.some.injEq] at hs
        subst hs
        refine ⟨h.cores_pos, h.winv.append_start _, ?_, by intro hm1; simp at hm1⟩
        have hi : i = s.cores - 1 := by omega
        simp only [PlanOk]
        rw [launches_split _ _ _ _ h.cores_pos, List.map_append, p4, hi]
        simp [startWorker, ThreadData__ctor]
    · -- call
      rename_i hm
      simp only [hm] at hp
      split at hs
      · simp at hs
      · split at hs
        · simp only [Option.some.injEq] at hs
          subst hs
          refine ⟨h.cores_pos, h.winv, ?_, ?_⟩
          · by_cases hc : s.cores > 1
            · simpa [PlanOk, hc] using hp
            · simpa [PlanOk, hc] using hp
          · intro hm1 hc
            simp only [hc, if_true] at hm1
            simp at hm1
        · simp at hs
    · -- join
      rename_i hm
      simp only [hm] at hp
      split at hs
      · simp only [Option.some.injEq] at hs
        subst hs
        exact ⟨h.cores_pos, h.winv, by simpa [PlanOk] using hp, by intro hm1; simp at hm1⟩
      · rename_i hc
        simp only [Option.some.injEq] at hs
        subst hs
        exact ⟨h.cores_pos, h.winv, by simpa [PlanOk] using hp, fun _ _ => hc⟩
    · -- sleep
      rename_i hm
      simp only [hm] at hp
      simp only [Option.some.injEq] at hs
      subst hs
      exact ⟨h.cores_pos, h.winv, by simpa [PlanOk] using hp, by intro hm1; simp at hm1⟩
    · -- writeBack
      rename_i hm
      simp only [hm] at hp
      simp only [Option.some.injEq] at hs
      subst hs
      exact ⟨h.cores_pos, h.winv.statics rfl rfl, by simpa [PlanOk] using hp,
        by intro hm1; simp at hm1⟩
    · simp at hs

theorem start_eq (tex : Texture2D) (nw nh pc : Int) (ub : Bool) (st0 : TextureScale)
    (hnh : 1 ≤ nh) (hpc : 1 ≤ pc) (hm : MutexFree st0) :
    ∃ init, ThreadedScale_start tex nw nh ub pc st0 = some init ∧
      init.cores = Mathf_Min pc nh ∧ init.slice = nh / Mathf_Min pc nh ∧
      init.newHeight = nh ∧ init.newWidth = nw ∧ init.useBilinear = ub ∧
      init.main = MainPc.branch ∧ init.workers = [] ∧ init.statics.finishCount = 0 ∧
      MutexFree init.statics := by
  obtain ⟨a, _, _, _, _, _, e⟩ := split_arith nh pc hnh hpc
  have hc : Mathf_Min pc nh ≠ 0 := by omega
  unfold ThreadedScale_start ThreadedScale_setup
  simp only [hc, if_false, Option.map_some', e]
  refine ⟨_, rfl, rfl, rfl, rfl, rfl, rfl, rfl, rfl, ?_, ?_⟩
  · cases hmx : st0.mutex <;> cases ub <;> simp
  · cases hmx : st0.mutex with
    | none => cases ub <;> simp [MutexFree]
    | some m =>
      have := hm m hmx
      cases ub <;> simp [MutexFree, this]

theorem Inv.init {s : Sys} (hc : 1 ≤ s.cores) (hm : s.main = MainPc.branch)
    (hw : s.workers = []) (hf : s.statics.finishCount = 0) (hfree : MutexFree s.statics) :
    Inv s where
  cores_pos := hc
  winv := by
    rw [hw]
    refine ⟨by intro k w h; simp at h, ?_, by intro k w v h; simp at h, by simp [hf],
      by intro w h; simp at h⟩
    intro k hk
    have := hfree _ hk
    simp at this
  plan := by simp [PlanOk, hm, hw]
  joined := by intro h; rw [hm] at h; simp at h

theorem Inv.reachable {s0 s : Sys} (h0 : Inv s0) (hr : Reachable s0 s) :
    Inv s ∧ s.cores = s0.cores ∧ s.slice = s0.slice ∧ s.newHeight = s0.newHeight ∧
      s.newWidth = s0.newWidth ∧ s.useBilinear = s0.useBilinear := by
  induction hr with
  | init => exact ⟨h0, rfl, rfl, rfl, rfl, rfl⟩
  | step a _ hs ih =>
    obtain ⟨i1, i2, i3, i4, i5, i6⟩ := ih
    obtain ⟨c1, c2, c3, c4, c5⟩ := step_consts hs
    exact ⟨i1.step a hs, c1.trans i2, c2.trans i3, c3.trans i4, c4.trans i5, c5.trans i6⟩

theorem run_reachable {s0 : Sys} : ∀ (as : List Actor) (s s1 : Sys), Reachable s0 s →
    Sys.run as s = some s1 → Reachable s0 s1 := by
  intro as
  induction as with
  | nil =>
    intro s s1 hr h
    simp only [Sys.run, Option.some.injEq] at h
    subst h
    exact hr
  | cons a as ih =>
    intro s s1 hr h
    simp only [Sys.run] at h
    cases hs : s.step a with
    | none => rw [hs] at h; simp at h
    | some t =>
      rw [hs] at h
      simp only [Option.some_bind] at h
      exact ih t s1 (Reachable.step a hr hs) h

/-- A step changes `finishCount` only when a worker at `store v` writes `v + 1`;
a worker step never moves `ThreadedScale` itself. -/
theorem step_effect {s s1 : Sys} {a : Actor} (hs : Sys.step a s = some s1) :
    (s1.statics.finishCount = s.statics.finishCount ∨
      ∃ k w v, a = Actor.worker k ∧ s.workers[k]? = some w ∧ w.pc = WorkerPc.store v ∧
        s1.statics.finishCount = v + 1) ∧
    (∀ k, a = Actor.worker k → s1.main = s.main) := by
  cases a with
  | main =>
    refine ⟨Or.inl ?_, by intro k h; simp at h⟩
    simp only [Sys.step, Sys.mainStep] at hs
    split at hs
    · split at hs <;> (simp only [Option.some.injEq] at hs; subst hs; rfl)
    · split at hs <;> (simp only [Option.some.injEq] at hs; subst hs; rfl)
    · split at hs
      · simp at hs
      · split at hs
        · simp only [Option.some.injEq] at hs; subst hs; rfl
        · simp at hs
    · split at hs <;> (simp only [Option.some.injEq] at hs; subst hs; rfl)
    · simp only [Option.some.injEq] at hs; subst hs; rfl
    · simp only [Option.some.injEq] at hs; subst hs; rfl
    · simp at hs
  | worker k =>
    simp only [Sys.step] at hs
    split at hs
    · simp at hs
    · rename_i w hw
      cases hr : w.step k s.statics with
      | none => rw [hr] at hs; simp at hs
      | some r =>
        rw [hr] at hs
        simp only [Option.map_some', Option.some.injEq] at hs
        subst hs
        refine ⟨?_, fun _ _ => rfl⟩
        unfold Worker.step at hr
        split at hr
        · split at hr
          · rename_i y _ _
            cases hb : rowBody w.launch.bilinear y s.statics with
            | none => rw [hb] at hr; simp at hr
            | some t =>
              rw [hb] at hr
              simp only [Option.map_some', Option.some.injEq] at hr
              subst hr
              exact Or.inl (rowBody_same hb).2.2.2.2.2.1
          · simp only [Option.some.injEq] at hr; subst hr; exact Or.inl rfl
        · split at hr
          · simp at hr
          · split at hr
            · simp at hr
            · simp only [Option.some.injEq] at hr; subst hr; exact Or.inl rfl
        · simp only [Option.some.injEq] at hr; subst hr; exact Or.inl rfl
        · rename_i v hpc
          simp only [Option.some.injEq] at hr; subst hr
          exact Or.inr ⟨k, w, v, rfl, hw, hpc, rfl⟩
        · split at hr
          · simp at hr
          · split at hr
            · simp only [Option.some.injEq] at hr; subst hr; exact Or.inl rfl
            · simp at hr
        · simp at hr

theorem incremented_rows {w : Worker} (h : RowsOk w) (hi : incremented w.pc = true) :
    w.rowsDone = rowList w.launch.data.start w.launch.data.end_ := by
  unfold RowsOk at h
  split at h
  · rename_i y hpc
    rw [hpc] at hi
    simp [incremented] at hi
  · exact h

/-- Facts about every state reachable from the start of `ThreadedScale`. -/
theorem reachable_facts (tex : Texture2D) (nw nh pc : Int) (ub : Bool) (st0 : TextureScale)
    (hnh : 1 ≤ nh) (hpc : 1 ≤ pc) (hm : MutexFree st0) (init s : Sys)
    (hinit : ThreadedScale_start tex nw nh ub pc st0 = some init) (hr : Reachable init s) :
    Inv s ∧ s.cores = Mathf_Min pc nh ∧ s.slice = nh / Mathf_Min pc nh ∧ s.newHeight = nh ∧
      s.useBilinear = ub ∧ init.statics.finishCount = 0 ∧ init.workers = [] := by
  obtain ⟨i0, h0, c1, c2, c3, c4, c5, c6, c7, c8, c9⟩ := start_eq tex nw nh pc ub st0 hnh hpc hm
  rw [h0] at hinit
  simp only [Option.some.injEq] at hinit
  subst hinit
  obtain ⟨hn1, _⟩ := split_arith nh pc hnh hpc
  have hinv : Inv i0 := Inv.init (by rw [c1]; exact hn1) c6 c7 c8 c9
  obtain ⟨r1, r2, r3, r4, _, r6⟩ := hinv.reachable hr
  exact ⟨r1, r2.trans c1, r3.trans c2, r4.trans c3, r6.trans c5, c8, c7⟩

/-- C8. The completion counter is mutex-guarded: in every reachable state,
under any interleaving, a worker between `WaitOne` and `ReleaseMutex` owns the
mutex, so at most one worker is there; the value a worker has read from
`finishCount` is still the value of `finishCount` when it writes it back; only
such a write, made while holding the mutex, changes `finishCount`, and it
raises it by exactly one: no increment is lost. -/
theorem C8_mutex_guards_counter (tex : Texture2D) (nw nh pc : Int) (ub : Bool)
    (st0 : TextureScale) (hnh : 1 ≤ nh) (hpc : 1 ≤ pc) (hm : MutexFree st0) (init s : Sys)
    (hinit : ThreadedScale_start tex nw nh ub pc st0 = some init) (hr : Reachable init s) :
    (∀ (k : Nat) (w : Worker), s.workers[k]? = some w → inCrit w.pc = true →
      s.statics.mutex = some ⟨some k⟩) ∧
    (∀ (j k : Nat) (x w : Worker), s.workers[j]? = some x → s.workers[k]? = some w →
      inCrit x.pc = true → inCrit w.pc = true → j = k) ∧
    (∀ (k : Nat) (w : Worker) (v : Int), s.workers[k]? = some w → w.pc = WorkerPc.store v →
      v = s.statics.finishCount) ∧
    (∀ a s1, Sys.step a s = some s1 → s1.statics.finishCount ≠ s.statics.finishCount →
      ∃ k w v, a = Actor.worker k ∧ s.workers[k]? = some w ∧ w.pc = WorkerPc.store v ∧
        s.statics.mutex = some ⟨some k⟩ ∧
        s1.statics.finishCount = s.statics.finishCount + 1) ∧
    (∀ (k : Nat) (w : Worker) (v : Int), s.workers[k]? = some w → w.pc = WorkerPc.store v →
      ∃ s1, Sys.step (Actor.worker k) s = some s1 ∧
        s1.statics.finishCount = s.statics.finishCount + 1) := by
  obtain ⟨hinv, _⟩ := reachable_facts tex nw nh pc ub st0 hnh hpc hm init s hinit hr
  refine ⟨hinv.winv.owner_of_crit, ?_, hinv.winv.fresh, ?_, ?_⟩
  · intro j k x w hj hk hx hw
    exact hinv.winv.crit_unique hj hk hx hw
  · intro a s1 hs hne
    rcases (step_effect hs).1 with h | ⟨k, w, v, ha, hw, hpc, hv⟩
    · exact absurd h hne
    · have hfresh := hinv.winv.fresh k w v hw hpc
      exact ⟨k, w, v, ha, hw, hpc,
        hinv.winv.owner_of_crit k w hw (by simp [hpc, inCrit]), by rw [hv, hfresh]⟩
  · intro k w v hw hpc
    have hfresh := hinv.winv.fresh k w v hw hpc
    refine ⟨{ s with
        workers := s.workers.set k { w with pc := WorkerPc.release },
        statics := { s.statics with finishCount := v + 1 } },
      by simp only [Sys.step, hw, Worker.step, hpc, Option.map_some'], ?_⟩
    simp only [hfresh]

theorem statics0_free : MutexFree statics0 := by
  intro m h
  simp [statics0] at h

theorem demoInit_start : ThreadedScale_start tex11 1 2 false 2 statics0 = some demoInit := by
  rfl

theorem demoState_reachable (n : Nat) : Reachable demoInit (demoState n) := by
  unfold demoState
  split
  · rename_i s h
    exact run_reachable _ _ _ Reachable.init h
  · exact Reachable.init

/-- After the whole schedule `ThreadedScale` is at the write-back, both workers
have returned and `finishCount = 2`. -/
theorem demoState_final :
    (demoState 21).main = MainPc.writeBack ∧
      (demoState 21).workers.map Worker.pc = [WorkerPc.done, WorkerPc.done] ∧
      (demoState 21).statics.finishCount = 2 ∧
      (demoState 21).statics.newColors = [⟨5, 6, 7, 1⟩, ⟨5, 6, 7, 1⟩] := by
  with_unfolding_all decide

/-- After eight steps worker 1 has read `finishCount = 0` and holds the mutex,
while worker 0 is still in its row loop. -/
theorem demoState_mid :
    (demoState 8).workers.map Worker.pc = [WorkerPc.row 1, WorkerPc.store 0] ∧
      (demoState 8).statics.mutex = some ⟨some 1⟩ := by
  with_unfolding_all decide

theorem C8_mutex_guards_counter_witness :
    (∀ (k : Nat) (w : Worker), (demoState 8).workers[k]? = some w → inCrit w.pc = true →
      (demoState 8).statics.mutex = some ⟨some k⟩) ∧
    (∀ (k : Nat) (w : Worker) (v : Int), (demoState 8).workers[k]? = some w →
      w.pc = WorkerPc.store v → v = (demoState 8).statics.finishCount) :=
  ⟨(C8_mutex_guards_counter tex11 1 2 2 false statics0 (by decide) (by decide) statics0_free
      demoInit (demoState 8) demoInit_start (demoState_reachable 8)).1,
    (C8_mutex_guards_counter tex11 1 2 2 false statics0 (by decide) (by decide) statics0_free
      demoInit (demoState 8) demoInit_start (demoState_reachable 8)).2.2.1⟩

/-- C11. Ground check: every call of `HandleMovement` sets `isGrounded` to the
answer of the raycast from the transform position in direction `Vector3.down`
with maximum distance `bounds.extents.y + groundCheckDistance`, whatever the
previous value of `isGrounded` and the move input were, and it changes no other
field of the controller; `FixedUpdate` is `HandleMovement` followed by
`ApplyGravity`, so `ApplyGravity` runs with the value of `isGrounded` computed
in the same step. -/
theorem C11_ground_check (f : Frame) (c : FPSController) (e : Engine) :
    (FPSController_HandleMovement f c e).1 =
        { c with isGrounded :=
            f.raycast f.position ⟨0, -1, 0⟩ (f.boundsExtents.y + c.groundCheckDistance) } ∧
      (∀ (g : Bool) (m : Vector2),
        (FPSController_HandleMovement f { c with isGrounded := g, moveInput := m } e).1.isGrounded =
          (FPSController_HandleMovement f c e).1.isGrounded) ∧
      FPSController_FixedUpdate f c e =
        FPSController_ApplyGravity f (FPSController_HandleMovement f c e).1
          (FPSController_HandleMovement f c e).2 ∧
      (FPSController_FixedUpdate f c e).1.isGrounded =
        f.raycast f.position ⟨0, -1, 0⟩ (f.boundsExtents.y + c.groundCheckDistance) ∧
      (FPSController_FixedUpdate f c e).2.velocity =
        (if f.raycast f.position ⟨0, -1, 0⟩ (f.boundsExtents.y + c.groundCheckDistance) then
          Vector3__ctor (FPSController_HandleMovement f c e).2.velocity.x
            (if (FPSController_HandleMovement f c e).2.velocity.y > 0 then
              (FPSController_HandleMovement f c e).2.velocity.y else 0)
            (FPSController_HandleMovement f c e).2.velocity.z
        else
          Vector3_op_Addition (FPSController_HandleMovement f c e).2.velocity
            (Vector3_op_Multiply (Vector3_op_Multiply Vector3_get_up f.physicsGravity.y)
              f.fixedDeltaTime)) := by
  have h1 : (FPSController_HandleMovement f c e).1 =
      { c with isGrounded :=
          f.raycast f.position ⟨0, -1, 0⟩ (f.boundsExtents.y + c.groundCheckDistance) } := by
    unfold FPSController_HandleMovement
    simp only [Vector3_get_down]
    split <;> rfl
  have h2 : ∀ c1 : FPSController, (FPSController_HandleMovement f c1 e).1.isGrounded =
      f.raycast f.position ⟨0, -1, 0⟩ (f.boundsExtents.y + c1.groundCheckDistance) := by
    intro c1
    unfold FPSController_HandleMovement
    simp only [Vector3_get_down]
    split <;> rfl
  refine ⟨h1, ?_, rfl, ?_, ?_⟩
  · intro g m
    rw [h2, h2]
  · unfold FPSController_FixedUpdate FPSController_ApplyGravity
    simp only []
    split <;> exact h2 c
  · unfold FPSController_FixedUpdate FPSController_ApplyGravity
    simp only [h2 c]
    split <;> rfl

/-- C12. Jump impulse only from the ground: `OnJump` calls
`Rigidbody_set_velocity` if and only if `isGrounded` is true; when it is true
the velocity becomes `(v.x, sqrtf (jumpForce * 2 * gravity), v.z)` with `v` the
velocity before and `gravity` the controller's own field, and nothing else
changes; when it is false the controller and the engine state are unchanged. -/
theorem C12_jump_only_grounded (sqrtf : ℚ → ℚ) (c : FPSController) (e : Engine) :
    ((FPSController_OnJump_setVelocity sqrtf c e).isSome = true ↔ c.isGrounded = true) ∧
      FPSController_OnJump sqrtf c e =
        (c, match FPSController_OnJump_setVelocity sqrtf c e with
          | some v => { e with velocity := v }
          | none => e) ∧
      (c.isGrounded = true →
        FPSController_OnJump sqrtf c e =
          (c, { e with velocity :=
            ⟨e.velocity.x, sqrtf (c.jumpForce * 2 * c.gravity), e.velocity.z⟩ })) ∧
      (c.isGrounded = false → FPSController_OnJump sqrtf c e = (c, e)) := by
  unfold FPSController_OnJump FPSController_OnJump_setVelocity
  cases hg : c.isGrounded <;> simp [Vector3__ctor]

/-- C15. `ColorLerpUnclamped` is linear interpolation on each channel without
clamping: every channel `k` of the result is `c1.k + (c2.k - c1.k) * t`; the
result is `c1` at `t = 0` and `c2` at `t = 1`, and at `t = 2` every channel is
`2 * c2.k - c1.k`. -/
theorem C15_colorLerpUnclamped (c1 c2 : Color) (t : ℚ) :
    (TextureScale_ColorLerpUnclamped c1 c2 t).r = c1.r + (c2.r - c1.r) * t ∧
      (TextureScale_ColorLerpUnclamped c1 c2 t).g = c1.g + (c2.g - c1.g) * t ∧
      (TextureScale_ColorLerpUnclamped c1 c2 t).b = c1.b + (c2.b - c1.b) * t ∧
      (TextureScale_ColorLerpUnclamped c1 c2 t).a = c1.a + (c2.a - c1.a) * t ∧
      TextureScale_ColorLerpUnclamped c1 c2 0 = c1 ∧
      TextureScale_ColorLerpUnclamped c1 c2 1 = c2 ∧
      TextureScale_ColorLerpUnclamped c1 c2 2 =
        ⟨2 * c2.r - c1.r, 2 * c2.g - c1.g, 2 * c2.b - c1.b, 2 * c2.a - c1.a⟩ := by
  refine ⟨rfl, rfl, rfl, rfl, ?_, ?_, ?_⟩
  · simp [TextureScale_ColorLerpUnclamped, Color__ctor]
  · simp [TextureScale_ColorLerpUnclamped, Color__ctor]
  · simp only [TextureScale_ColorLerpUnclamped, Color__ctor, Color.mk.injEq]
    refine ⟨?_, ?_, ?_, ?_⟩ <;> ring

/-- C14. `PlayerActions` is a typed wrapper over its `PlayerControls`: for every
`PlayerControls` object `c` at address `this`, the value `p` returned by
`PlayerControls_get_Player` has `p.m_Wrapper = this`, and `get_Move`,
`get_Look`, `get_Jump`, `Get` and the implicit conversion to `InputActionMap`
applied to `p` return the fields `m_Player_Move`, `m_Player_Look`,
`m_Player_Jump`, `m_Player` and `m_Player` stored in `c`; every one of these
calls leaves the heap, and with it `c`, as it was. -/
theorem C14_playerActions_wrapper (heap : ControlsHeap) (this : Nat) (c : PlayerControls)
    (hc : heap this = some c) :
    (PlayerControls_get_Player this heap).1.m_Wrapper = this ∧
      (PlayerControls_get_Player this heap).2 = heap ∧
      PlayerActions_get_Move (PlayerControls_get_Player this heap).1 heap =
        some (c.m_Player_Move, heap) ∧
      PlayerActions_get_Look (PlayerControls_get_Player this heap).1 heap =
        some (c.m_Player_Look, heap) ∧
      PlayerActions_get_Jump (PlayerControls_get_Player this heap).1 heap =
        some (c.m_Player_Jump, heap) ∧
      PlayerActions_Get (PlayerControls_get_Player this heap).1 heap =
        some (c.m_Player, heap) ∧
      PlayerActions_op_Implicit (PlayerControls_get_Player this heap).1 heap =
        some (c.m_Player, heap) := by
  simp [PlayerControls_get_Player, PlayerActions__ctor, PlayerActions_get_Move,
    PlayerActions_get_Look, PlayerActions_get_Jump, PlayerActions_Get,
    PlayerActions_op_Implicit, hc]

theorem C14_playerActions_wrapper_witness :
    heap7 7 = some ⟨1, 2, 3, 4, 5, 6⟩ ∧
      PlayerActions_get_Move (PlayerControls_get_Player 7 heap7).1 heap7 = some (4, heap7) ∧
      PlayerActions_get_Jump (PlayerControls_get_Player 7 heap7).1 heap7 = some (6, heap7) ∧
      PlayerActions_op_Implicit (PlayerControls_get_Player 7 heap7).1 heap7 =
        some (2, heap7) :=
  ⟨rfl, (C14_playerActions_wrapper heap7 7 ⟨1, 2, 3, 4, 5, 6⟩ rfl).2.2.1,
    (C14_playerActions_wrapper heap7 7 ⟨1, 2, 3, 4, 5, 6⟩ rfl).2.2.2.2.1,
    (C14_playerActions_wrapper heap7 7 ⟨1, 2, 3, 4, 5, 6⟩ rfl).2.2.2.2.2.2⟩

/-- C16 as stated fails: with `lookXLimit = -10` (a public field) and the
initial `rotationX = 0`, a look input `(0, 1)` with `lookSpeed = 2` and
`deltaTime = 1` gives `Clamp (-2, 10, -10) = 10`, so a positive `lookInput.y`
increases `rotationX` from `0` to `10`. -/
theorem C16_counterexample :
    0 ≤ ({ FPSController__ctor with lookXLimit := -10, lookInput := ⟨0, 1⟩ } :
        FPSController).lookSpeed ∧
      (FPSController_HandleRotation
        ⟨1, 1, ⟨0, -10, 0⟩, ⟨0, 0, 0⟩, ⟨0, 0, 1⟩, ⟨1, 0, 0⟩, ⟨1, 1, 1⟩, fun _ _ _ => true⟩
        { FPSController__ctor with lookXLimit := -10, lookInput := ⟨0, 1⟩ }
        ⟨⟨0, 0, 0⟩, [], none⟩).1.rotationX = 10 ∧
      ({ FPSController__ctor with lookXLimit := -10, lookInput := ⟨0, 1⟩ } :
        FPSController).rotationX = 0 := by
  norm_num [FPSController_HandleRotation, Vector2_op_Inequality, Vector2_op_Equality,
    Vector2_get_zero, kEpsilonSqr, FPSController__ctor, Mathf_Clamp, Vector3__ctor]

/-- C16 (amended). Look update: when `lookInput.x² + lookInput.y²` is not below
the `Vector2` equality threshold, `HandleRotation` calls
`transform.Rotate (0, lookInput.x * lookSpeed * deltaTime, 0)`, sets
`rotationX` to `Clamp (rotationX + (-lookInput.y) * lookSpeed * deltaTime,
-lookXLimit, lookXLimit)` and gives `Euler (rotationX, 0, 0)` to the camera;
when it is below the threshold nothing changes.  A positive `lookInput.y` does
not increase `rotationX` when `lookSpeed, deltaTime ≥ 0` and, in addition,
`rotationX` is not below `-lookXLimit` before the call. -/
theorem C16_look_update (f : Frame) (c : FPSController) (e : Engine) :
    (¬ (c.lookInput.x ^ 2 + c.lookInput.y ^ 2 < 999999944 / 10000000000000000000) →
        (FPSController_HandleRotation f c e).1.rotationX =
            Mathf_Clamp (c.rotationX + (-c.lookInput.y) * c.lookSpeed * f.deltaTime)
              (-c.lookXLimit) c.lookXLimit ∧
          (FPSController_HandleRotation f c e).1 =
            { c with rotationX := (FPSController_HandleRotation f c e).1.rotationX } ∧
          (FPSController_HandleRotation f c e).2.rotateCalls =
            ⟨0, c.lookInput.x * c.lookSpeed * f.deltaTime, 0⟩ :: e.rotateCalls ∧
          (FPSController_HandleRotation f c e).2.cameraLocalEuler =
            some ⟨(FPSController_HandleRotation f c e).1.rotationX, 0, 0⟩ ∧
          (FPSController_HandleRotation f c e).2.velocity = e.velocity) ∧
      (c.lookInput.x ^ 2 + c.lookInput.y ^ 2 < 999999944 / 10000000000000000000 →
        FPSController_HandleRotation f c e = (c, e)) ∧
      (0 ≤ c.lookSpeed → 0 ≤ f.deltaTime → 0 < c.lookInput.y → -c.lookXLimit ≤ c.rotationX →
        (FPSController_HandleRotation f c e).1.rotationX ≤ c.rotationX) := by
  have hiff : Vector2_op_Inequality c.lookInput Vector2_get_zero = true ↔
      ¬ (c.lookInput.x ^ 2 + c.lookInput.y ^ 2 < 999999944 / 10000000000000000000) := by
    simp [Vector2_op_Inequality, Vector2_op_Equality, Vector2_get_zero, kEpsilonSqr, sq]
  have hA : ¬ (c.lookInput.x ^ 2 + c.lookInput.y ^ 2 < 999999944 / 10000000000000000000) →
      (FPSController_HandleRotation f c e).1.rotationX =
        Mathf_Clamp (c.rotationX + (-c.lookInput.y) * c.lookSpeed * f.deltaTime)
          (-c.lookXLimit) c.lookXLimit := by
    intro hz
    have hne : Vector2_op_Inequality c.lookInput Vector2_get_zero = true := hiff.mpr hz
    simp [FPSController_HandleRotation, hne]
  have hB : c.lookInput.x ^ 2 + c.lookInput.y ^ 2 < 999999944 / 10000000000000000000 →
      FPSController_HandleRotation f c e = (c, e) := by
    intro hz
    have hne : ¬ (Vector2_op_Inequality c.lookInput Vector2_get_zero = true) := by
      rw [hiff]; exact not_not.mpr hz
    simp [FPSController_HandleRotation, hne]
  refine ⟨?_, hB, ?_⟩
  · intro hz
    refine ⟨hA hz, ?_⟩
    have hne : Vector2_op_Inequality c.lookInput Vector2_get_zero = true := hiff.mpr hz
    simp [FPSController_HandleRotation, hne, Vector3__ctor]
  · intro hls hdt hy hr
    by_cases hz : c.lookInput.x ^ 2 + c.lookInput.y ^ 2 < 999999944 / 10000000000000000000
    · rw [hB hz]
    · rw [hA hz]
      have hstep : c.rotationX + (-c.lookInput.y) * c.lookSpeed * f.deltaTime ≤ c.rotationX := by
        have h1 : 0 ≤ c.lookInput.y * c.lookSpeed * f.deltaTime :=
          mul_nonneg (mul_nonneg hy.le hls) hdt
        nlinarith
      unfold Mathf_Clamp
      split
      · exact hr
      · split
        · rename_i h1 h2
          exact le_trans (le_of_lt h2) hstep
        · exact hstep

theorem C16_look_update_witness :
    (FPSController_HandleRotation
        ⟨1, 1, ⟨0, -10, 0⟩, ⟨0, 0, 0⟩, ⟨0, 0, 1⟩, ⟨1, 0, 0⟩, ⟨1, 1, 1⟩, fun _ _ _ => true⟩
        { FPSController__ctor with lookInput := ⟨3, 4⟩ }
        ⟨⟨0, 0, 0⟩, [], none⟩).1.rotationX ≤ 0 ∧
      (FPSController_HandleRotation
        ⟨1, 1, ⟨0, -10, 0⟩, ⟨0, 0, 0⟩, ⟨0, 0, 1⟩, ⟨1, 0, 0⟩, ⟨1, 1, 1⟩, fun _ _ _ => true⟩
        { FPSController__ctor with lookInput := ⟨3, 4⟩ }
        ⟨⟨0, 0, 0⟩, [], none⟩).1.rotationX = -8 := by
  refine ⟨(C16_look_update
      ⟨1, 1, ⟨0, -10, 0⟩, ⟨0, 0, 0⟩, ⟨0, 0, 1⟩, ⟨1, 0, 0⟩, ⟨1, 1, 1⟩, fun _ _ _ => true⟩
      { FPSController__ctor with lookInput := ⟨3, 4⟩ } ⟨⟨0, 0, 0⟩, [], none⟩).2.2
      (by norm_num [FPSController__ctor]) (by norm_num) (by norm_num)
      (by norm_num [FPSController__ctor]), ?_⟩
  norm_num [FPSController_HandleRotation, Vector2_op_Inequality, Vector2_op_Equality,
    Vector2_get_zero, kEpsilonSqr, FPSController__ctor, Mathf_Clamp, Vector3__ctor]

theorem sameImage_refl (s : TextureScale) : SameImage s s := ⟨rfl, rfl, rfl, rfl, rfl, rfl⟩

theorem sameImage_trans {a b c : TextureScale} (p : SameImage a b) (q : SameImage b c) :
    SameImage a c :=
  ⟨q.1.trans p.1, q.2.1.trans p.2.1, q.2.2.1.trans p.2.2.1, q.2.2.2.1.trans p.2.2.2.1,
    q.2.2.2.2.1.trans p.2.2.2.2.1, q.2.2.2.2.2.trans p.2.2.2.2.2⟩

theorem sameImage_symm {a b : TextureScale} (p : SameImage a b) : SameImage b a :=
  ⟨p.1.symm, p.2.1.symm, p.2.2.1.symm, p.2.2.2.1.symm, p.2.2.2.2.1.symm, p.2.2.2.2.2.symm⟩

theorem SameStatics.image {s t : TextureScale} (h : SameStatics s t) : SameImage s t := by
  obtain ⟨a1, a2, a3, a4, a5, _, _, a8⟩ := h
  exact ⟨a1, a2, a3, a4, a5, a8⟩

theorem pixelValue_congr {s t : TextureScale} (h : SameImage s t) (b : Bool) (y x : Int) :
    pixelValue b y x t = pixelValue b y x s := by
  obtain ⟨a1, a2, a3, a4, a5, _⟩ := h
  simp only [pixelValue, BilinearScale_yFloor, BilinearScale_xFloor, PointScale_srcIndex,
    a1, a2, a3, a4]

theorem RowOk.congr {s t : TextureScale} (h : SameImage s t) {b : Bool} {y : Int}
    (hr : RowOk b y s) : RowOk b y t := by
  intro x hx0 hx1
  have h' := h
  obtain ⟨_, _, _, _, a5, a6⟩ := h'
  rw [a5] at hx1
  obtain ⟨r1, r2, r3⟩ := hr x hx0 hx1
  rw [pixelValue_congr h, a5, a6]
  exact ⟨r1, r2, r3⟩

theorem storePixel_same {v : Option Color} {i : Int} {t u : TextureScale}
    (h : storePixel v i t = some u) : SameStatics t u := by
  unfold storePixel at h
  split at h
  · simp at h
  · split at h
    · simp at h
    · rename_i arr harr
      simp only [Option.some.injEq] at h
      subst h
      exact (SameStatics.refl t).setNew (length_SetAtUnchecked harr)

theorem pixel_eq_store_point (y x : Int) {s t : TextureScale} (h : SameImage s t) :
    PointScale_pixel (il2cpp_codegen_cast_double_to_int (s.ratioY * (y : ℚ)) * s.w)
        (y * s.w2) x t =
      storePixel (pixelValue false y x s) (y * s.w2 + x) t := by
  obtain ⟨a1, a2, a3, a4, a5, _⟩ := h
  unfold PointScale_pixel storePixel pixelValue PointScale_srcIndex
  rewrite [a3, if_neg Bool.false_ne_true, a1]
  generalize GetAtUnchecked s.texColors _ = g1
  cases g1 <;> rfl

theorem pixel_eq_store_bilinear (y x : Int) {s t : TextureScale} (h : SameImage s t) :
    BilinearScale_pixel y (BilinearScale_yFloor y s) (BilinearScale_yFloor y s * s.w)
        ((BilinearScale_yFloor y s + 1) * s.w) (y * s.w2) x t =
      storePixel (pixelValue true y x s) (y * s.w2 + x) t := by
  obtain ⟨a1, a2, a3, a4, a5, _⟩ := h
  unfold BilinearScale_pixel storePixel pixelValue BilinearScale_xFloor
  rewrite [a3, a4, if_pos rfl, a1]
  simp only []
  generalize GetAtUnchecked s.texColors _ = g1
  generalize GetAtUnchecked s.texColors _ = g2
  generalize GetAtUnchecked s.texColors _ = g3
  generalize GetAtUnchecked s.texColors _ = g4
  cases g1 <;> cases g2 <;> cases g3 <;> cases g4 <;> rfl

/-- The inner-loop body of either worker is the store of `pixelValue`. -/
theorem pixel_eq_store (b : Bool) (y x : Int) {s t : TextureScale} (h : SameImage s t) :
    (if b then
        BilinearScale_pixel y (BilinearScale_yFloor y s) (BilinearScale_yFloor y s * s.w)
          ((BilinearScale_yFloor y s + 1) * s.w) (y * s.w2) x t
      else
        PointScale_pixel (il2cpp_codegen_cast_double_to_int (s.ratioY * (y : ℚ)) * s.w)
          (y * s.w2) x t) =
      storePixel (pixelValue b y x s) (y * s.w2 + x) t := by
  cases b
  · rw [if_neg Bool.false_ne_true]
    exact pixel_eq_store_point y x h
  · rw [if_pos rfl]
    exact pixel_eq_store_bilinear y x h

theorem forLoop_congr {σ : Type} (R : σ → Prop) (body body1 : Int → σ → Option σ)
    (hR : ∀ i t u, R t → body1 i t = some u → R u)
    (heq : ∀ i t, R t → body i t = body1 i t) :
    ∀ (n : Nat) (lo : Int) (s : σ), R s → forLoop body n lo s = forLoop body1 n lo s := by
  intro n
  induction n with
  | zero => intro lo s _; rfl
  | succ k ih =>
    intro lo s hs
    simp only [forLoop, heq lo s hs]
    cases hb : body1 lo s with
    | none => rfl
    | some u =>
      simp only [Option.some_bind]
      exact ih (lo + 1) u (hR lo s u hs hb)

/-- A row of either worker is the loop that stores `pixelValue` for
`x = 0, …, w2 - 1`. -/
theorem rowBody_eq_store (b : Bool) (y : Int) (s : TextureScale) :
    rowBody b y s =
      forRange 0 s.w2 (fun x => storePixel (pixelValue b y x s) (y * s.w2 + x)) s := by
  have key := forLoop_congr (fun t => SameImage s t)
    (fun x t => if b then
        BilinearScale_pixel y (BilinearScale_yFloor y s) (BilinearScale_yFloor y s * s.w)
          ((BilinearScale_yFloor y s + 1) * s.w) (y * s.w2) x t
      else
        PointScale_pixel (il2cpp_codegen_cast_double_to_int (s.ratioY * (y : ℚ)) * s.w)
          (y * s.w2) x t)
    (fun x => storePixel (pixelValue b y x s) (y * s.w2 + x))
    (fun i t u ht hu => sameImage_trans ht (storePixel_same hu).image)
    (fun i t ht => pixel_eq_store b y i ht)
    (s.w2 - 0).toNat 0 s (sameImage_refl s)
  unfold forRange
  rw [← key]
  cases b
  · simp only [rowBody, PointScale_row, forRange, Bool.false_eq_true, if_false]
  · simp only [rowBody, BilinearScale_row, forRange, if_true, BilinearScale_yFloor]

theorem storePixel_some {v : Option Color} {i : Int} {t u : TextureScale}
    (h : storePixel v i t = some u) :
    ∃ c arr, v = some c ∧ SetAtUnchecked t.newColors i c = some arr ∧
      u = { t with newColors := arr } ∧ 0 ≤ i ∧ i < (t.newColors.length : Int) := by
  unfold storePixel at h
  split at h
  · simp at h
  · rename_i c
    split at h
    · simp at h
    · rename_i arr harr
      simp only [Option.some.injEq] at h
      refine ⟨c, arr, rfl, harr, h.symm, ?_⟩
      unfold SetAtUnchecked at harr
      split at harr
      · rename_i hi
        omega
      · simp at harr

theorem storePixel_ok {v : Option Color} {i : Int} {t : TextureScale}
    (hv : v.isSome = true) (h0 : 0 ≤ i) (h1 : i < (t.newColors.length : Int)) :
    ∃ u, storePixel v i t = some u := by
  obtain ⟨c, rfl⟩ := Option.isSome_iff_exists.mp hv
  obtain ⟨arr, harr⟩ := SetAtUnchecked_isSome (l := t.newColors) c h0 h1
  exact ⟨{ t with newColors := arr }, by simp [storePixel, harr]⟩

/-- A loop of stores that returns has made every access inside its array, and
has replaced exactly the elements `base + lo, …, base + lo + n - 1`. -/
theorem storeLoop_some (V : Int → Option Color) (base : Int) :
    ∀ (n : Nat) (lo : Int) (s t : TextureScale),
      forLoop (fun x => storePixel (V x) (base + x)) n lo s = some t →
      (∀ x, lo ≤ x → x < lo + n →
        (V x).isSome = true ∧ 0 ≤ base + x ∧ base + x < (s.newColors.length : Int)) ∧
      SameStatics s t ∧
      ∀ j, GetAtUnchecked t.newColors j =
        if base + lo ≤ j ∧ j < base + lo + n then V (j - base)
        else GetAtUnchecked s.newColors j := by
  intro n
  induction n with
  | zero =>
    intro lo s t h
    simp only [forLoop, Option.some.injEq] at h
    subst h
    refine ⟨by intro x h1 h2; simp at h2; omega, SameStatics.refl s, ?_⟩
    intro j
    have : ¬ (base + lo ≤ j ∧ j < base + lo + ((0 : Nat) : Int)) := by
      simp only [Nat.cast_zero, add_zero]; omega
    rw [if_neg this]
  | succ k ih =>
    intro lo s t h
    simp only [forLoop] at h
    cases hb : storePixel (V lo) (base + lo) s with
    | none => rw [hb] at h; simp at h
    | some u =>
      rw [hb] at h
      simp only [Option.some_bind] at h
      obtain ⟨c, arr, hv, harr, hu, hi0, hi1⟩ := storePixel_some hb
      obtain ⟨ih1, ih2, ih3⟩ := ih (lo + 1) u t h
      have hsu : SameStatics s u := storePixel_same hb
      have hlen : u.newColors.length = s.newColors.length := hsu.2.2.2.2.2.2.2
      refine ⟨?_, hsu.trans ih2, ?_⟩
      · intro x hx0 hx1
        by_cases hx : x = lo
        · subst hx
          exact ⟨by rw [hv]; rfl, hi0, hi1⟩
        · have := ih1 x (by omega) (by push_cast at hx1 ⊢; omega)
          rw [hlen] at this
          exact this
      · intro j
        rw [ih3 j]
        have hget : GetAtUnchecked u.newColors j =
            if j = base + lo then some c else GetAtUnchecked s.newColors j := by
          rw [hu]
          exact GetAtUnchecked_SetAtUnchecked harr j
        by_cases hj : j = base + lo
        · have e1 : ¬ (base + (lo + 1) ≤ j ∧ j < base + (lo + 1) + (k : Int)) := by omega
          have e2 : base + lo ≤ j ∧ j < base + lo + ((k + 1 : Nat) : Int) := by
            push_cast; omega
          rw [if_neg e1, if_pos e2, hget, if_pos hj, ← hv]
          congr 1
          omega
        · by_cases hin : base + (lo + 1) ≤ j ∧ j < base + (lo + 1) + (k : Int)
          · have e2 : base + lo ≤ j ∧ j < base + lo + ((k + 1 : Nat) : Int) := by
              push_cast; omega
            rw [if_pos hin, if_pos e2]
          · have e2 : ¬ (base + lo ≤ j ∧ j < base + lo + ((k + 1 : Nat) : Int)) := by
              push_cast; omega
            rw [if_neg hin, if_neg e2, hget, if_neg hj]

/-- A loop of stores whose accesses are all inside their arrays returns. -/
theorem storeLoop_ok (V : Int → Option Color) (base : Int) :
    ∀ (n : Nat) (lo : Int) (s : TextureScale),
      (∀ x, lo ≤ x → x < lo + n →
        (V x).isSome = true ∧ 0 ≤ base + x ∧ base + x < (s.newColors.length : Int)) →
      ∃ t, forLoop (fun x => storePixel (V x) (base + x)) n lo s = some t := by
  intro n
  induction n with
  | zero => intro lo s _; exact ⟨s, rfl⟩
  | succ k ih =>
    intro lo s h
    obtain ⟨h1, h2, h3⟩ := h lo (le_refl _) (by push_cast; omega)
    obtain ⟨u, hu⟩ := storePixel_ok (t := s) h1 h2 h3
    have hlen : u.newColors.length = s.newColors.length := (storePixel_same hu).2.2.2.2.2.2.2
    obtain ⟨t, ht⟩ := ih (lo + 1) u (by
      intro x hx0 hx1
      have := h x (by omega) (by push_cast at hx1 ⊢; omega)
      rw [hlen]
      exact this)
    exact ⟨t, by simp only [forLoop, hu, Option.some_bind, ht]⟩

/-- A row that returns has made every access inside its array; it changes
`newColors` only, at the indices `y * w2, …, y * w2 + w2 - 1`, where it stores
the pixel values of the row. -/
theorem rowBody_some {b : Bool} {y : Int} {s t : TextureScale} (h : rowBody b y s = some t) :
    RowOk b y s ∧ SameStatics s t ∧
      ∀ j, GetAtUnchecked t.newColors j =
        if y * s.w2 ≤ j ∧ j < y * s.w2 + s.w2 then pixelValue b y (j - y * s.w2) s
        else GetAtUnchecked s.newColors j := by
  rw [rowBody_eq_store, forRange] at h
  obtain ⟨h1, h2, h3⟩ := storeLoop_some (fun x => pixelValue b y x s) (y * s.w2) _ 0 s t h
  refine ⟨?_, h2, ?_⟩
  · intro x hx0 hx1
    exact h1 x hx0 (by omega)
  · intro j
    rw [h3 j]
    by_cases hin : y * s.w2 ≤ j ∧ j < y * s.w2 + s.w2
    · have e : y * s.w2 + 0 ≤ j ∧ j < y * s.w2 + 0 + ((s.w2 - 0).toNat : Int) := by omega
      rw [if_pos hin, if_pos e]
    · have e : ¬ (y * s.w2 + 0 ≤ j ∧ j < y * s.w2 + 0 + ((s.w2 - 0).toNat : Int)) := by omega
      rw [if_neg hin, if_neg e]

/-- A row whose accesses are all inside their arrays returns. -/
theorem rowBody_ok {b : Bool} {y : Int} {s : TextureScale} (h : RowOk b y s) :
    ∃ t, rowBody b y s = some t := by
  rw [rowBody_eq_store, forRange]
  apply storeLoop_ok
  intro x hx0 hx1
  exact h x hx0 (by omega)

theorem GetAtUnchecked_bounds {l : List Color} {i : Int}
    (h : (GetAtUnchecked l i).isSome = true) : 0 ≤ i ∧ i < (l.length : Int) := by
  unfold GetAtUnchecked at h
  split at h
  · rename_i h0
    obtain ⟨c, hc⟩ := Option.isSome_iff_exists.mp h
    have := (List.getElem?_eq_some.mp hc).1
    omega
  · simp at h

theorem GetAtUnchecked_none {l : List Color} {i : Int} (h : (l.length : Int) ≤ i) :
    GetAtUnchecked l i = none := by
  unfold GetAtUnchecked
  split
  · apply List.getElem?_eq_none
    omega
  · rfl

/-- The destination index `j` lies in the row `y` of a `W`-wide target exactly
when `j / W = y`; its column is then `j % W`. -/
theorem row_decode (W y j : Int) (hW : 1 ≤ W) :
    ((y * W ≤ j ∧ j < y * W + W) ↔ j / W = y) ∧
      (y * W ≤ j ∧ j < y * W + W → j - y * W = j % W) := by
  have hin : y * W ≤ j ∧ j < y * W + W → j / W = y ∧ j % W = j - y * W := by
    intro h
    have := dest_decode W y (j - y * W) (by omega) (by omega)
    have e : y * W + (j - y * W) = j := by ring
    rw [e] at this
    exact this
  refine ⟨⟨fun h => (hin h).1, ?_⟩, fun h => (hin h).2.symm⟩
  intro h
  have h1 := Int.emod_nonneg j (by omega : W ≠ 0)
  have h2 := Int.emod_lt_of_pos j (by omega : 0 < W)
  have h3 := Int.ediv_add_emod j W
  rw [h] at h3
  have h4 : W * y = y * W := by ring
  omega

/-- The rows `lo, …, hi - 1`, every access of which is inside its array, are
processed to the end; afterwards the destination indices of these rows hold
the pixel values and the others are as before. -/
theorem rows_some (b : Bool) (W lo hi : Int) (s : TextureScale) (hW : s.w2 = W) (hW1 : 1 ≤ W)
    (hrow : ∀ y, lo ≤ y → y < hi → RowOk b y s) :
    ∃ t, forRange lo hi (rowBody b) s = some t ∧ SameStatics s t ∧
      ∀ j, GetAtUnchecked t.newColors j =
        if lo ≤ j / W ∧ j / W < hi then pixelValue b (j / W) (j % W) s
        else GetAtUnchecked s.newColors j := by
  have key := forLoop_inv (rowBody b)
    (fun y t => lo ≤ y ∧ SameStatics s t ∧ ∀ j, GetAtUnchecked t.newColors j =
        if lo ≤ j / W ∧ j / W < y then pixelValue b (j / W) (j % W) s
        else GetAtUnchecked s.newColors j)
    (hi - lo).toNat lo s ?_ ?_
  · obtain ⟨s1, h1, _, h2, h3⟩ := key
    refine ⟨s1, h1, h2, ?_⟩
    intro j
    rw [h3 j]
    by_cases hin : lo ≤ j / W ∧ j / W < hi
    · have e : lo ≤ j / W ∧ j / W < lo + ((hi - lo).toNat : Int) := by omega
      rw [if_pos hin, if_pos e]
    · have e : ¬ (lo ≤ j / W ∧ j / W < lo + ((hi - lo).toNat : Int)) := by omega
      rw [if_neg hin, if_neg e]
  · intro y t hy0 hy1 hP
    obtain ⟨_, hst, hget⟩ := hP
    have hok : RowOk b y t := (hrow y hy0 (by omega)).congr hst.image
    obtain ⟨t1, ht1⟩ := rowBody_ok hok
    obtain ⟨_, htt1, hget1⟩ := rowBody_some ht1
    have htw : t.w2 = W := by rw [hst.2.2.2.2.1, hW]
    refine ⟨t1, ht1, by omega, hst.trans htt1, ?_⟩
    intro j
    rw [hget1 j, htw, hget j]
    obtain ⟨d1, d2⟩ := row_decode W y j hW1
    by_cases hin : y * W ≤ j ∧ j < y * W + W
    · have hy : j / W = y := d1.mp hin
      have e : lo ≤ j / W ∧ j / W < y + 1 := by omega
      rw [if_pos hin, if_pos e, d2 hin, pixelValue_congr hst.image, hy]
    · have hy : ¬ (j / W = y) := fun h => hin (d1.mpr h)
      rw [if_neg hin]
      by_cases hlt : lo ≤ j / W ∧ j / W < y
      · have e : lo ≤ j / W ∧ j / W < y + 1 := by omega
        rw [if_pos hlt, if_pos e]
      · have e : ¬ (lo ≤ j / W ∧ j / W < y + 1) := by omega
        rw [if_neg hlt, if_neg e]
  · refine ⟨le_refl _, SameStatics.refl s, ?_⟩
    intro j
    have e : ¬ (lo ≤ j / W ∧ j / W < lo) := by omega
    rw [if_neg e]

/-- Either worker as a function: its rows, then the guarded increment. -/
theorem worker_eq (b : Bool) (d : ThreadData) (u : TextureScale) :
    (if b then TextureScale_BilinearScale d u else TextureScale_PointScale d u) =
      (forRange d.start d.end_ (rowBody b) u).bind finishLocked := by
  cases b
  · simp only [Bool.false_eq_true, if_false, TextureScale_PointScale]
    congr 1
  · simp only [if_true, TextureScale_BilinearScale]
    congr 1

/-- With the static fields as `ThreadedScale` leaves them, a worker whose rows
make every access inside its array returns. -/
theorem worker_returns (b : Bool) (tex : Texture2D) (w2 h2 : Int) (rx ry : ℚ)
    (st : TextureScale) (hw2 : 1 ≤ w2) (hst : ScalerReady tex w2 h2 rx ry st) (d : ThreadData)
    (hrow : ∀ y, d.start ≤ y → y < d.end_ → RowOk b y st) :
    ∃ s1, (if b then TextureScale_BilinearScale d st else TextureScale_PointScale d st) =
      some s1 := by
  obtain ⟨t, ht, hsame, _⟩ := rows_some b w2 d.start d.end_ st hst.2.2.2.2.1 hw2 hrow
  have hfin := finishLocked_ready hst.2.2.2.2.2.2.2.1 hst.2.2.2.2.2.2.2.2 hsame
  exact ⟨_, by rw [worker_eq, ht, Option.some_bind, hfin]⟩

theorem pixelValue_point_bounds {y x : Int} {s : TextureScale}
    (h : (pixelValue false y x s).isSome = true) :
    0 ≤ PointScale_srcIndex y x s ∧ PointScale_srcIndex y x s < (s.texColors.length : Int) := by
  unfold pixelValue at h
  rw [if_neg Bool.false_ne_true] at h
  exact GetAtUnchecked_bounds h

theorem pixelValue_bilinear_bounds {y x : Int} {s : TextureScale}
    (h : (pixelValue true y x s).isSome = true) :
    ∀ i ∈ BilinearScale_srcIndices y x s, 0 ≤ i ∧ i < (s.texColors.length : Int) := by
  unfold pixelValue at h
  rw [if_pos rfl] at h
  simp only [] at h
  intro i hi
  simp only [BilinearScale_srcIndices, List.mem_cons, List.mem_singleton, List.not_mem_nil,
    or_false] at hi
  split at h
  · rename_i c11 c12 c21 c22 h11 h12 h21 h22
    rcases hi with rfl | rfl | rfl | rfl
    · exact GetAtUnchecked_bounds (by rw [h11]; rfl)
    · exact GetAtUnchecked_bounds (by rw [h12]; rfl)
    · exact GetAtUnchecked_bounds (by rw [h21]; rfl)
    · exact GetAtUnchecked_bounds (by rw [h22]; rfl)
  · simp at h

theorem point_rowOk (tex : Texture2D) (w2 h2 : Int) (st : TextureScale)
    (hw : 1 ≤ tex.width) (hh : 1 ≤ tex.height)
    (hlen : (tex.pixels.length : Int) = tex.width * tex.height)
    (hw2 : 1 ≤ w2) (hh2 : 1 ≤ h2)
    (hst : ScalerReady tex w2 h2 ((tex.width : ℚ) / (w2 : ℚ)) ((tex.height : ℚ) / (h2 : ℚ)) st)
    (y : Int) (hy0 : 0 ≤ y) (hy1 : y < h2) : RowOk false y st := by
  obtain ⟨t1, ht1, _⟩ := PointScale_row_fill tex w2 h2 st hw hh hlen hw2 hh2 hst y hy0 hy1 st
    (SameStatics.refl st)
  have : rowBody false y st = some t1 := by
    unfold rowBody
    rw [if_neg Bool.false_ne_true]
    exact ht1
  exact (rowBody_some this).1

theorem bilinear_rowOk (tex : Texture2D) (w2 h2 : Int) (st : TextureScale)
    (hw : 2 ≤ tex.width) (hh : 2 ≤ tex.height)
    (hlen : (tex.pixels.length : Int) = tex.width * tex.height)
    (hw2 : 1 ≤ w2) (hh2 : 1 ≤ h2)
    (hst : ScalerReady tex w2 h2 (1 / ((w2 : ℚ) / ((tex.width - 1 : Int) : ℚ)))
      (1 / ((h2 : ℚ) / ((tex.height - 1 : Int) : ℚ))) st)
    (y : Int) (hy0 : 0 ≤ y) (hy1 : y < h2) : RowOk true y st := by
  obtain ⟨t1, ht1, _⟩ := BilinearScale_row_fill tex w2 h2 st hw hh hlen hw2 hh2 hst y hy0 hy1 st
    (SameStatics.refl st)
  have : rowBody true y st = some t1 := by
    unfold rowBody
    rw [if_pos rfl]
    exact ht1
  exact (rowBody_some this).1

/-- C19. Point index safety: for a source of width `w ≥ 1` and height `h ≥ 1`
with `w * h` pixels and a target of `w2 ≥ 1` by `h2 ≥ 1` pixels, with the
static fields as `ThreadedScale` sets them for `useBilinear = false`: for every
output pixel `(x, y)` of the target the source index `(int)(thisY + ratioX * x)`
read by `PointScale` lies in `[0, w * h)` and the written index `y * w2 + x`
lies in `[0, w2 * h2)`; hence a `TextureScale_PointScale` worker over any row
range inside `[0, h2)` runs to its end without an access outside an array. -/
theorem C19_point_index_safety (tex : Texture2D) (w2 h2 pc : Int) (s0 : TextureScale)
    (hw : 1 ≤ tex.width) (hh : 1 ≤ tex.height)
    (hlen : (tex.pixels.length : Int) = tex.width * tex.height)
    (hw2 : 1 ≤ w2) (hh2 : 1 ≤ h2) (hpc : 1 ≤ pc) (hm : MutexFree s0) :
    ∃ t, ThreadedScale_setup tex w2 h2 false pc s0 = some t ∧
      (t.statics.texColors.length : Int) = tex.width * tex.height ∧
      (t.statics.newColors.length : Int) = w2 * h2 ∧
      (∀ y x : Int, 0 ≤ y → y < h2 → 0 ≤ x → x < w2 →
        0 ≤ PointScale_srcIndex y x t.statics ∧
          PointScale_srcIndex y x t.statics < tex.width * tex.height ∧
          0 ≤ y * t.statics.w2 + x ∧ y * t.statics.w2 + x < w2 * h2) ∧
      ∀ d : ThreadData, 0 ≤ d.start → d.end_ ≤ h2 →
        ∃ s1, TextureScale_PointScale d t.statics = some s1 := by
  obtain ⟨t, ht, _, _, hready⟩ := setup_ready tex w2 h2 pc false s0 hw2 hh2 hpc hm
  simp only [Bool.false_eq_true, if_false] at hready
  have hrows : ∀ y, 0 ≤ y → y < h2 → RowOk false y t.statics :=
    fun y hy0 hy1 => point_rowOk tex w2 h2 t.statics hw hh hlen hw2 hh2 hready y hy0 hy1
  have htex : (t.statics.texColors.length : Int) = tex.width * tex.height := by
    rw [hready.1, hlen]
  refine ⟨t, ht, htex, hready.2.2.2.2.2.1, ?_, ?_⟩
  · intro y x hy0 hy1 hx0 hx1
    obtain ⟨r1, r2, r3⟩ := hrows y hy0 hy1 x hx0 (by rw [hready.2.2.2.2.1]; exact hx1)
    obtain ⟨b1, b2⟩ := pixelValue_point_bounds r1
    rw [hready.2.2.2.2.2.1] at r3
    exact ⟨b1, by omega, r2, r3⟩
  · intro d hd0 hd1
    have := worker_returns false tex w2 h2 _ _ t.statics hw2 hready d
      (fun y hy0 hy1 => hrows y (by omega) (by omega))
    rw [if_neg Bool.false_ne_true] at this
    exact this

theorem C19_point_index_safety_witness :
    ∃ t, ThreadedScale_setup tex22 3 3 false 2 statics0 = some t ∧
      (0 ≤ PointScale_srcIndex 2 2 t.statics ∧ PointScale_srcIndex 2 2 t.statics < 2 * 2) ∧
      ∃ s1, TextureScale_PointScale ⟨1, 3⟩ t.statics = some s1 := by
  obtain ⟨t, h1, _, _, h4, h5⟩ := C19_point_index_safety tex22 3 3 2 statics0 (by decide)
    (by decide) (by decide) (by decide) (by decide) (by decide)
    (by intro m h; simp [statics0] at h)
  obtain ⟨a1, a2, _⟩ := h4 2 2 (by decide) (by decide) (by decide) (by decide)
  exact ⟨t, h1, ⟨a1, a2⟩, h5 ⟨1, 3⟩ (by decide) (by decide)⟩

/-- C17. Bilinear index safety: for a source of width `w ≥ 2` and height
`h ≥ 2` with `w * h` pixels and a target of `w2 ≥ 1` by `h2 ≥ 1` pixels, with
the static fields as `ThreadedScale` sets them for `useBilinear = true`: for
every output pixel `(x, y)` of the target the four source indices
`yF * w + xF`, `yF * w + xF + 1`, `(yF + 1) * w + xF`, `(yF + 1) * w + xF + 1`
read by `BilinearScale` lie in `[0, w * h)`, the written index `y * w2 + x`
lies in `[0, w2 * h2)`, and `0 ≤ xF`, `xF + 1 ≤ w - 1`, `0 ≤ yF`,
`yF + 1 ≤ h - 1`; hence a `TextureScale_BilinearScale` worker over any row
range inside `[0, h2)` runs to its end without an access outside an array. -/
theorem C17_bilinear_index_safety (tex : Texture2D) (w2 h2 pc : Int) (s0 : TextureScale)
    (hw : 2 ≤ tex.width) (hh : 2 ≤ tex.height)
    (hlen : (tex.pixels.length : Int) = tex.width * tex.height)
    (hw2 : 1 ≤ w2) (hh2 : 1 ≤ h2) (hpc : 1 ≤ pc) (hm : MutexFree s0) :
    ∃ t, ThreadedScale_setup tex w2 h2 true pc s0 = some t ∧
      (t.statics.texColors.length : Int) = tex.width * tex.height ∧
      (t.statics.newColors.length : Int) = w2 * h2 ∧
      (∀ y x : Int, 0 ≤ y → y < h2 → 0 ≤ x → x < w2 →
        BilinearScale_srcIndices y x t.statics =
            [BilinearScale_yFloor y t.statics * tex.width + BilinearScale_xFloor x t.statics,
              BilinearScale_yFloor y t.statics * tex.width + BilinearScale_xFloor x t.statics + 1,
              (BilinearScale_yFloor y t.statics + 1) * tex.width +
                BilinearScale_xFloor x t.statics,
              (BilinearScale_yFloor y t.statics + 1) * tex.width +
                BilinearScale_xFloor x t.statics + 1] ∧
          (∀ i ∈ BilinearScale_srcIndices y x t.statics, 0 ≤ i ∧ i < tex.width * tex.height) ∧
          0 ≤ y * t.statics.w2 + x ∧ y * t.statics.w2 + x < w2 * h2 ∧
          0 ≤ BilinearScale_xFloor x t.statics ∧
          BilinearScale_xFloor x t.statics + 1 ≤ tex.width - 1 ∧
          0 ≤ BilinearScale_yFloor y t.statics ∧
          BilinearScale_yFloor y t.statics + 1 ≤ tex.height - 1) ∧
      ∀ d : ThreadData, 0 ≤ d.start → d.end_ ≤ h2 →
        ∃ s1, TextureScale_BilinearScale d t.statics = some s1 := by
  obtain ⟨t, ht, _, _, hready⟩ := setup_ready tex w2 h2 pc true s0 hw2 hh2 hpc hm
  simp only [if_true] at hready
  have hrows : ∀ y, 0 ≤ y → y < h2 → RowOk true y t.statics :=
    fun y hy0 hy1 => bilinear_rowOk tex w2 h2 t.statics hw hh hlen hw2 hh2 hready y hy0 hy1
  have htex : (t.statics.texColors.length : Int) = tex.width * tex.height := by
    rw [hready.1, hlen]
  have hrx : t.statics.ratioX = ((tex.width - 1 : Int) : ℚ) / (w2 : ℚ) := by
    rw [hready.2.2.1, one_div_div]
  have hry : t.statics.ratioY = ((tex.height - 1 : Int) : ℚ) / (h2 : ℚ) := by
    rw [hready.2.2.2.1, one_div_div]
  refine ⟨t, ht, htex, hready.2.2.2.2.2.1, ?_, ?_⟩
  · intro y x hy0 hy1 hx0 hx1
    obtain ⟨r1, r2, r3⟩ := hrows y hy0 hy1 x hx0 (by rw [hready.2.2.2.2.1]; exact hx1)
    have hb := pixelValue_bilinear_bounds r1
    rw [hready.2.2.2.2.2.1] at r3
    have hxF : BilinearScale_xFloor x t.statics = srcFloor tex.width w2 x := by
      unfold BilinearScale_xFloor
      rw [hrx]
      exact cast_double_to_int_intCast _
    have hyF : BilinearScale_yFloor y t.statics = srcFloor tex.height h2 y := by
      unfold BilinearScale_yFloor
      rw [hry]
      exact cast_double_to_int_intCast _
    obtain ⟨x0, x1⟩ := srcFloor_bounds tex.width w2 x hw hw2 hx0 hx1
    obtain ⟨y0, y1⟩ := srcFloor_bounds tex.height h2 y hh hh2 hy0 hy1
    refine ⟨?_, ?_, r2, r3, ?_, ?_, ?_, ?_⟩
    · simp only [BilinearScale_srcIndices, hready.2.1]
    · intro i hi
      obtain ⟨b1, b2⟩ := hb i hi
      exact ⟨b1, by omega⟩
    · rw [hxF]; exact x0
    · rw [hxF]; omega
    · rw [hyF]; exact y0
    · rw [hyF]; omega
  · intro d hd0 hd1
    have := worker_returns true tex w2 h2 _ _ t.statics hw2 hready d
      (fun y hy0 hy1 => hrows y (by omega) (by omega))
    rw [if_pos rfl] at this
    exact this

theorem C17_bilinear_index_safety_witness :
    ∃ t, ThreadedScale_setup tex22 3 3 true 2 statics0 = some t ∧
      (∀ i ∈ BilinearScale_srcIndices 2 2 t.statics, 0 ≤ i ∧ i < 2 * 2) ∧
      ∃ s1, TextureScale_BilinearScale ⟨1, 3⟩ t.statics = some s1 := by
  obtain ⟨t, h1, _, _, h4, h5⟩ := C17_bilinear_index_safety tex22 3 3 2 statics0 (by decide)
    (by decide) (by decide) (by decide) (by decide) (by decide)
    (by intro m h; simp [statics0] at h)
  obtain ⟨_, a2, _⟩ := h4 2 2 (by decide) (by decide) (by decide) (by decide)
  exact ⟨t, h1, a2, h5 ⟨1, 3⟩ (by decide) (by decide)⟩

/-- C18. Bilinear scaling of a one-row source is out of range: for a source of
height `1` and width `w ≥ 1` with `w` pixels and a target of `w2 ≥ 1` by
`h2 ≥ 1` pixels, `ThreadedScale` with `useBilinear = true` sets `ratioY = 0`,
and for every output pixel `(x, y)` the third index read by `BilinearScale`,
`(yF + 1) * w + xF`, is `w + xF` with `xF ≥ 0`, which is at least `w * h`: the
read is outside the source array, so the inner-loop body fails on it for every
pixel, and a `TextureScale_BilinearScale` worker over any non-empty row range
does not run to its end. -/
theorem C18_bilinear_one_row (tex : Texture2D) (w2 h2 pc : Int) (s0 : TextureScale)
    (hw : 1 ≤ tex.width) (hh : tex.height = 1)
    (hlen : (tex.pixels.length : Int) = tex.width * tex.height)
    (hw2 : 1 ≤ w2) (hh2 : 1 ≤ h2) (hpc : 1 ≤ pc) (hm : MutexFree s0) :
    ∃ t, ThreadedScale_setup tex w2 h2 true pc s0 = some t ∧
      t.statics.ratioY = 0 ∧
      (∀ y x : Int, 0 ≤ x →
        (BilinearScale_srcIndices y x t.statics)[2]? =
            some ((BilinearScale_yFloor y t.statics + 1) * tex.width +
              BilinearScale_xFloor x t.statics) ∧
          (BilinearScale_yFloor y t.statics + 1) * tex.width + BilinearScale_xFloor x t.statics =
            tex.width + BilinearScale_xFloor x t.statics ∧
          0 ≤ BilinearScale_xFloor x t.statics ∧
          tex.width * tex.height ≤ tex.width + BilinearScale_xFloor x t.statics ∧
          GetAtUnchecked t.statics.texColors (tex.width + BilinearScale_xFloor x t.statics) =
            none ∧
          ∀ u, SameImage t.statics u →
            BilinearScale_pixel y (BilinearScale_yFloor y t.statics)
              (BilinearScale_yFloor y t.statics * t.statics.w)
              ((BilinearScale_yFloor y t.statics + 1) * t.statics.w) (y * t.statics.w2) x u =
              none) ∧
      ∀ d : ThreadData, d.start < d.end_ →
        TextureScale_BilinearScale d t.statics = none := by
  obtain ⟨t, ht, _, _, hready⟩ := setup_ready tex w2 h2 pc true s0 hw2 hh2 hpc hm
  simp only [if_true] at hready
  obtain ⟨htex, hsw, hrx, hry, hsw2, _, _, _, _⟩ := hready
  have hry0 : t.statics.ratioY = 0 := by
    rw [hry, hh]
    simp
  have hrx' : t.statics.ratioX = ((tex.width - 1 : Int) : ℚ) / (w2 : ℚ) := by
    rw [hrx, one_div_div]
  have hyF : ∀ y, BilinearScale_yFloor y t.statics = 0 := by
    intro y
    unfold BilinearScale_yFloor
    rw [hry0, mul_zero]
    simp [floorf, il2cpp_codegen_cast_double_to_int]
  have hxF : ∀ x : Int, 0 ≤ x → 0 ≤ BilinearScale_xFloor x t.statics := by
    intro x hx
    unfold BilinearScale_xFloor floorf
    rw [cast_double_to_int_intCast, hrx']
    apply Int.floor_nonneg.mpr
    have h1 : (0 : ℚ) ≤ (x : ℚ) := by exact_mod_cast hx
    have h2 : (0 : ℚ) ≤ ((tex.width - 1 : Int) : ℚ) := by
      exact_mod_cast (by omega : (0 : Int) ≤ tex.width - 1)
    have h3 : (0 : ℚ) ≤ (w2 : ℚ) := by exact_mod_cast (by omega : (0 : Int) ≤ w2)
    exact mul_nonneg h1 (div_nonneg h2 h3)
  have hnone : ∀ x : Int, 0 ≤ x →
      GetAtUnchecked t.statics.texColors (tex.width + BilinearScale_xFloor x t.statics) =
        none := by
    intro x hx
    apply GetAtUnchecked_none
    have := hxF x hx
    rw [htex, hlen, hh]
    omega
  have hval : ∀ y x : Int, 0 ≤ x → pixelValue true y x t.statics = none := by
    intro y x hx
    have h3 : GetAtUnchecked t.statics.texColors
        ((BilinearScale_yFloor y t.statics + 1) * t.statics.w +
          BilinearScale_xFloor x t.statics) = none := by
      rw [hyF y, hsw, zero_add, one_mul]
      exact hnone x hx
    unfold pixelValue
    rw [if_pos rfl]
    simp only []
    rw [h3]
    generalize GetAtUnchecked t.statics.texColors _ = g1
    generalize GetAtUnchecked t.statics.texColors _ = g2
    generalize GetAtUnchecked t.statics.texColors _ = g4
    cases g1 <;> cases g2 <;> cases g4 <;> rfl
  refine ⟨t, ht, hry0, ?_, ?_⟩
  · intro y x hx
    refine ⟨?_, ?_, hxF x hx, ?_, hnone x hx, ?_⟩
    · simp only [BilinearScale_srcIndices, hsw]
      rfl
    · rw [hyF y, zero_add, one_mul]
    · have := hxF x hx
      rw [hh]
      omega
    · intro u hu
      rw [pixel_eq_store_bilinear y x hu, hval y x hx]
      rfl
  · intro d hd
    have hrow : rowBody true d.start t.statics = none := by
      cases hr : rowBody true d.start t.statics with
      | none => rfl
      | some t1 =>
        have hok := (rowBody_some hr).1 0 (le_refl _) (by rw [hsw2]; omega)
        rw [hval d.start 0 (le_refl _)] at hok
        simp at hok
    obtain ⟨n, hn⟩ : ∃ n : Nat, (d.end_ - d.start).toNat = n + 1 :=
      ⟨(d.end_ - d.start).toNat - 1, by omega⟩
    have hb := worker_eq true d t.statics
    rw [if_pos rfl] at hb
    rw [hb, forRange, hn]
    simp only [forLoop, hrow, Option.none_bind]

theorem C18_bilinear_one_row_witness :
    ∃ t, ThreadedScale_setup tex21 3 3 true 2 statics0 = some t ∧
      t.statics.ratioY = 0 ∧
      GetAtUnchecked t.statics.texColors (tex21.width + BilinearScale_xFloor 2 t.statics) =
        none ∧
      TextureScale_BilinearScale ⟨0, 3⟩ t.statics = none := by
  obtain ⟨t, h1, h2, h3, h4⟩ := C18_bilinear_one_row tex21 3 3 2 statics0 (by decide) rfl
    (by decide) (by decide) (by decide) (by decide) (by intro m h; simp [statics0] at h)
  exact ⟨t, h1, h2, (h3 0 2 (by decide)).2.2.2.2.1, h4 ⟨0, 3⟩ (by decide)⟩

theorem list_eq_of_GetAtUnchecked {a b : List Color}
    (h : ∀ j : Int, GetAtUnchecked a j = GetAtUnchecked b j) : a = b := by
  apply List.ext_getElem?
  intro n
  have := h (n : Int)
  simpa [GetAtUnchecked] using this

theorem RowDone_append_start (ws : List Worker) (l : Launch) (y : Int) :
    RowDone (ws ++ [startWorker l]) y ↔ RowDone ws y := by
  unfold RowDone
  constructor
  · rintro ⟨w, hw, hy⟩
    rcases List.mem_append.mp hw with h | h
    · exact ⟨w, h, hy⟩
    · simp only [List.mem_singleton] at h
      subst h
      simp [startWorker] at hy
  · rintro ⟨w, hw, hy⟩
    exact ⟨w, List.mem_append_left _ hw, hy⟩

theorem RowDone_set {ws : List Worker} {k : Nat} {w w1 : Worker} (hk : ws[k]? = some w)
    (hsub : ∀ y, y ∈ w.rowsDone → y ∈ w1.rowsDone) (y : Int) :
    RowDone (ws.set k w1) y ↔ RowDone ws y ∨ y ∈ w1.rowsDone := by
  have hmem1 : w1 ∈ ws.set k w1 := List.mem_iff_getElem?.mpr ⟨k, set_self hk⟩
  unfold RowDone
  constructor
  · rintro ⟨v, hv, hy⟩
    rcases mem_set_cases hv with h | h
    · subst h
      exact Or.inr hy
    · exact Or.inl ⟨v, h, hy⟩
  · rintro (⟨v, hv, hy⟩ | hy)
    · obtain ⟨i, hi⟩ := List.mem_iff_getElem?.mp hv
      by_cases hik : i = k
      · subst hik
        rw [hk] at hi
        simp only [Option.some.injEq] at hi
        subst hi
        exact ⟨w1, hmem1, hsub y hy⟩
      · have : (ws.set k w1)[i]? = ws[i]? := set_other hk hik
        exact ⟨v, List.mem_iff_getElem?.mpr ⟨i, by rw [this]; exact hi⟩, hy⟩
    · exact ⟨w1, hmem1, hy⟩

/-- A step of a worker either processes one row, or leaves the images and the
history of the worker alone. -/
theorem worker_step_image {k : Nat} {w : Worker} {st : TextureScale}
    {r : Worker × TextureScale} (hs : w.step k st = some r) :
    r.1.launch = w.launch ∧
      ((r.1.rowsDone = w.rowsDone ∧ r.2.newColors = st.newColors ∧ SameImage st r.2 ∧
          (incremented w.pc = true → incremented r.1.pc = true)) ∨
        (∃ y, w.pc = WorkerPc.row y ∧ r.1.rowsDone = w.rowsDone ++ [y] ∧
          rowBody w.launch.bilinear y st = some r.2)) := by
  unfold Worker.step at hs
  split at hs
  · rename_i y hpc
    split at hs
    · cases hb : rowBody w.launch.bilinear y st with
      | none => rw [hb] at hs; simp at hs
      | some s1 =>
        rw [hb] at hs
        simp only [Option.map_some', Option.some.injEq] at hs
        subst hs
        exact ⟨rfl, Or.inr ⟨y, hpc, rfl, hb⟩⟩
    · simp only [Option.some.injEq] at hs
      subst hs
      refine ⟨rfl, Or.inl ⟨rfl, rfl, sameImage_refl st, ?_⟩⟩
      intro h
      rw [hpc] at h
      simp [incremented] at h
  · rename_i hpc
    split at hs
    · simp at hs
    · split at hs
      · simp at hs
      · simp only [Option.some.injEq] at hs
        subst hs
        refine ⟨rfl, Or.inl ⟨rfl, rfl, ⟨rfl, rfl, rfl, rfl, rfl, rfl⟩, ?_⟩⟩
        intro h
        rw [hpc] at h
        simp [incremented] at h
  · rename_i hpc
    simp only [Option.some.injEq] at hs
    subst hs
    refine ⟨rfl, Or.inl ⟨rfl, rfl, sameImage_refl st, ?_⟩⟩
    intro h
    rw [hpc] at h
    simp [incremented] at h
  · rename_i v hpc
    simp only [Option.some.injEq] at hs
    subst hs
    exact ⟨rfl, Or.inl ⟨rfl, rfl, ⟨rfl, rfl, rfl, rfl, rfl, rfl⟩, fun _ => rfl⟩⟩
  · rename_i hpc
    split at hs
    · simp at hs
    · split at hs
      · simp only [Option.some.injEq] at hs
        subst hs
        exact ⟨rfl, Or.inl ⟨rfl, rfl, ⟨rfl, rfl, rfl, rfl, rfl, rfl⟩, fun _ => rfl⟩⟩
      · simp at hs
  · simp at hs

/-- At the write-back `newColors` is what a single worker over
`[0, newHeight)` produces from the initial static fields. -/
theorem writeBack_image {st : TextureScale} {s : Sys} (hinv : Inv s) (h : ImgInv st s)
    (hW : 1 ≤ st.w2) (hm : s.main = MainPc.writeBack)
    (hchain : RangeChain 0 ((s.workers.map Worker.launch).map Launch.data) s.newHeight) :
    ∃ t, forRange 0 s.newHeight (rowBody s.useBilinear) st = some t ∧
      s.statics.newColors = t.newColors := by
  have hne : s.main ≠ MainPc.finished := by rw [hm]; simp
  have hdone : ∀ y, RowDone s.workers y ↔ 0 ≤ y ∧ y < s.newHeight := by
    intro y
    constructor
    · rintro ⟨w, hw, hy⟩
      have hrows := incremented_rows (hinv.winv.rows w hw) (h.allDone (Or.inl hm) w hw)
      rw [hrows, mem_rowList] at hy
      have hmem : w.launch.data ∈ (s.workers.map Worker.launch).map Launch.data :=
        List.mem_map.mpr ⟨w.launch, List.mem_map.mpr ⟨w, hw, rfl⟩, rfl⟩
      have hb := hchain.bounds _ hmem
      omega
    · rintro ⟨hy0, hy1⟩
      obtain ⟨i, ⟨d, hd, hd1, hd2⟩, _⟩ := hchain.cover y hy0 hy1
      rw [List.map_map] at hd
      have hdm : d ∈ s.workers.map (Launch.data ∘ Worker.launch) :=
        List.mem_iff_getElem?.mpr ⟨i, hd⟩
      obtain ⟨w, hw, hwd⟩ := List.mem_map.mp hdm
      refine ⟨w, hw, ?_⟩
      have hrows := incremented_rows (hinv.winv.rows w hw) (h.allDone (Or.inl hm) w hw)
      rw [hrows, mem_rowList]
      simp only [Function.comp] at hwd
      rw [hwd]
      exact ⟨hd1, hd2⟩
  obtain ⟨t, ht, _, hget⟩ := rows_some s.useBilinear st.w2 0 s.newHeight st rfl hW
    (fun y hy0 hy1 => h.ok y ((hdone y).mpr ⟨hy0, hy1⟩))
  refine ⟨t, ht, ?_⟩
  apply list_eq_of_GetAtUnchecked
  intro j
  obtain ⟨p1, p2⟩ := h.pix hne j
  rw [hget j]
  by_cases hj : RowDone s.workers (j / st.w2)
  · rw [if_pos ((hdone _).mp hj)]
    exact p1 hj
  · rw [if_neg (fun hc => hj ((hdone _).mpr hc))]
    exact p2 hj

theorem ImgInv.workerStep {st : TextureScale} {s s1 : Sys} {k : Nat} (h : ImgInv st s)
    (hW : 1 ≤ st.w2) (hs : Sys.step (Actor.worker k) s = some s1) : ImgInv st s1 := by
  simp only [Sys.step] at hs
  split at hs
  · simp at hs
  · rename_i w hk
    cases hr : w.step k s.statics with
    | none => rw [hr] at hs; simp at hs
    | some r =>
      rw [hr] at hs
      simp only [Option.map_some', Option.some.injEq] at hs
      subst hs
      obtain ⟨hl, hcase⟩ := worker_step_image hr
      have hwmem : w ∈ s.workers := List.mem_iff_getElem?.mpr ⟨k, hk⟩
      have hbw : w.launch.bilinear = s.useBilinear := h.bil w hwmem
      have hbil : ∀ v ∈ s.workers.set k r.1, v.launch.bilinear = s.useBilinear := by
        intro v hv
        rcases mem_set_cases hv with e | e
        · rw [e, hl]; exact hbw
        · exact h.bil v e
      rcases hcase with ⟨hrows, hnew, himg, hincr⟩ | ⟨y, hpc, hrows, hbody⟩
      · have hdone : ∀ y, RowDone (s.workers.set k r.1) y ↔ RowDone s.workers y := by
          intro y
          rw [RowDone_set hk (by intro y hy; rw [hrows]; exact hy)]
          constructor
          · rintro (h1 | h1)
            · exact h1
            · rw [hrows] at h1
              exact ⟨w, hwmem, h1⟩
          · exact Or.inl
        refine ⟨hbil, ?_, ?_, ?_, ?_, ?_⟩
        · intro hne
          exact sameImage_trans (h.same hne) himg
        · intro y hy
          exact h.ok y ((hdone y).mp hy)
        · intro hne j
          obtain ⟨p1, p2⟩ := h.pix hne j
          show (RowDone (s.workers.set k r.1) (j / st.w2) →
              GetAtUnchecked r.2.newColors j = _) ∧
            (¬ RowDone (s.workers.set k r.1) (j / st.w2) →
              GetAtUnchecked r.2.newColors j = _)
          rw [hnew]
          exact ⟨fun hd => p1 ((hdone _).mp hd), fun hd => p2 (fun hc => hd ((hdone _).mpr hc))⟩
        · intro hm v hv
          rcases mem_set_cases hv with e | e
          · rw [e]
            exact hincr (h.allDone hm w hwmem)
          · exact h.allDone hm v e
        · intro hm
          exact h.fin hm
      · have hnotwb : ¬ (s.main = MainPc.writeBack ∨ s.main = MainPc.finished) := by
          intro hm
          have := h.allDone hm w hwmem
          rw [hpc] at this
          simp [incremented] at this
        rw [hbw] at hbody
        obtain ⟨hok, hsame, hget⟩ := rowBody_some hbody
        have hdone : ∀ y1, RowDone (s.workers.set k r.1) y1 ↔ RowDone s.workers y1 ∨ y1 = y := by
          intro y1
          rw [RowDone_set hk (by intro y2 hy2; rw [hrows]; exact List.mem_append_left _ hy2)]
          constructor
          · rintro (h1 | h1)
            · exact Or.inl h1
            · rw [hrows] at h1
              rcases List.mem_append.mp h1 with h2 | h2
              · exact Or.inl ⟨w, hwmem, h2⟩
              · exact Or.inr (List.mem_singleton.mp h2)
          · rintro (h1 | h1)
            · exact Or.inl h1
            · right
              rw [hrows, h1]
              exact List.mem_append_right _ (List.mem_singleton.mpr rfl)
        refine ⟨hbil, ?_, ?_, ?_, ?_, ?_⟩
        · intro hne
          exact sameImage_trans (h.same hne) hsame.image
        · intro y1 hy1
          rcases (hdone y1).mp hy1 with h1 | h1
          · exact h.ok y1 h1
          · rw [h1]
            exact hok.congr (sameImage_symm (h.same (fun hm => hnotwb (Or.inr hm))))
        · intro hne j
          have himg := h.same hne
          obtain ⟨p1, p2⟩ := h.pix hne j
          have hw2 : s.statics.w2 = st.w2 := himg.2.2.2.2.1
          obtain ⟨d1, d2⟩ := row_decode st.w2 y j hW
          show (RowDone (s.workers.set k r.1) (j / st.w2) →
              GetAtUnchecked r.2.newColors j = _) ∧
            (¬ RowDone (s.workers.set k r.1) (j / st.w2) →
              GetAtUnchecked r.2.newColors j = _)
          rw [hget j, hw2]
          by_cases hin : y * st.w2 ≤ j ∧ j < y * st.w2 + st.w2
          · have hy : j / st.w2 = y := d1.mp hin
            rw [if_pos hin, d2 hin, pixelValue_congr himg, hy]
            exact ⟨fun _ => rfl, fun hd => absurd ((hdone y).mpr (Or.inr rfl)) hd⟩
          · have hy : ¬ (j / st.w2 = y) := fun hc => hin (d1.mpr hc)
            rw [if_neg hin]
            constructor
            · intro hd
              rcases (hdone _).mp hd with h1 | h1
              · exact p1 h1
              · exact absurd h1 hy
            · intro hd
              exact p2 (fun hc => hd ((hdone _).mpr (Or.inl hc)))
        · intro hm
          exact absurd hm hnotwb
        · intro hm
          exact absurd (Or.inr hm) hnotwb

theorem ImgInv.keep {st : TextureScale} {s s1 : Sys} (h : ImgInv st s)
    (hst : s1.statics = s.statics) (hb : s1.useBilinear = s.useBilinear)
    (hws : s1.workers = s.workers ∨
      ∃ l, s1.workers = s.workers ++ [startWorker l] ∧ l.bilinear = s.useBilinear)
    (hm0 : s.main ≠ MainPc.finished) (hm1 : s1.main ≠ MainPc.finished)
    (hall : s1.main = MainPc.writeBack → ∀ w ∈ s1.workers, incremented w.pc = true) :
    ImgInv st s1 := by
  have hdone : ∀ y, RowDone s1.workers y ↔ RowDone s.workers y := by
    intro y
    rcases hws with e | ⟨l, e, _⟩
    · rw [e]
    · rw [e, RowDone_append_start]
  refine ⟨?_, ?_, ?_, ?_, ?_, ?_⟩
  · intro w hw
    rw [hb]
    rcases hws with e | ⟨l, e, hl⟩
    · rw [e] at hw
      exact h.bil w hw
    · rw [e] at hw
      rcases List.mem_append.mp hw with h1 | h1
      · exact h.bil w h1
      · simp only [List.mem_singleton] at h1
        rw [h1]
        exact hl
  · intro _
    rw [hst]
    exact h.same hm0
  · intro y hy
    rw [hb]
    exact h.ok y ((hdone y).mp hy)
  · intro _ j
    obtain ⟨p1, p2⟩ := h.pix hm0 j
    rw [hst, hb]
    exact ⟨fun hd => p1 ((hdone _).mp hd), fun hd => p2 (fun hc => hd ((hdone _).mpr hc))⟩
  · intro hm
    rcases hm with hm | hm
    · exact hall hm
    · exact absurd hm hm1
  · intro hm
    exact absurd hm hm1

theorem startWorker_bilinear (b : Bool) (d : ThreadData) :
    (Launch.call b d).bilinear = b ∧ (Launch.thread b d).bilinear = b := ⟨rfl, rfl⟩

theorem ImgInv.mainStep {st : TextureScale} {s s1 : Sys} (hinv : Inv s) (h : ImgInv st s)
    (hW : 1 ≤ st.w2)
    (hcover : s.main = MainPc.writeBack →
      RangeChain 0 ((s.workers.map Worker.launch).map Launch.data) s.newHeight)
    (hs : Sys.step Actor.main s = some s1) : ImgInv st s1 := by
  simp only [Sys.step, Sys.mainStep] at hs
  split at hs
  · rename_i hm
    have hm0 : s.main ≠ MainPc.finished := by rw [hm]; simp
    split at hs
    · simp only [Option.some.injEq] at hs
      subst hs
      exact h.keep rfl rfl (Or.inl rfl) hm0 (by simp) (by simp)
    · simp only [Option.some.injEq] at hs
      subst hs
      exact h.keep rfl rfl (Or.inr ⟨_, rfl, rfl⟩) hm0 (by simp) (by simp)
  · rename_i i hm
    have hm0 : s.main ≠ MainPc.finished := by rw [hm]; simp
    split at hs
    · simp only [Option.some.injEq] at hs
      subst hs
      exact h.keep rfl rfl (Or.inr ⟨_, rfl, rfl⟩) hm0 (by simp) (by simp)
    · simp only [Option.some.injEq] at hs
      subst hs
      exact h.keep rfl rfl (Or.inr ⟨_, rfl, rfl⟩) hm0 (by simp) (by simp)
  · rename_i hm
    have hm0 : s.main ≠ MainPc.finished := by rw [hm]; simp
    split at hs
    · simp at hs
    · rename_i w hlast
      split at hs
      · rename_i hdone
        simp only [Option.some.injEq] at hs
        subst hs
        refine h.keep rfl rfl (Or.inl rfl) hm0 (by simp only []; split <;> simp) ?_
        intro hwb v hv
        simp only [] at hwb hv
        have hc : ¬ s.cores > 1 := by
          intro hc
          rw [if_pos hc] at hwb
          simp at hwb
        have hc1 : s.cores = 1 := by
          have := hinv.cores_pos
          omega
        have hp := hinv.plan
        simp only [PlanOk, hm] at hp
        have hlen : (s.workers.length : Int) = 1 := by
          have := congrArg List.length hp
          rw [List.length_map] at this
          rw [this, ← hc1]
          exact launches_length _ _ _ _ hinv.cores_pos
        have hlen1 : s.workers.length = 1 := by omega
        obtain ⟨w0, hw0⟩ := List.length_eq_one.mp hlen1
        rw [hw0] at hlast hv
        simp only [List.getLast?_singleton, Option.some.injEq] at hlast
        simp only [List.mem_singleton] at hv
        rw [hv, hlast, hdone]
        rfl
      · simp at hs
  · rename_i hm
    have hm0 : s.main ≠ MainPc.finished := by rw [hm]; simp
    split at hs
    · simp only [Option.some.injEq] at hs
      subst hs
      exact h.keep rfl rfl (Or.inl rfl) hm0 (by simp) (by simp)
    · rename_i hc
      simp only [Option.some.injEq] at hs
      subst hs
      refine h.keep rfl rfl (Or.inl rfl) hm0 (by simp) ?_
      intro _
      show ∀ w ∈ s.workers, incremented w.pc = true
      have hp := hinv.plan
      simp only [PlanOk, hm] at hp
      have hlen : (s.workers.length : Int) = s.cores := by
        have := congrArg List.length hp
        rw [List.length_map] at this
        rw [this]
        exact launches_length _ _ _ _ hinv.cores_pos
      have hcnt := hinv.winv.count
      have hle := List.countP_le_length (fun w => incremented w.pc) (l := s.workers)
      have : s.workers.countP (fun w => incremented w.pc) = s.workers.length := by omega
      exact List.countP_eq_length.mp this
  · rename_i hm
    have hm0 : s.main ≠ MainPc.finished := by rw [hm]; simp
    simp only [Option.some.injEq] at hs
    subst hs
    exact h.keep rfl rfl (Or.inl rfl) hm0 (by simp) (by simp)
  · rename_i hm
    simp only [Option.some.injEq] at hs
    subst hs
    obtain ⟨t, ht, hnew⟩ := writeBack_image hinv h hW hm (hcover hm)
    refine ⟨h.bil, by intro hne; simp at hne, h.ok, by intro hne; simp at hne, ?_, ?_⟩
    · intro _
      exact h.allDone (Or.inl hm)
    · intro _
      exact ⟨t, ht, by rw [hnew]⟩
  · simp at hs

theorem imgInv_init {s : Sys} (hm : s.main = MainPc.branch) (hw : s.workers = []) :
    ImgInv s.statics s := by
  have hnd : ∀ y, ¬ RowDone s.workers y := by
    intro y hy
    obtain ⟨w, hmem, _⟩ := hy
    rw [hw] at hmem
    simp at hmem
  refine ⟨?_, fun _ => sameImage_refl _, fun y hy => absurd hy (hnd y), ?_, ?_, ?_⟩
  · intro w hmem
    rw [hw] at hmem
    simp at hmem
  · intro _ j
    exact ⟨fun hd => absurd hd (hnd _), fun _ => rfl⟩
  · intro h
    rw [hm] at h
    simp at h
  · intro h
    rw [hm] at h
    simp at h

/-- The static fields that `ThreadedScale` sets up do not depend on
`processorCount`. -/
theorem setup_statics_indep (tex : Texture2D) (nw nh pc pc1 : Int) (ub : Bool)
    (st0 : TextureScale) (t t1 : ScaleSetup)
    (h : ThreadedScale_setup tex nw nh ub pc st0 = some t)
    (h1 : ThreadedScale_setup tex nw nh ub pc1 st0 = some t1) : t.statics = t1.statics := by
  unfold ThreadedScale_setup at h h1
  simp only [] at h h1
  split at h
  · simp at h
  · split at h1
    · simp at h1
    · simp only [Option.some.injEq] at h h1
      subst h
      subst h1
      rfl

/-- In every reachable state of a run of `ThreadedScale` the image invariant
holds, relative to the static fields at the start. -/
theorem image_reachable (tex : Texture2D) (nw nh pc : Int) (ub : Bool) (st0 : TextureScale)
    (hnw : 1 ≤ nw) (hnh : 1 ≤ nh) (hpc : 1 ≤ pc) (hm : MutexFree st0) (init s : Sys)
    (hinit : ThreadedScale_start tex nw nh ub pc st0 = some init) (hr : Reachable init s) :
    ImgInv init.statics s := by
  obtain ⟨i0, h0, c1, c2, c3, c4, c5, c6, c7, c8, c9⟩ :=
    start_eq tex nw nh pc ub st0 hnh hpc hm
  have hi0 : i0 = init := by
    rw [h0] at hinit
    exact Option.some.inj hinit
  subst hi0
  obtain ⟨t, ht, _, _, hready⟩ := setup_ready tex nw nh pc ub st0 hnw hnh hpc hm
  have hst : i0.statics = t.statics := by
    unfold ThreadedScale_start at hinit
    rw [ht] at hinit
    simp only [Option.map_some', Option.some.injEq] at hinit
    rw [← hinit]
  have hW : 1 ≤ i0.statics.w2 := by
    rw [hst, hready.2.2.2.2.1]
    exact hnw
  obtain ⟨hn1, _, _, hs1, hsn, _, e⟩ := split_arith nh pc hnh hpc
  rw [e] at hs1 hsn
  induction hr with
  | init => exact imgInv_init c6 c7
  | step a hprev hs ih =>
    rename_i u u1
    obtain ⟨hinv, e1, e2, e3, e4, _, _⟩ :=
      reachable_facts tex nw nh pc ub st0 hnh hpc hm i0 u hinit hprev
    cases a with
    | worker k => exact ih.workerStep hW hs
    | main =>
      refine ih.mainStep hinv hW ?_ hs
      intro hwb
      have hp := hinv.plan
      simp only [PlanOk, hwb] at hp
      rw [hp, e1, e2, e3]
      exact launches_chain _ _ _ _ hn1 (by omega) hsn

theorem update_self (s : Sys) : s.update s.main s.workers s.statics = s := by
  cases s
  rfl

theorem step_worker_update (s : Sys) (m : MainPc) {ws : List Worker} {st : TextureScale} {k : Nat}
    {w : Worker} {r : Worker × TextureScale} (hk : ws[k]? = some w)
    (hs : w.step k st = some r) :
    Sys.step (Actor.worker k) (s.update m ws st) = some (s.update m (ws.set k r.1) r.2) := by
  simp only [Sys.step, Sys.update, hk, hs, Option.map_some']

/-- A worker in its row loop whose remaining rows make every access inside
the arrays reaches the end of the loop. -/
theorem run_rows (s0 s : Sys) (m : MainPc) (k : Nat) (l : Launch) :
    ∀ (n : Nat) (y : Int) (R : List Int) (ws : List Worker) (st : TextureScale),
      (l.data.end_ - y).toNat = n → ws[k]? = some ⟨l, WorkerPc.row y, R⟩ →
      (∀ y1, y ≤ y1 → y1 < l.data.end_ → RowOk l.bilinear y1 st) →
      Reachable s0 (s.update m ws st) →
      ∃ R1 st1, Reachable s0 (s.update m (ws.set k ⟨l, WorkerPc.waitOne, R1⟩) st1) ∧
        SameStatics st st1 := by
  intro n
  induction n with
  | zero =>
    intro y R ws st hn hk _ hr
    have hlt : ¬ (y < l.data.end_) := by omega
    have hs : Worker.step k ⟨l, WorkerPc.row y, R⟩ st =
        some (⟨l, WorkerPc.waitOne, R⟩, st) := by
      simp [Worker.step, hlt]
    exact ⟨R, st, Reachable.step _ hr (step_worker_update s m hk hs), SameStatics.refl st⟩
  | succ n ih =>
    intro y R ws st hn hk hrows hr
    have hlt : y < l.data.end_ := by omega
    obtain ⟨t1, ht1⟩ := rowBody_ok (hrows y (le_refl _) hlt)
    have hs : Worker.step k ⟨l, WorkerPc.row y, R⟩ st =
        some (⟨l, WorkerPc.row (y + 1), R ++ [y]⟩, t1) := by
      simp [Worker.step, hlt, ht1]
    have hr1 := Reachable.step _ hr (step_worker_update s m hk hs)
    have hsame : SameStatics st t1 := rowBody_same ht1
    obtain ⟨R1, st1, hr2, hs2⟩ := ih (y + 1) (R ++ [y])
      (ws.set k ⟨l, WorkerPc.row (y + 1), R ++ [y]⟩) t1 (by omega) (set_self hk)
      (fun y1 h1 h2 => (hrows y1 (by omega) h2).congr hsame.image) hr1
    rw [List.set_set] at hr2
    exact ⟨R1, st1, hr2, hsame.trans hs2⟩

/-- A worker at its entry whose rows make every access inside the arrays runs
to its end when nobody holds the mutex; afterwards the mutex is free again. -/
theorem run_worker (s0 s : Sys) (m : MainPc) (k : Nat) (l : Launch) (ws : List Worker)
    (st : TextureScale) (hk : ws[k]? = some (startWorker l))
    (hrows : ∀ y, l.data.start ≤ y → y < l.data.end_ → RowOk l.bilinear y st)
    (hmx : st.mutex = some ⟨none⟩) (hr : Reachable s0 (s.update m ws st)) :
    ∃ R st1, Reachable s0 (s.update m (ws.set k ⟨l, WorkerPc.done, R⟩) st1) ∧
      SameImage st st1 ∧ st1.mutex = some ⟨none⟩ := by
  obtain ⟨R, st1, hr1, hs1⟩ := run_rows s0 s m k l _ l.data.start [] ws st rfl hk hrows hr
  have hmx1 : st1.mutex = some ⟨none⟩ := by rw [hs1.2.2.2.2.2.2.1, hmx]
  have e1 : Worker.step k ⟨l, WorkerPc.waitOne, R⟩ st1 =
      some (⟨l, WorkerPc.load, R⟩, { st1 with mutex := some ⟨some k⟩ }) := by
    simp [Worker.step, hmx1]
  have hr2 := Reachable.step _ hr1 (step_worker_update s m (set_self hk) e1)
  rw [List.set_set] at hr2
  have e2 : Worker.step k ⟨l, WorkerPc.load, R⟩ { st1 with mutex := some ⟨some k⟩ } =
      some (⟨l, WorkerPc.store st1.finishCount, R⟩, { st1 with mutex := some ⟨some k⟩ }) := by
    simp [Worker.step]
  have hr3 := Reachable.step _ hr2 (step_worker_update s m (set_self hk) e2)
  rw [List.set_set] at hr3
  have e3 : Worker.step k ⟨l, WorkerPc.store st1.finishCount, R⟩
        { st1 with mutex := some ⟨some k⟩ } =
      some (⟨l, WorkerPc.release, R⟩,
        { st1 with mutex := some ⟨some k⟩, finishCount := st1.finishCount + 1 }) := by
    simp [Worker.step]
  have hr4 := Reachable.step _ hr3 (step_worker_update s m (set_self hk) e3)
  rw [List.set_set] at hr4
  have e4 : Worker.step k ⟨l, WorkerPc.release, R⟩
        { st1 with mutex := some ⟨some k⟩, finishCount := st1.finishCount + 1 } =
      some (⟨l, WorkerPc.done, R⟩,
        { st1 with mutex := some ⟨none⟩, finishCount := st1.finishCount + 1 }) := by
    simp [Worker.step]
  have hr5 := Reachable.step _ hr4 (step_worker_update s m (set_self hk) e4)
  rw [List.set_set] at hr5
  refine ⟨R, _, hr5, ?_, rfl⟩
  exact sameImage_trans hs1.image ⟨rfl, rfl, rfl, rfl, rfl, rfl⟩

/-- The workers are run one after the other: after `j` rounds the first `j`
workers have returned and the others are still at their entry. -/
theorem run_workers (s0 s : Sys) (m : MainPc) (ls : List Launch) (st : TextureScale)
    (hrows : ∀ l ∈ ls, ∀ y, l.data.start ≤ y → y < l.data.end_ → RowOk l.bilinear y st)
    (hmx : st.mutex = some ⟨none⟩)
    (hr : Reachable s0 (s.update m (ls.map startWorker) st)) :
    ∀ j : Nat, j ≤ ls.length →
      ∃ ws st1, Reachable s0 (s.update m ws st1) ∧ ws.length = ls.length ∧
        (∀ i : Nat, i < j → ∃ w, ws[i]? = some w ∧ w.pc = WorkerPc.done) ∧
        (∀ i : Nat, j ≤ i → ws[i]? = (ls.map startWorker)[i]?) ∧
        SameImage st st1 ∧ st1.mutex = some ⟨none⟩ := by
  intro j
  induction j with
  | zero =>
    intro _
    exact ⟨ls.map startWorker, st, hr, by simp, by intro i hi; omega, fun _ _ => rfl,
      sameImage_refl st, hmx⟩
  | succ j ih =>
    intro hj
    obtain ⟨ws, st1, hr1, hlen, hdone, hrest, himg, hmx1⟩ := ih (by omega)
    have hjl : j < ls.length := by omega
    have hkj : ws[j]? = some (startWorker (ls.get ⟨j, hjl⟩)) := by
      rw [hrest j (le_refl _), List.getElem?_map, List.getElem?_eq_getElem hjl]
      rfl
    have hmem : ls.get ⟨j, hjl⟩ ∈ ls := List.get_mem ls j hjl
    obtain ⟨R, st2, hr2, himg2, hmx2⟩ := run_worker s0 s m j (ls.get ⟨j, hjl⟩) ws st1 hkj
      (fun y h1 h2 => (hrows _ hmem y h1 h2).congr himg) hmx1 hr1
    refine ⟨_, st2, hr2, by rw [List.length_set]; exact hlen, ?_, ?_,
      sameImage_trans himg himg2, hmx2⟩
    · intro i hi
      by_cases hij : i = j
      · subst hij
        exact ⟨_, set_self hkj, rfl⟩
      · rw [set_other hkj hij]
        exact hdone i (by omega)
    · intro i hi
      rw [set_other hkj (by omega)]
      exact hrest i (by omega)

theorem step_main_update (s : Sys) (m : MainPc) (ws : List Worker) (st : TextureScale) :
    Sys.step Actor.main (s.update m ws st) = (s.update m ws st).mainStep := rfl

/-- The spawn loop of `ThreadedScale` runs to its end: all the planned
workers are started, and `ThreadedScale` is in the direct call of the last. -/
theorem spawn_phase (s0 s : Sys) (st : TextureScale) (hc : 1 ≤ s.cores)
    (hr : Reachable s0 (s.update MainPc.branch [] st)) :
    Reachable s0 (s.update MainPc.call
      ((ThreadedScale_launches s.useBilinear s.cores s.slice s.newHeight).map startWorker)
      st) := by
  by_cases h1 : s.cores > 1
  · have hr0 : Reachable s0 (s.update (MainPc.spawn 0) [] st) := by
      refine Reachable.step Actor.main hr ?_
      simp [Sys.step, Sys.mainStep, Sys.update, h1]
    have hloop : ∀ i : Nat, (i : Int) ≤ s.cores - 1 →
        Reachable s0 (s.update (MainPc.spawn i)
          ((ThreadedScale_spawnLoop s.useBilinear s.slice i 0).map startWorker) st) := by
      intro i
      induction i with
      | zero => intro _; exact hr0
      | succ i ih =>
        intro hi
        have hlt : (i : Int) < s.cores - 1 := by push_cast at hi; omega
        refine Reachable.step Actor.main (ih (by omega)) ?_
        rw [spawnLoop_snoc]
        simp only [Sys.step, Sys.mainStep, Sys.update, hlt, if_true, List.map_append,
          List.map_cons, List.map_nil, zero_add, Nat.cast_add, Nat.cast_one]
    have hlast := hloop (s.cores - 1).toNat (by omega)
    have e : (((s.cores - 1).toNat : Nat) : Int) = s.cores - 1 := by omega
    rw [launches_split _ _ _ _ hc]
    refine Reachable.step Actor.main hlast ?_
    simp only [Sys.step, Sys.mainStep, Sys.update, e, lt_self_iff_false, if_false,
      List.map_append, List.map_cons, List.map_nil, ThreadData__ctor]
  · refine Reachable.step Actor.main hr ?_
    simp [Sys.step, Sys.mainStep, Sys.update, h1, ThreadedScale_launches]

theorem launches_bilinear (ub : Bool) (n s nh : Int) (hn : 1 ≤ n) :
    ∀ l ∈ ThreadedScale_launches ub n s nh, l.bilinear = ub := by
  intro l hl
  rw [launches_split ub n s nh hn] at hl
  rcases List.mem_append.mp hl with h | h
  · obtain ⟨e, he⟩ := spawnLoop_all_threads ub s _ 0 l h
    rw [he]
    rfl
  · simp only [List.mem_singleton] at h
    rw [h]
    rfl

/-- Every iteration of a loop that returns was run, on a state related to the
initial one. -/
theorem forLoop_iter {σ : Type} (body : Int → σ → Option σ) (R : σ → σ → Prop)
    (hrefl : ∀ s, R s s) (htrans : ∀ a b c, R a b → R b c → R a c)
    (hbody : ∀ i s t, body i s = some t → R s t) :
    ∀ (n : Nat) (lo : Int) (s t : σ), forLoop body n lo s = some t →
      ∀ i, lo ≤ i → i < lo + n → ∃ u v, R s u ∧ body i u = some v := by
  intro n
  induction n with
  | zero =>
    intro lo s t _ i h1 h2
    simp at h2
    omega
  | succ k ih =>
    intro lo s t h i h1 h2
    simp only [forLoop] at h
    cases hb : body lo s with
    | none => rw [hb] at h; simp at h
    | some u =>
      rw [hb] at h
      simp only [Option.some_bind] at h
      by_cases hi : i = lo
      · subst hi
        exact ⟨s, u, hrefl s, hb⟩
      · obtain ⟨u1, v, hr, hv⟩ := ih (lo + 1) u t h i (by omega) (by push_cast at h2; omega)
        exact ⟨u1, v, htrans _ _ _ (hbody lo s u hb) hr, hv⟩

/-- When the rows `lo, …, hi - 1` are processed to the end, each of them made
its accesses inside the arrays. -/
theorem rows_ok_of_some {b : Bool} {lo hi : Int} {s t : TextureScale}
    (h : forRange lo hi (rowBody b) s = some t) :
    ∀ y, lo ≤ y → y < hi → RowOk b y s := by
  intro y hy0 hy1
  obtain ⟨u, v, hsu, hv⟩ := forLoop_iter (rowBody b) SameStatics SameStatics.refl
    (fun _ _ _ => SameStatics.trans) (fun _ _ _ hb => rowBody_same hb) _ lo s t h y hy0
    (by omega)
  exact (rowBody_some hv).1.congr (sameImage_symm hsu.image)

/-- When every row of the target makes its accesses inside the arrays, some
run of `ThreadedScale` and its workers reaches the write-back. -/
theorem run_to_writeBack (init : Sys) (hinv0 : Inv init) (hm : init.main = MainPc.branch)
    (hw : init.workers = []) (hmx : init.statics.mutex = some ⟨none⟩)
    (hchain : RangeChain 0
      ((ThreadedScale_launches init.useBilinear init.cores init.slice init.newHeight).map
        Launch.data) init.newHeight)
    (hrows : ∀ y, 0 ≤ y → y < init.newHeight → RowOk init.useBilinear y init.statics) :
    ∃ s, Reachable init s ∧ s.main = MainPc.writeBack := by
  have hc := hinv0.cores_pos
  have h0 : Reachable init (init.update MainPc.branch [] init.statics) := by
    rw [← hm, ← hw, update_self]
    exact Reachable.init
  have h1 := spawn_phase init init init.statics hc h0
  have hrows1 : ∀ l ∈ ThreadedScale_launches init.useBilinear init.cores init.slice
      init.newHeight, ∀ y, l.data.start ≤ y → y < l.data.end_ →
        RowOk l.bilinear y init.statics := by
    intro l hl y hy0 hy1
    rw [launches_bilinear _ _ _ _ hc l hl]
    have hb := hchain.bounds l.data (List.mem_map.mpr ⟨l, hl, rfl⟩)
    exact hrows y (by omega) (by omega)
  obtain ⟨ws, st1, hr, hlen, hdone, _, _, _⟩ := run_workers init init MainPc.call _
    init.statics hrows1 hmx h1 _ (le_refl _)
  have hlenc : (ws.length : Int) = init.cores := by
    rw [hlen]
    exact launches_length _ _ _ _ hc
  have hall : ∀ w ∈ ws, w.pc = WorkerPc.done := by
    intro w hwm
    obtain ⟨i, hi⟩ := List.mem_iff_getElem?.mp hwm
    have hlt : i < ws.length := (List.getElem?_eq_some.mp hi).1
    obtain ⟨w1, hw1, hd⟩ := hdone i (by rw [← hlen]; exact hlt)
    rw [hi] at hw1
    rw [Option.some.inj hw1]
    exact hd
  have hne : ws ≠ [] := by
    intro e
    rw [e] at hlenc
    simp at hlenc
    omega
  have hwl : ws.getLast? = some (ws.getLast hne) := List.getLast?_eq_getLast ws hne
  have hwld : (ws.getLast hne).pc = WorkerPc.done := hall _ (List.getLast_mem hne)
  have hstep : Sys.step Actor.main (init.update MainPc.call ws st1) =
      some (init.update (if init.cores > 1 then MainPc.join else MainPc.writeBack) ws st1) := by
    simp only [Sys.step, Sys.mainStep, Sys.update, hwl, hwld, if_true]
  have hr2 := Reachable.step Actor.main hr hstep
  by_cases h1c : init.cores > 1
  · rw [if_pos h1c] at hr2
    have hinv2 := (hinv0.reachable hr2).1
    have hcnt : st1.finishCount = (ws.countP (fun w => incremented w.pc) : Nat) :=
      hinv2.winv.count
    have hcp : ws.countP (fun w => incremented w.pc) = ws.length := by
      apply List.countP_eq_length.mpr
      intro w hwm
      rw [hall w hwm]
      rfl
    have hge : ¬ (st1.finishCount < init.cores) := by
      rw [hcnt, hcp]
      omega
    have hstep2 : Sys.step Actor.main (init.update MainPc.join ws st1) =
        some (init.update MainPc.writeBack ws st1) := by
      simp only [Sys.step, Sys.mainStep, Sys.update, hge, if_false]
    exact ⟨_, Reachable.step Actor.main hr2 hstep2, rfl⟩
  · rw [if_neg h1c] at hr2
    exact ⟨_, hr2, rfl⟩

/-- C20. The scaled image does not depend on the number of workers: for every
source texture, every target size `newWidth ≥ 1`, `newHeight ≥ 1`, both modes
and every `processorCount ≥ 1`, the static fields that `ThreadedScale` sets up
are those it sets up for `processorCount = 1`, where it runs a single worker;
in every run, under any interleaving of the workers, when `ThreadedScale` is at
its write-back the single worker over the row range `[0, newHeight)` started
from these static fields returns and `newColors` equals the array it produces;
after the write-back the texture has the new size and holds that array; and
whenever the single worker returns, some run with `processorCount` processors
reaches the write-back. -/
theorem C20_worker_count_independent (tex : Texture2D) (nw nh pc : Int) (ub : Bool)
    (st0 : TextureScale) (hnw : 1 ≤ nw) (hnh : 1 ≤ nh) (hpc : 1 ≤ pc) (hm : MutexFree st0)
    (init s : Sys) (hinit : ThreadedScale_start tex nw nh ub pc st0 = some init)
    (hr : Reachable init s) :
    ∃ one, ThreadedScale_setup tex nw nh ub 1 st0 = some one ∧ one.cores = 1 ∧
      init.statics = one.statics ∧
      (s.main = MainPc.writeBack →
        ∃ t, (if ub then TextureScale_BilinearScale (ThreadData__ctor 0 nh) one.statics
            else TextureScale_PointScale (ThreadData__ctor 0 nh) one.statics) = some t ∧
          s.statics.newColors = t.newColors) ∧
      (s.main = MainPc.finished →
        ∃ t, (if ub then TextureScale_BilinearScale (ThreadData__ctor 0 nh) one.statics
            else TextureScale_PointScale (ThreadData__ctor 0 nh) one.statics) = some t ∧
          s.tex = ⟨nw, nh, t.newColors⟩) ∧
      ((∃ t, (if ub then TextureScale_BilinearScale (ThreadData__ctor 0 nh) one.statics
            else TextureScale_PointScale (ThreadData__ctor 0 nh) one.statics) = some t) →
        ∃ s1, Reachable init s1 ∧ s1.main = MainPc.writeBack) := by
  have himg := image_reachable tex nw nh pc ub st0 hnw hnh hpc hm init s hinit hr
  obtain ⟨hinv, _, _, e3, e4, _, _⟩ :=
    reachable_facts tex nw nh pc ub st0 hnh hpc hm init s hinit hr
  have e5 : s.newWidth = nw := by
    obtain ⟨i0, h0, c1, _, _, c4, _, c6, c7, c8, c9⟩ :=
      start_eq tex nw nh pc ub st0 hnh hpc hm
    have hi0 : i0 = init := by
      rw [h0] at hinit
      exact Option.some.inj hinit
    have hinv0 : Inv i0 :=
      Inv.init (by rw [c1]; exact (split_arith nh pc hnh hpc).1) c6 c7 c8 c9
    rw [hi0] at hinv0 c4
    exact (hinv0.reachable hr).2.2.2.2.1.trans c4
  obtain ⟨t, ht, _, _, hready⟩ := setup_ready tex nw nh pc ub st0 hnw hnh hpc hm
  obtain ⟨one, hone, hc1, _, hready1⟩ := setup_ready tex nw nh 1 ub st0 hnw hnh (le_refl 1) hm
  have hst : init.statics = t.statics := by
    unfold ThreadedScale_start at hinit
    rw [ht] at hinit
    simp only [Option.map_some', Option.some.injEq] at hinit
    rw [← hinit]
  have hst1 : init.statics = one.statics := by
    rw [hst]
    exact setup_statics_indep tex nw nh pc 1 ub st0 t one ht hone
  have hcores : one.cores = 1 := by
    rw [hc1]
    unfold Mathf_Min
    split <;> omega
  have hsingle : ∀ u, forRange 0 nh (rowBody ub) init.statics = some u →
      ∃ t1, (if ub then TextureScale_BilinearScale (ThreadData__ctor 0 nh) one.statics
          else TextureScale_PointScale (ThreadData__ctor 0 nh) one.statics) = some t1 ∧
        t1.newColors = u.newColors := by
    intro u hu
    have hsame : SameStatics one.statics u := by
      rw [← hst1]
      exact forLoop_rel _ SameStatics SameStatics.refl (fun _ _ _ => SameStatics.trans)
        (fun _ _ _ hb => rowBody_same hb) _ _ _ _ hu
    have hfin := finishLocked_ready hready1.2.2.2.2.2.2.2.1 hready1.2.2.2.2.2.2.2.2 hsame
    refine ⟨{ u with finishCount := u.finishCount + 1 }, ?_, rfl⟩
    rw [worker_eq, ← hst1]
    show (forRange 0 nh (rowBody ub) init.statics).bind finishLocked = _
    rw [hu, Option.some_bind, hfin]
  refine ⟨one, hone, hcores, hst1, ?_, ?_, ?_⟩
  · intro hwb
    have hW : 1 ≤ init.statics.w2 := by
      rw [hst, hready.2.2.2.2.1]
      exact hnw
    obtain ⟨hn1, _, _, hs1, hsn, _, e⟩ := split_arith nh pc hnh hpc
    rw [e] at hs1 hsn
    obtain ⟨_, e1, e2, _⟩ := reachable_facts tex nw nh pc ub st0 hnh hpc hm init s hinit hr
    have hchain : RangeChain 0 ((s.workers.map Worker.launch).map Launch.data) s.newHeight := by
      have hp := hinv.plan
      simp only [PlanOk, hwb] at hp
      rw [hp, e1, e2, e3]
      exact launches_chain _ _ _ _ hn1 (by omega) hsn
    obtain ⟨u, hu, hnew⟩ := writeBack_image hinv himg hW hwb hchain
    rw [e3, e4] at hu
    obtain ⟨t1, ht1, hnew1⟩ := hsingle u hu
    exact ⟨t1, ht1, by rw [hnew, hnew1]⟩
  · intro hfin
    obtain ⟨u, hu, htex⟩ := himg.fin hfin
    rw [e3, e4] at hu
    obtain ⟨t1, ht1, hnew1⟩ := hsingle u hu
    refine ⟨t1, ht1, ?_⟩
    rw [htex, e3, e5, hnew1]
  · rintro ⟨t1, ht1⟩
    obtain ⟨i0, h0, c1, c2, c3, _, c5, c6, c7, c8, c9⟩ :=
      start_eq tex nw nh pc ub st0 hnh hpc hm
    have hi0 : i0 = init := by
      rw [h0] at hinit
      exact Option.some.inj hinit
    rw [hi0] at c1 c2 c3 c5 c6 c7 c8 c9
    obtain ⟨hn1, _, _, hs1, hsn, _, e⟩ := split_arith nh pc hnh hpc
    rw [e] at hs1 hsn
    have hinv0 : Inv init := Inv.init (by rw [c1]; exact hn1) c6 c7 c8 c9
    have hmx : init.statics.mutex = some ⟨none⟩ := by
      have hne : init.statics.mutex ≠ none := by
        rw [hst]
        exact hready.2.2.2.2.2.2.2.1
      cases hmu : init.statics.mutex with
      | none => exact absurd hmu hne
      | some mu =>
        have := c9 mu hmu
        cases mu
        simp only at this
        rw [this]
    rw [worker_eq, ← hst1] at ht1
    cases hu : forRange (ThreadData__ctor 0 nh).start (ThreadData__ctor 0 nh).end_ (rowBody ub)
        init.statics with
    | none => rw [hu] at ht1; simp at ht1
    | some u =>
      have hrows := rows_ok_of_some hu
      refine run_to_writeBack init hinv0 c6 c7 hmx ?_ ?_
      · rw [c1, c2, c3, c5]
        exact launches_chain _ _ _ _ hn1 (by omega) hsn
      · intro y hy0 hy1
        rw [c5]
        rw [c3] at hy1
        exact hrows y hy0 hy1

theorem C20_worker_count_independent_witness :
    ∃ one, ThreadedScale_setup tex11 1 2 false 1 statics0 = some one ∧
      ∃ t, TextureScale_PointScale (ThreadData__ctor 0 2) one.statics = some t ∧
        (demoState 21).statics.newColors = t.newColors := by
  obtain ⟨one, h1, _, _, h4, _, _⟩ := C20_worker_count_independent tex11 1 2 2 false statics0
    (by decide) (by decide) (by decide) statics0_free demoInit (demoState 21) demoInit_start
    (demoState_reachable 21)
  obtain ⟨t, ht, hn⟩ := h4 demoState_final.1
  rw [if_neg Bool.false_ne_true] at ht
  exact ⟨one, h1, t, ht, hn⟩

/-- C22. Worker-count division is guarded only by the arguments: the set-up of
`ThreadedScale` computes `slice = newHeight / Mathf.Min (processorCount,
newHeight)` and fails exactly when that divisor is `0`; for `newHeight ≥ 1` and
`processorCount ≥ 1` the divisor is at least `1` and the set-up returns with
`slice` the truncated quotient; for `newHeight = 0` and `processorCount ≥ 1`
the divisor is `0` and the division traps. -/
theorem C22_division_guard (tex : Texture2D) (nw nh pc : Int) (ub : Bool) (s : TextureScale) :
    (ThreadedScale_setup tex nw nh ub pc s = none ↔ Mathf_Min pc nh = 0) ∧
      (1 ≤ nh → 1 ≤ pc →
        1 ≤ Mathf_Min pc nh ∧
          ∃ t, ThreadedScale_setup tex nw nh ub pc s = some t ∧ t.cores = Mathf_Min pc nh ∧
            t.slice = Int.tdiv nh (Mathf_Min pc nh)) ∧
      (nh = 0 → 1 ≤ pc →
        Mathf_Min pc nh = 0 ∧ ThreadedScale_setup tex nw nh ub pc s = none) := by
  have hiff : ThreadedScale_setup tex nw nh ub pc s = none ↔ Mathf_Min pc nh = 0 := by
    unfold ThreadedScale_setup
    simp only []
    split
    · rename_i h
      exact ⟨fun _ => h, fun _ => rfl⟩
    · rename_i h
      exact ⟨fun hc => by simp at hc, fun hc => absurd hc h⟩
  refine ⟨hiff, ?_, ?_⟩
  · intro hnh hpc
    have h1 : 1 ≤ Mathf_Min pc nh := by
      unfold Mathf_Min
      split <;> omega
    refine ⟨h1, ?_⟩
    have hne : Mathf_Min pc nh ≠ 0 := by omega
    unfold ThreadedScale_setup
    simp only [hne, if_false]
    exact ⟨_, rfl, rfl, rfl⟩
  · intro hnh hpc
    have h0 : Mathf_Min pc nh = 0 := by
      unfold Mathf_Min
      split <;> omega
    exact ⟨h0, hiff.mpr h0⟩

theorem C22_division_guard_witness :
    (1 ≤ Mathf_Min 4 3 ∧
      ∃ t, ThreadedScale_setup tex22 3 3 false 4 statics0 = some t ∧ t.cores = Mathf_Min 4 3 ∧
        t.slice = Int.tdiv 3 (Mathf_Min 4 3)) ∧
      Mathf_Min 4 0 = 0 ∧ ThreadedScale_setup tex22 3 0 false 4 statics0 = none :=
  ⟨(C22_division_guard tex22 3 3 4 false statics0).2.1 (by decide) (by decide),
    (C22_division_guard tex22 3 0 4 false statics0).2.2 rfl (by decide)⟩

/-- A linear interpolation with weight in `[0, 1]` lies between its ends. -/
theorem lerp_between (a b t : ℚ) (h0 : 0 ≤ t) (h1 : t ≤ 1) :
    min a b ≤ a + (b - a) * t ∧ a + (b - a) * t ≤ max a b := by
  rcases le_total a b with h | h
  · rw [min_eq_left h, max_eq_right h]
    constructor <;> nlinarith
  · rw [min_eq_right h, max_eq_left h]
    constructor <;> nlinarith

/-- The two-stage interpolation with weights in `[0, 1]` lies between the
smallest and the largest of the four sampled values. -/
theorem lerp2_between (a b c d fx fy : ℚ) (hx0 : 0 ≤ fx) (hx1 : fx ≤ 1) (hy0 : 0 ≤ fy)
    (hy1 : fy ≤ 1) :
    between4 a b c d
      ((a + (b - a) * fx) + ((c + (d - c) * fx) - (a + (b - a) * fx)) * fy) := by
  obtain ⟨p1, p2⟩ := lerp_between a b fx hx0 hx1
  obtain ⟨q1, q2⟩ := lerp_between c d fx hx0 hx1
  obtain ⟨r1, r2⟩ := lerp_between (a + (b - a) * fx) (c + (d - c) * fx) fy hy0 hy1
  constructor
  · refine le_trans ?_ r1
    exact le_min (le_trans (min_le_left _ _) p1) (le_trans (min_le_right _ _) q1)
  · refine le_trans r2 ?_
    exact max_le (le_trans p2 (le_max_left _ _)) (le_trans q2 (le_max_right _ _))

/-- The weight `q - (int)floorf (q)` of bilinear scaling lies in `[0, 1)`. -/
theorem weight_bounds (q : ℚ) :
    0 ≤ q - ((il2cpp_codegen_cast_double_to_int (floorf q) : Int) : ℚ) ∧
      q - ((il2cpp_codegen_cast_double_to_int (floorf q) : Int) : ℚ) < 1 := by
  unfold floorf
  rw [cast_double_to_int_intCast]
  exact ⟨Int.fract_nonneg q, Int.fract_lt_one q⟩

/-- The value of a bilinear output pixel from its four source pixels. -/
theorem pixelValue_bilinear_eq {y x : Int} {s : TextureScale} {c11 c12 c21 c22 : Color}
    (h11 : GetAtUnchecked s.texColors
      (BilinearScale_yFloor y s * s.w + BilinearScale_xFloor x s) = some c11)
    (h12 : GetAtUnchecked s.texColors
      (BilinearScale_yFloor y s * s.w + BilinearScale_xFloor x s + 1) = some c12)
    (h21 : GetAtUnchecked s.texColors
      ((BilinearScale_yFloor y s + 1) * s.w + BilinearScale_xFloor x s) = some c21)
    (h22 : GetAtUnchecked s.texColors
      ((BilinearScale_yFloor y s + 1) * s.w + BilinearScale_xFloor x s + 1) = some c22) :
    pixelValue true y x s =
      some (TextureScale_ColorLerpUnclamped
        (TextureScale_ColorLerpUnclamped c11 c12
          ((x : ℚ) * s.ratioX - (BilinearScale_xFloor x s : ℚ)))
        (TextureScale_ColorLerpUnclamped c21 c22
          ((x : ℚ) * s.ratioX - (BilinearScale_xFloor x s : ℚ)))
        ((y : ℚ) * s.ratioY - (BilinearScale_yFloor y s : ℚ))) := by
  unfold pixelValue
  rewrite [if_pos rfl]
  simp only []
  rw [h11, h12, h21, h22]

/-- C21. Bilinear output stays within the sampled values: for a source of
width and height at least 2 with `w * h` pixels and a target of `w2 ≥ 1` by
`h2 ≥ 1` pixels, with the static fields as `ThreadedScale` sets them for
`useBilinear = true`, for every output pixel `(x, y)` both weights
`x * ratioX - xFloor` and `y * ratioY - yFloor` lie in `[0, 1)`, the four
source pixels exist, and every channel of the interpolated colour lies between
the smallest and the largest value of that channel over the four source
pixels; a `TextureScale_BilinearScale` worker over a row range inside `[0, h2)`
stores that colour at `y * w2 + x`; and the colour of output pixel `(0, 0)` is
source pixel `(0, 0)`. -/
theorem C21_bilinear_within_samples (tex : Texture2D) (w2 h2 pc : Int) (s0 : TextureScale)
    (hw : 2 ≤ tex.width) (hh : 2 ≤ tex.height)
    (hlen : (tex.pixels.length : Int) = tex.width * tex.height)
    (hw2 : 1 ≤ w2) (hh2 : 1 ≤ h2) (hpc : 1 ≤ pc) (hm : MutexFree s0) :
    ∃ t, ThreadedScale_setup tex w2 h2 true pc s0 = some t ∧
      (∀ y x : Int, 0 ≤ y → y < h2 → 0 ≤ x → x < w2 →
        (0 ≤ (x : ℚ) * t.statics.ratioX - (BilinearScale_xFloor x t.statics : ℚ) ∧
          (x : ℚ) * t.statics.ratioX - (BilinearScale_xFloor x t.statics : ℚ) < 1 ∧
          0 ≤ (y : ℚ) * t.statics.ratioY - (BilinearScale_yFloor y t.statics : ℚ) ∧
          (y : ℚ) * t.statics.ratioY - (BilinearScale_yFloor y t.statics : ℚ) < 1) ∧
        ∃ c11 c12 c21 c22 out,
          (BilinearScale_srcIndices y x t.statics).map (GetAtUnchecked tex.pixels) =
              [some c11, some c12, some c21, some c22] ∧
            pixelValue true y x t.statics = some out ∧
            out = TextureScale_ColorLerpUnclamped
              (TextureScale_ColorLerpUnclamped c11 c12
                ((x : ℚ) * t.statics.ratioX - (BilinearScale_xFloor x t.statics : ℚ)))
              (TextureScale_ColorLerpUnclamped c21 c22
                ((x : ℚ) * t.statics.ratioX - (BilinearScale_xFloor x t.statics : ℚ)))
              ((y : ℚ) * t.statics.ratioY - (BilinearScale_yFloor y t.statics : ℚ)) ∧
            between4 c11.r c12.r c21.r c22.r out.r ∧
            between4 c11.g c12.g c21.g c22.g out.g ∧
            between4 c11.b c12.b c21.b c22.b out.b ∧
            between4 c11.a c12.a c21.a c22.a out.a) ∧
      (∀ d : ThreadData, 0 ≤ d.start → d.end_ ≤ h2 →
        ∃ s1, TextureScale_BilinearScale d t.statics = some s1 ∧
          ∀ y x : Int, d.start ≤ y → y < d.end_ → 0 ≤ x → x < w2 →
            GetAtUnchecked s1.newColors (y * w2 + x) = pixelValue true y x t.statics) ∧
      pixelValue true 0 0 t.statics = GetAtUnchecked tex.pixels 0 ∧
      (GetAtUnchecked tex.pixels 0).isSome = true := by
  obtain ⟨t, ht, _, _, hready⟩ := setup_ready tex w2 h2 pc true s0 hw2 hh2 hpc hm
  simp only [if_true] at hready
  have hrows : ∀ y, 0 ≤ y → y < h2 → RowOk true y t.statics :=
    fun y hy0 hy1 => bilinear_rowOk tex w2 h2 t.statics hw hh hlen hw2 hh2 hready y hy0 hy1
  have htex : t.statics.texColors = tex.pixels := hready.1
  have hsw2 : t.statics.w2 = w2 := hready.2.2.2.2.1
  have hfour : ∀ y x : Int, 0 ≤ y → y < h2 → 0 ≤ x → x < w2 →
      ∃ c11 c12 c21 c22,
        GetAtUnchecked t.statics.texColors
            (BilinearScale_yFloor y t.statics * t.statics.w +
              BilinearScale_xFloor x t.statics) = some c11 ∧
          GetAtUnchecked t.statics.texColors
            (BilinearScale_yFloor y t.statics * t.statics.w +
              BilinearScale_xFloor x t.statics + 1) = some c12 ∧
          GetAtUnchecked t.statics.texColors
            ((BilinearScale_yFloor y t.statics + 1) * t.statics.w +
              BilinearScale_xFloor x t.statics) = some c21 ∧
          GetAtUnchecked t.statics.texColors
            ((BilinearScale_yFloor y t.statics + 1) * t.statics.w +
              BilinearScale_xFloor x t.statics + 1) = some c22 := by
    intro y x hy0 hy1 hx0 hx1
    have hb := pixelValue_bilinear_bounds
      ((hrows y hy0 hy1 x hx0 (by rw [hsw2]; exact hx1)).1)
    simp only [BilinearScale_srcIndices, List.mem_cons, List.mem_singleton, List.not_mem_nil,
      or_false, forall_eq_or_imp, forall_eq] at hb
    obtain ⟨b1, b2, b3, b4⟩ := hb
    obtain ⟨c11, h11⟩ := GetAtUnchecked_isSome b1.1 b1.2
    obtain ⟨c12, h12⟩ := GetAtUnchecked_isSome b2.1 b2.2
    obtain ⟨c21, h21⟩ := GetAtUnchecked_isSome b3.1 b3.2
    obtain ⟨c22, h22⟩ := GetAtUnchecked_isSome b4.1 b4.2
    exact ⟨c11, c12, c21, c22, h11, h12, h21, h22⟩
  refine ⟨t, ht, ?_, ?_, ?_, ?_⟩
  · intro y x hy0 hy1 hx0 hx1
    have wx := weight_bounds ((x : ℚ) * t.statics.ratioX)
    have wy := weight_bounds ((y : ℚ) * t.statics.ratioY)
    refine ⟨⟨wx.1, wx.2, wy.1, wy.2⟩, ?_⟩
    obtain ⟨c11, c12, c21, c22, h11, h12, h21, h22⟩ := hfour y x hy0 hy1 hx0 hx1
    refine ⟨c11, c12, c21, c22, _, ?_, pixelValue_bilinear_eq h11 h12 h21 h22, rfl, ?_, ?_,
      ?_, ?_⟩
    · rw [← htex]
      simp only [BilinearScale_srcIndices, List.map_cons, List.map_nil, h11, h12, h21, h22]
    · exact lerp2_between _ _ _ _ _ _ wx.1 wx.2.le wy.1 wy.2.le
    · exact lerp2_between _ _ _ _ _ _ wx.1 wx.2.le wy.1 wy.2.le
    · exact lerp2_between _ _ _ _ _ _ wx.1 wx.2.le wy.1 wy.2.le
    · exact lerp2_between _ _ _ _ _ _ wx.1 wx.2.le wy.1 wy.2.le
  · intro d hd0 hd1
    have hrd : ∀ y, d.start ≤ y → y < d.end_ → RowOk true y t.statics :=
      fun y h1 h2 => hrows y (by omega) (by omega)
    obtain ⟨u, hu, hsame, hget⟩ := rows_some true w2 d.start d.end_ t.statics hsw2 hw2 hrd
    have hfin := finishLocked_ready hready.2.2.2.2.2.2.2.1 hready.2.2.2.2.2.2.2.2 hsame
    refine ⟨{ u with finishCount := u.finishCount + 1 }, ?_, ?_⟩
    · have hb := worker_eq true d t.statics
      rw [if_pos rfl] at hb
      rw [hb, hu, Option.some_bind, hfin]
    · intro y x hy0 hy1 hx0 hx1
      obtain ⟨e1, e2⟩ := dest_decode w2 y x hx0 hx1
      show GetAtUnchecked u.newColors (y * w2 + x) = _
      rw [hget, e1, e2, if_pos ⟨hy0, hy1⟩]
  · have hx0 : BilinearScale_xFloor 0 t.statics = 0 := by
      simp [BilinearScale_xFloor, floorf, il2cpp_codegen_cast_double_to_int]
    have hy0 : BilinearScale_yFloor 0 t.statics = 0 := by
      simp [BilinearScale_yFloor, floorf, il2cpp_codegen_cast_double_to_int]
    obtain ⟨c11, c12, c21, c22, h11, h12, h21, h22⟩ :=
      hfour 0 0 (le_refl _) (by omega) (le_refl _) (by omega)
    rw [pixelValue_bilinear_eq h11 h12 h21 h22]
    rw [hx0, hy0] at h11
    simp only [zero_mul, zero_add] at h11
    rw [← htex, h11, hx0, hy0]
    simp [TextureScale_ColorLerpUnclamped, Color__ctor]
  · have := GetAtUnchecked_isSome (l := tex.pixels) (i := 0) (le_refl _) (by
      rw [hlen]
      have : 0 < tex.width * tex.height := Int.mul_pos (by omega) (by omega)
      exact this)
    obtain ⟨c, hc⟩ := this
    rw [hc]
    rfl

theorem C21_bilinear_within_samples_witness :
    ∃ t, ThreadedScale_setup tex22 3 3 true 2 statics0 = some t ∧
      (0 ≤ ((2 : Int) : ℚ) * t.statics.ratioX - (BilinearScale_xFloor 2 t.statics : ℚ) ∧
        ((2 : Int) : ℚ) * t.statics.ratioX - (BilinearScale_xFloor 2 t.statics : ℚ) < 1) ∧
      pixelValue true 0 0 t.statics = GetAtUnchecked tex22.pixels 0 := by
  obtain ⟨t, h1, h2, _, h4, _⟩ := C21_bilinear_within_samples tex22 3 3 2 statics0 (by decide)
    (by decide) (by decide) (by decide) (by decide) (by decide)
    (by intro m h; simp [statics0] at h)
  obtain ⟨⟨a1, a2, _⟩, _⟩ := h2 1 2 (by decide) (by decide) (by decide) (by decide)
  exact ⟨t, h1, ⟨a1, a2⟩, h4⟩

theorem addCallback_move {p : PlayerActions} {c : PlayerControls} {w : World}
    (hc : w.controls p.m_Wrapper = some c) {inst : Nat} (hi : inst ≠ 0) (slot : Nat)
    (add : Nat → Action_1 → World → World) :
    addCallback PlayerActions_get_Move slot add p inst w =
      some (add c.m_Player_Move ⟨inst, Method.IPlayerActions slot⟩ w) := by
  simp [addCallback, PlayerActions_get_Move, hc, GetInterfaceMethodInfo, hi]

theorem addCallback_look {p : PlayerActions} {c : PlayerControls} {w : World}
    (hc : w.controls p.m_Wrapper = some c) {inst : Nat} (hi : inst ≠ 0) (slot : Nat)
    (add : Nat → Action_1 → World → World) :
    addCallback PlayerActions_get_Look slot add p inst w =
      some (add c.m_Player_Look ⟨inst, Method.IPlayerActions slot⟩ w) := by
  simp [addCallback, PlayerActions_get_Look, hc, GetInterfaceMethodInfo, hi]

theorem addCallback_jump {p : PlayerActions} {c : PlayerControls} {w : World}
    (hc : w.controls p.m_Wrapper = some c) {inst : Nat} (hi : inst ≠ 0) (slot : Nat)
    (add : Nat → Action_1 → World → World) :
    addCallback PlayerActions_get_Jump slot add p inst w =
      some (add c.m_Player_Jump ⟨inst, Method.IPlayerActions slot⟩ w) := by
  simp [addCallback, PlayerActions_get_Jump, hc, GetInterfaceMethodInfo, hi]

/-- With a null instance the first statement of `UnregisterCallbacks` and of
the registration block already fails. -/
theorem addCallback_null (getter : PlayerActions → ControlsHeap → Option (Nat × ControlsHeap))
    (slot : Nat) (add : Nat → Action_1 → World → World) (p : PlayerActions) (w : World) :
    addCallback getter slot add p 0 w = none := by
  unfold addCallback
  cases getter p w.controls with
  | none => rfl
  | some r => simp [GetInterfaceMethodInfo]

/-- `UnregisterCallbacks` of a non-null instance makes the nine removals and
changes nothing else. -/
theorem UnregisterCallbacks_eq {p : PlayerActions} {c : PlayerControls} {w : World}
    (hc : w.controls p.m_Wrapper = some c) {inst : Nat} (hi : inst ≠ 0) :
    PlayerActions_UnregisterCallbacks p inst w =
      some { w with calls := w.calls ++ removals c inst } := by
  unfold PlayerActions_UnregisterCallbacks
  simp only [addCallback_move hc hi, addCallback_look hc hi, addCallback_jump hc hi,
    Option.some_bind, InputAction_remove_started, InputAction_remove_performed,
    InputAction_remove_canceled, addCallback, PlayerActions_get_Move, PlayerActions_get_Look,
    PlayerActions_get_Jump, hc, GetInterfaceMethodInfo, hi, if_false, removals,
    List.append_assoc, List.singleton_append, List.cons_append, List.nil_append]

theorem UnregisterCallbacks_null (p : PlayerActions) (w : World) :
    PlayerActions_UnregisterCallbacks p 0 w = none := by
  unfold PlayerActions_UnregisterCallbacks
  rw [addCallback_null]
  rfl

/-- `AddCallbacks` of a new non-null instance appends it to the list and
makes the nine registrations. -/
theorem AddCallbacks_new {p : PlayerActions} {c : PlayerControls} {l : List_1} {w : World}
    (hc : w.controls p.m_Wrapper = some c)
    (hl : w.lists c.m_PlayerActionsCallbackInterfaces = some l) {inst : Nat} (hi : inst ≠ 0)
    (hn : inst ∉ l.items) :
    PlayerActions_AddCallbacks p inst w =
      some { w with
        lists := Function.update w.lists c.m_PlayerActionsCallbackInterfaces
          (some ⟨l.items ++ [inst], l.version + 1⟩),
        calls := w.calls ++ registrations c inst } := by
  unfold PlayerActions_AddCallbacks
  simp only [hi, if_false, hc, List_1_Contains, hl, hn, decide_False, List_1_Add,
    Option.some_bind, InputAction_add_started, InputAction_add_performed,
    InputAction_add_canceled, addCallback, PlayerActions_get_Move, PlayerActions_get_Look,
    PlayerActions_get_Jump, GetInterfaceMethodInfo, registrations,
    List.append_assoc, List.singleton_append, List.cons_append, List.nil_append]

/-- `AddCallbacks` of `null` or of an instance already in the list changes
nothing. -/
theorem AddCallbacks_noop {p : PlayerActions} {c : PlayerControls} {l : List_1} {w : World}
    (hc : w.controls p.m_Wrapper = some c)
    (hl : w.lists c.m_PlayerActionsCallbackInterfaces = some l) {inst : Nat}
    (h : inst = 0 ∨ inst ∈ l.items) : PlayerActions_AddCallbacks p inst w = some w := by
  unfold PlayerActions_AddCallbacks
  by_cases hi : inst = 0
  · simp [hi]
  · have hm : inst ∈ l.items := h.resolve_left hi
    simp [hi, hc, List_1_Contains, hl, hm]

/-- `RemoveCallbacks` of an instance of the list removes it and makes the nine
removals. -/
theorem RemoveCallbacks_found {p : PlayerActions} {c : PlayerControls} {l : List_1}
    {w : World} (hc : w.controls p.m_Wrapper = some c)
    (hl : w.lists c.m_PlayerActionsCallbackInterfaces = some l) {inst : Nat} (hi : inst ≠ 0)
    (hm : inst ∈ l.items) :
    PlayerActions_RemoveCallbacks p inst w =
      some { w with
        lists := Function.update w.lists c.m_PlayerActionsCallbackInterfaces
          (some ⟨l.items.erase inst, l.version + 1⟩),
        calls := w.calls ++ removals c inst } := by
  unfold PlayerActions_RemoveCallbacks
  simp only [hc, List_1_Remove, hl, hm, if_true]
  rw [UnregisterCallbacks_eq (c := c) (by exact hc) hi]

/-- `RemoveCallbacks` of an instance that is not in the list changes
nothing. -/
theorem RemoveCallbacks_noop {p : PlayerActions} {c : PlayerControls} {l : List_1}
    {w : World} (hc : w.controls p.m_Wrapper = some c)
    (hl : w.lists c.m_PlayerActionsCallbackInterfaces = some l) {inst : Nat}
    (hm : inst ∉ l.items) : PlayerActions_RemoveCallbacks p inst w = some w := by
  unfold PlayerActions_RemoveCallbacks
  simp only [hc, List_1_Remove, hl, hm, if_false]

theorem checkVersion_calls {a : Nat} {l : List_1} {w : World} (hl : w.lists a = some l)
    (calls : List InputCall) :
    Enumerator_checkVersion a l.version { w with calls := calls } =
      some { w with calls := calls } := by
  simp [Enumerator_checkVersion, hl]

/-- The loop of `SetCallbacks` over a list without `null` makes the nine
removals of every element, in order, and changes nothing else. -/
theorem forEach_unregister {p : PlayerActions} {c : PlayerControls} {l : List_1} {w : World}
    (hc : w.controls p.m_Wrapper = some c)
    (hl : w.lists c.m_PlayerActionsCallbackInterfaces = some l) (h0 : 0 ∉ l.items) :
    List_1_forEach c.m_PlayerActionsCallbackInterfaces
        (fun item u => PlayerActions_UnregisterCallbacks p item u) w =
      some { w with calls := w.calls ++ l.items.flatMap (removals c) } := by
  have key : ∀ (items : List Nat) (calls : List InputCall), 0 ∉ items →
      items.foldlM (fun u item =>
          (Enumerator_checkVersion c.m_PlayerActionsCallbackInterfaces l.version u).bind
            (PlayerActions_UnregisterCallbacks p item)) { w with calls := calls } =
        some { w with calls := calls ++ items.flatMap (removals c) } := by
    intro items
    induction items with
    | nil => intro calls _; simp
    | cons i rest ih =>
      intro calls h
      have hi : i ≠ 0 := by
        intro e
        apply h
        rw [e]
        exact List.mem_cons_self _ _
      have hr : 0 ∉ rest := fun hm => h (List.mem_cons_of_mem _ hm)
      rw [List.foldlM_cons, checkVersion_calls hl, Option.some_bind,
        UnregisterCallbacks_eq (c := c) (by exact hc) hi]
      simp only [Option.some_bind, bind]
      have := ih (calls ++ removals c i) hr
      simp only [List.flatMap_cons, ← List.append_assoc]
      exact this
  unfold List_1_forEach
  simp only [hl]
  have hk := key l.items w.calls h0
  have hw : ({ w with calls := w.calls } : World) = w := rfl
  rw [hw] at hk
  rw [hk, Option.some_bind, checkVersion_calls hl]

/-- `SetCallbacks (inst)` on a list without `null`: the removals of all
elements, then the list is `[inst]`, or empty when `inst` is `null`. -/
theorem SetCallbacks_eq {p : PlayerActions} {c : PlayerControls} {l : List_1} {w : World}
    (hc : w.controls p.m_Wrapper = some c)
    (hl : w.lists c.m_PlayerActionsCallbackInterfaces = some l) (h0 : 0 ∉ l.items)
    (inst : Nat) :
    PlayerActions_SetCallbacks p inst w =
      some (if inst = 0 then
        { w with
          lists := Function.update w.lists c.m_PlayerActionsCallbackInterfaces
            (some ⟨[], l.version + 1⟩),
          calls := w.calls ++ l.items.flatMap (removals c) }
      else
        { w with
          lists := Function.update w.lists c.m_PlayerActionsCallbackInterfaces
            (some ⟨[inst], l.version + 1 + 1⟩),
          calls := w.calls ++ l.items.flatMap (removals c) ++ registrations c inst }) := by
  unfold PlayerActions_SetCallbacks
  simp only [hc, forEach_unregister hc hl h0, Option.some_bind, List_1_Clear, hl]
  by_cases hi : inst = 0
  · rw [if_pos hi, hi]
    simp [PlayerActions_AddCallbacks]
  · rw [if_neg hi]
    rw [AddCallbacks_new (c := c) (l := ⟨[], l.version + 1⟩) (by exact hc)
      (by simp) hi (by simp)]
    simp

/-- Every call of the public interface succeeds on a list that is in order
and leaves it in order. -/
theorem apply_listOk {p : PlayerActions} {c : PlayerControls} {w : World}
    (h : ListOk p c w) (op : CallbackOp) :
    ∃ w1, op.apply p w = some w1 ∧ ListOk p c w1 := by
  obtain ⟨hc, l, hl, h0, hnd⟩ := h
  cases op with
  | AddCallbacks inst =>
    by_cases hno : inst = 0 ∨ inst ∈ l.items
    · exact ⟨w, AddCallbacks_noop hc hl hno, hc, l, hl, h0, hnd⟩
    · have hi : inst ≠ 0 := fun e => hno (Or.inl e)
      have hn : inst ∉ l.items := fun e => hno (Or.inr e)
      refine ⟨_, AddCallbacks_new hc hl hi hn, hc, ⟨l.items ++ [inst], l.version + 1⟩,
        Function.update_same _ _ _, ?_, ?_⟩
      · intro hm
        rcases List.mem_append.1 hm with hm | hm
        · exact h0 hm
        · exact hi (List.mem_singleton.1 hm).symm
      · refine List.Nodup.append hnd (List.nodup_singleton _) ?_
        intro a ha hb
        rw [List.mem_singleton.1 hb] at ha
        exact hn ha
  | RemoveCallbacks inst =>
    by_cases hm : inst ∈ l.items
    · have hi : inst ≠ 0 := fun e => h0 (e ▸ hm)
      exact ⟨_, RemoveCallbacks_found hc hl hi hm, hc, ⟨l.items.erase inst, l.version + 1⟩,
        Function.update_same _ _ _, fun hx => h0 (List.mem_of_mem_erase hx), hnd.erase _⟩
    · exact ⟨w, RemoveCallbacks_noop hc hl hm, hc, l, hl, h0, hnd⟩
  | SetCallbacks inst =>
    refine ⟨_, SetCallbacks_eq hc hl h0 inst, ?_⟩
    by_cases hi : inst = 0
    · rw [if_pos hi]
      exact ⟨hc, ⟨[], l.version + 1⟩, Function.update_same _ _ _, List.not_mem_nil _,
        List.nodup_nil⟩
    · rw [if_neg hi]
      exact ⟨hc, ⟨[inst], l.version + 1 + 1⟩, Function.update_same _ _ _,
        fun hx => hi (List.mem_singleton.1 hx).symm, List.nodup_singleton _⟩

/-- Every sequence of calls succeeds on a list that is in order and leaves it
in order. -/
theorem run_listOk {p : PlayerActions} {c : PlayerControls} (ops : List CallbackOp) :
    ∀ {w : World}, ListOk p c w → ∃ w1, runCallbackOps p ops w = some w1 ∧ ListOk p c w1 := by
  induction ops with
  | nil => intro w h; exact ⟨w, rfl, h⟩
  | cons op ops ih =>
    intro w h
    obtain ⟨w1, e1, h1⟩ := apply_listOk h op
    obtain ⟨w2, e2, h2⟩ := ih h1
    refine ⟨w2, ?_, h2⟩
    show (op.apply p w).bind (runCallbackOps p ops) = some w2
    rw [e1]
    exact e2

/-- The constructor leaves an empty list, which is in order. -/
theorem ctor_listOk (this list asset map move look jump : Nat) (w0 : World) :
    ListOk ⟨this⟩ ⟨asset, map, list, move, look, jump⟩
      (PlayerControls__ctor this list asset map move look jump w0) :=
  ⟨Function.update_same _ _ _, ⟨[], 0⟩, Function.update_same _ _ _, List.not_mem_nil _,
    List.nodup_nil⟩

/-- C23. Callback-interface list invariant: every sequence of `AddCallbacks`,
`RemoveCallbacks` and `SetCallbacks` with arbitrary instances (`0` is `null`)
after the construction of a `PlayerControls` object runs to the end, and in
the state it reaches the list holds no `null` and no instance twice (it is
empty right after the construction); there `AddCallbacks` of `null` or of an
instance of the list returns the same state, so no list change and no
registration, and a second `AddCallbacks` of any instance changes nothing;
and after `SetCallbacks (i)` the list is `[i]`, or empty when `i` is `null`. -/
theorem C23_callback_list_invariant (this list asset map move look jump : Nat) (w0 : World)
    (ops : List CallbackOp) :
    ∃ w l,
      runCallbackOps ⟨this⟩ ops (PlayerControls__ctor this list asset map move look jump w0)
        = some w ∧
      w.controls this = some ⟨asset, map, list, move, look, jump⟩ ∧
      w.lists list = some l ∧ 0 ∉ l.items ∧ l.items.Nodup ∧
      (ops = [] → l.items = []) ∧
      (∀ i, i = 0 ∨ i ∈ l.items → PlayerActions_AddCallbacks ⟨this⟩ i w = some w) ∧
      (∀ i w1, PlayerActions_AddCallbacks ⟨this⟩ i w = some w1 →
        PlayerActions_AddCallbacks ⟨this⟩ i w1 = some w1) ∧
      (∀ i, ∃ w1 l1, PlayerActions_SetCallbacks ⟨this⟩ i w = some w1 ∧
        w1.lists list = some l1 ∧ l1.items = if i = 0 then [] else [i]) := by
  obtain ⟨w, hrun, hok⟩ := run_listOk ops (ctor_listOk this list asset map move look jump w0)
  obtain ⟨hc, l, hl, h0, hnd⟩ := hok
  refine ⟨w, l, hrun, hc, hl, h0, hnd, ?_, ?_, ?_, ?_⟩
  · intro e
    rw [e] at hrun
    have hw : PlayerControls__ctor this list asset map move look jump w0 = w :=
      Option.some.inj hrun
    rw [← hw] at hl
    have hl0 : (PlayerControls__ctor this list asset map move look jump w0).lists list
        = some ⟨[], 0⟩ := Function.update_same _ _ _
    rw [hl0] at hl
    rw [← Option.some.inj hl]
  · intro i hi
    exact AddCallbacks_noop hc hl hi
  · intro i w1 h1
    by_cases hno : i = 0 ∨ i ∈ l.items
    · rw [AddCallbacks_noop hc hl hno] at h1
      rw [← Option.some.inj h1]
      exact AddCallbacks_noop hc hl hno
    · have hi : i ≠ 0 := fun e => hno (Or.inl e)
      have hn : i ∉ l.items := fun e => hno (Or.inr e)
      rw [AddCallbacks_new hc hl hi hn] at h1
      rw [← Option.some.inj h1]
      refine AddCallbacks_noop (c := ⟨asset, map, list, move, look, jump⟩)
        (l := ⟨l.items ++ [i], l.version + 1⟩) ?_ ?_ ?_
      · exact hc
      · exact Function.update_same _ _ _
      · exact Or.inr (List.mem_append_right _ (List.mem_singleton_self i))
  · intro i
    refine ⟨_, if i = 0 then ⟨[], l.version + 1⟩ else ⟨[i], l.version + 1 + 1⟩,
      SetCallbacks_eq hc hl h0 i, ?_, ?_⟩
    · by_cases hi : i = 0
      · simp only [if_pos hi]
        exact Function.update_same _ _ _
      · simp only [if_neg hi]
        exact Function.update_same _ _ _
    · by_cases hi : i = 0
      · simp only [if_pos hi]
      · simp only [if_neg hi]

/-- The removals of `UnregisterCallbacks` match the registrations of
`AddCallbacks` one by one. -/
theorem removals_eq_undo (c : PlayerControls) (inst : Nat) :
    removals c inst = (registrations c inst).map InputCall.undo := rfl

/-- C24. Add/Remove round trip: for a non-null instance `i` that is not in the
list, `AddCallbacks (i)` appends `i` to the list and issues exactly the nine
registrations (started, performed, canceled on Move with slot 0, on Look with
slot 1, on Jump with slot 2); a following `RemoveCallbacks (i)` brings the list
back to its previous content and issues the nine matching removals (same
action, phase and delegate), touching nothing else; and `RemoveCallbacks` of an
instance that is not in the list returns the same state. -/
theorem C24_add_remove_round_trip (p : PlayerActions) (c : PlayerControls) (l : List_1)
    (w : World) (i : Nat) (hc : w.controls p.m_Wrapper = some c)
    (hl : w.lists c.m_PlayerActionsCallbackInterfaces = some l) (hi : i ≠ 0)
    (hn : i ∉ l.items) :
    (∃ w1 l1 w2 l2,
      PlayerActions_AddCallbacks p i w = some w1 ∧
      w1.lists c.m_PlayerActionsCallbackInterfaces = some l1 ∧ l1.items = l.items ++ [i] ∧
      w1.calls = w.calls ++ registrations c i ∧ (registrations c i).length = 9 ∧
      PlayerActions_RemoveCallbacks p i w1 = some w2 ∧
      w2.lists c.m_PlayerActionsCallbackInterfaces = some l2 ∧ l2.items = l.items ∧
      w2.calls = w1.calls ++ (registrations c i).map InputCall.undo ∧
      w2.controls = w.controls ∧
      ∀ a, a ≠ c.m_PlayerActionsCallbackInterfaces → w2.lists a = w.lists a) ∧
    (∀ j, j ∉ l.items → PlayerActions_RemoveCallbacks p j w = some w) := by
  have hadd := AddCallbacks_new hc hl hi hn
  have he : (l.items ++ [i]).erase i = l.items := by
    rw [List.erase_append_right _ hn]
    simp
  have hrem := RemoveCallbacks_found (p := p) (c := c) (l := ⟨l.items ++ [i], l.version + 1⟩)
    (w := { w with
      lists := Function.update w.lists c.m_PlayerActionsCallbackInterfaces
        (some ⟨l.items ++ [i], l.version + 1⟩),
      calls := w.calls ++ registrations c i }) hc (Function.update_same _ _ _) hi
    (List.mem_append_right _ (List.mem_singleton_self i))
  refine ⟨⟨_, ⟨l.items ++ [i], l.version + 1⟩, _, ⟨l.items, l.version + 1 + 1⟩,
    hadd, Function.update_same _ _ _, rfl, rfl, rfl, hrem, ?_, rfl, rfl, rfl,
    ?_⟩, fun j hj => RemoveCallbacks_noop hc hl hj⟩
  · show Function.update _ _ _ _ = _
    rw [Function.update_same, he]
  · intro a ha
    show Function.update (Function.update _ _ _) _ _ a = _
    rw [Function.update_noteq ha, Function.update_noteq ha]

theorem C24_add_remove_round_trip_witness :
    world7.controls 7 = some ⟨1, 2, 8, 4, 5, 6⟩ ∧ world7.lists 8 = some ⟨[], 0⟩ ∧
      ∃ w1 w2 l2,
        PlayerActions_AddCallbacks ⟨7⟩ 9 world7 = some w1 ∧
        w1.calls = world7.calls ++ registrations ⟨1, 2, 8, 4, 5, 6⟩ 9 ∧
        PlayerActions_RemoveCallbacks ⟨7⟩ 9 w1 = some w2 ∧
        w2.lists 8 = some l2 ∧ l2.items = [] := by
  have hc : world7.controls 7 = some ⟨1, 2, 8, 4, 5, 6⟩ := rfl
  have hl : world7.lists 8 = some ⟨[], 0⟩ := rfl
  obtain ⟨⟨w1, l1, w2, l2, h1, _, _, h2, _, h3, h4, h5, _⟩, _⟩ :=
    C24_add_remove_round_trip ⟨7⟩ ⟨1, 2, 8, 4, 5, 6⟩ ⟨[], 0⟩ world7 9 hc hl (by decide)
      (List.not_mem_nil 9)
  exact ⟨hc, hl, w1, w2, l2, h1, h2, h3, h4, h5⟩

theorem handlerStatement_move {c : PlayerControls} {w : World} {inputActions : Nat}
    (hc : w.controls inputActions = some c) (change : Nat → Action_1 → World → World)
    (handler : Method) (this : Nat) :
    handlerStatement PlayerActions_get_Move change handler this inputActions w =
      some (change c.m_Player_Move ⟨this, handler⟩ w) := by
  simp [handlerStatement, PlayerControls_get_Player, PlayerActions__ctor,
    PlayerActions_get_Move, hc]

theorem handlerStatement_look {c : PlayerControls} {w : World} {inputActions : Nat}
    (hc : w.controls inputActions = some c) (change : Nat → Action_1 → World → World)
    (handler : Method) (this : Nat) :
    handlerStatement PlayerActions_get_Look change handler this inputActions w =
      some (change c.m_Player_Look ⟨this, handler⟩ w) := by
  simp [handlerStatement, PlayerControls_get_Player, PlayerActions__ctor,
    PlayerActions_get_Look, hc]

theorem handlerStatement_jump {c : PlayerControls} {w : World} {inputActions : Nat}
    (hc : w.controls inputActions = some c) (change : Nat → Action_1 → World → World)
    (handler : Method) (this : Nat) :
    handlerStatement PlayerActions_get_Jump change handler this inputActions w =
      some (change c.m_Player_Jump ⟨this, handler⟩ w) := by
  simp [handlerStatement, PlayerControls_get_Player, PlayerActions__ctor,
    PlayerActions_get_Jump, hc]

/-- `OnEnable` enables the map and makes the five additions. -/
theorem OnEnable_eq {c : PlayerControls} {w : World} {inputActions : Nat}
    (hc : w.controls inputActions = some c) (this : Nat) :
    FPSController_OnEnable this inputActions w =
      some { w with calls := w.calls ++ InputCall.Enable c.m_Player ::
        (handlers this c).map fun s => InputCall.add s.action s.phase s.d } := by
  unfold FPSController_OnEnable
  simp only [PlayerControls_get_Player, PlayerActions__ctor, PlayerActions_Enable,
    PlayerActions_Get, hc, InputActionMap_Enable, Option.some_bind]
  rw [handlerStatement_move (c := c) (by exact hc), Option.some_bind,
    handlerStatement_move (c := c) (by exact hc), Option.some_bind,
    handlerStatement_look (c := c) (by exact hc), Option.some_bind,
    handlerStatement_look (c := c) (by exact hc), Option.some_bind,
    handlerStatement_jump (c := c) (by exact hc)]
  simp [InputAction_add_performed, InputAction_add_canceled, handlers]

/-- `OnDisable` disables the map and makes the five removals. -/
theorem OnDisable_eq {c : PlayerControls} {w : World} {inputActions : Nat}
    (hc : w.controls inputActions = some c) (this : Nat) :
    FPSController_OnDisable this inputActions w =
      some { w with calls := w.calls ++ InputCall.Disable c.m_Player ::
        (handlers this c).map fun s => InputCall.remove s.action s.phase s.d } := by
  unfold FPSController_OnDisable
  simp only [PlayerControls_get_Player, PlayerActions__ctor, PlayerActions_Disable,
    PlayerActions_Get, hc, InputActionMap_Disable, Option.some_bind]
  rw [handlerStatement_move (c := c) (by exact hc), Option.some_bind,
    handlerStatement_move (c := c) (by exact hc), Option.some_bind,
    handlerStatement_look (c := c) (by exact hc), Option.some_bind,
    handlerStatement_look (c := c) (by exact hc), Option.some_bind,
    handlerStatement_jump (c := c) (by exact hc)]
  simp [InputAction_remove_performed, InputAction_remove_canceled, handlers]

/-- On every subscription state, the calls of `OnEnable` followed by the calls
of `OnDisable` give the state back. -/
theorem runCalls_enable_disable (this : Nat) (c : PlayerControls) (S : Multiset Subscription) :
    runCalls
      ((InputCall.Enable c.m_Player ::
          (handlers this c).map fun s => InputCall.add s.action s.phase s.d) ++
        InputCall.Disable c.m_Player ::
          (handlers this c).map fun s => InputCall.remove s.action s.phase s.d) S = S := by
  simp [runCalls, handlers, InputCall.run, Multiset.erase_cons_tail]

/-- C25. OnEnable/OnDisable symmetry: with `inputActions` an object `c`,
`OnEnable` of the controller at `this` enables the map `Player` and makes
exactly five additions (Move.performed to OnMove, Move.canceled to
OnMoveCanceled, Look.performed to OnLook, Look.canceled to OnLookCanceled,
Jump.performed to OnJump, all with target `this`); `OnDisable` disables the
same map and makes the removals of exactly the same five triples; and on
every explicit subscription state, replaying the calls up to the end of
`OnEnable` followed by `OnDisable` gives the subscriptions of the calls
before `OnEnable`. -/
theorem C25_enable_disable_symmetry (this inputActions : Nat) (c : PlayerControls) (w : World)
    (hc : w.controls inputActions = some c) :
    (∃ w1 w2,
      FPSController_OnEnable this inputActions w = some w1 ∧
      w1.calls = w.calls ++ InputCall.Enable c.m_Player ::
        (handlers this c).map (fun s => InputCall.add s.action s.phase s.d) ∧
      FPSController_OnDisable this inputActions w1 = some w2 ∧
      w2.calls = w1.calls ++ InputCall.Disable c.m_Player ::
        (handlers this c).map (fun s => InputCall.remove s.action s.phase s.d) ∧
      w2.controls = w.controls ∧ w2.lists = w.lists ∧
      ∀ S, runCalls w2.calls S = runCalls w.calls S) ∧
    (handlers this c).length = 5 ∧
    (∀ u : World, u.controls inputActions = some c →
      FPSController_OnDisable this inputActions u =
        some { u with calls := u.calls ++ InputCall.Disable c.m_Player ::
          (handlers this c).map fun s => InputCall.remove s.action s.phase s.d }) := by
  have h2 := OnDisable_eq (c := c)
    (w := { w with calls := w.calls ++ InputCall.Enable c.m_Player ::
      (handlers this c).map fun s => InputCall.add s.action s.phase s.d }) hc this
  refine ⟨⟨_, _, OnEnable_eq hc this, rfl, h2, rfl, rfl, rfl, ?_⟩, rfl,
    fun u hu => OnDisable_eq hu this⟩
  intro S
  show runCalls ((w.calls ++ _) ++ _) S = _
  rw [List.append_assoc]
  unfold runCalls
  rw [List.foldl_append]
  exact runCalls_enable_disable this c _

theorem C25_enable_disable_symmetry_witness :
    world7.controls 7 = some ⟨1, 2, 8, 4, 5, 6⟩ ∧
      ∃ w1 w2,
        FPSController_OnEnable 3 7 world7 = some w1 ∧
        w1.calls =
          [InputCall.Enable 2,
           InputCall.add 4 Phase.performed ⟨3, Method.OnMove⟩,
           InputCall.add 4 Phase.canceled ⟨3, Method.OnMoveCanceled⟩,
           InputCall.add 5 Phase.performed ⟨3, Method.OnLook⟩,
           InputCall.add 5 Phase.canceled ⟨3, Method.OnLookCanceled⟩,
           InputCall.add 6 Phase.performed ⟨3, Method.OnJump⟩] ∧
        FPSController_OnDisable 3 7 w1 = some w2 ∧
        w2.calls = w1.calls ++
          [InputCall.Disable 2,
           InputCall.remove 4 Phase.performed ⟨3, Method.OnMove⟩,
           InputCall.remove 4 Phase.canceled ⟨3, Method.OnMoveCanceled⟩,
           InputCall.remove 5 Phase.performed ⟨3, Method.OnLook⟩,
           InputCall.remove 5 Phase.canceled ⟨3, Method.OnLookCanceled⟩,
           InputCall.remove 6 Phase.performed ⟨3, Method.OnJump⟩] ∧
        ∀ S, runCalls w2.calls S = S := by
  have hc : world7.controls 7 = some ⟨1, 2, 8, 4, 5, 6⟩ := rfl
  obtain ⟨⟨w1, w2, h1, e1, h2, e2, _, _, h4⟩, _, _⟩ :=
    C25_enable_disable_symmetry 3 7 ⟨1, 2, 8, 4, 5, 6⟩ world7 hc
  exact ⟨hc, w1, w2, h1, e1, h2, e2, h4⟩

/-- On numbers the clamp with NaN is the clamp over exact arithmetic. -/
theorem Mathf_Clamp_nan_num (value min max : ℚ) :
    Mathf_Clamp_nan (Single.num value) (Single.num min) (Single.num max) =
      Single.num (Mathf_Clamp value min max) := by
  unfold Mathf_Clamp_nan Mathf_Clamp
  simp only [Single.lt, Single.gt, decide_eq_true_eq, gt_iff_lt]
  split
  · rfl
  · split <;> rfl

/-- On numbers the comparison of vectors with NaN is the comparison over
exact arithmetic. -/
theorem Vector2_op_Inequality_nan_num (a b : Vector2) :
    Vector2_op_Inequality_nan ⟨Single.num a.x, Single.num a.y⟩
        ⟨Single.num b.x, Single.num b.y⟩ = Vector2_op_Inequality a b := by
  simp [Vector2_op_Inequality_nan, Vector2_op_Equality_nan, Vector2_op_Inequality,
    Vector2_op_Equality, Single.sub, Single.mul, Single.add, Single.lt]

/-- On numbers `HandleRotation` with NaN computes what `HandleRotation` over
exact arithmetic computes. -/
theorem HandleRotation_nan_num (f : Frame) (c : FPSController) (e : Engine) :
    FPSController_HandleRotation_nan (Single.num f.deltaTime) c.toNan e.toNan =
      ((FPSController_HandleRotation f c e).1.toNan,
        (FPSController_HandleRotation f c e).2.toNan) := by
  have hg := Vector2_op_Inequality_nan_num c.lookInput Vector2_get_zero
  unfold FPSController_HandleRotation_nan FPSController_HandleRotation
  simp only [FPSController.toNan, Engine.toNan, Vector2_get_zero] at hg ⊢
  rw [hg]
  by_cases h : Vector2_op_Inequality c.lookInput ⟨0, 0⟩ = true
  · simp only [h, if_true, Single.mul, Single.neg, Single.add, Mathf_Clamp_nan_num,
      Vector3__ctor, List.map_cons, Option.map_some']
  · simp only [h]
    rfl

/-- C9 as stated fails on floats: with the initial fields of the controller
(`lookXLimit = 45`, `lookSpeed = 2`, `rotationX = 0`), `OnLook` with the value
`(0, NaN)` followed by `Update` with `deltaTime = 1` passes the test
`lookInput != Vector2.zero` (the comparison with NaN is false, so the vectors
are not equal), computes `rotationX = 0 + (-NaN * 2) * 1 = NaN`, and
`Mathf_Clamp (NaN, -45, 45)` returns NaN because both of its tests are false:
`rotationX` is NaN, so neither `-45 <= rotationX` nor `rotationX <= 45` holds,
and NaN is the pitch given to the camera.  The same happens with the look
value `(1, 0)` and `deltaTime = NaN`. -/
theorem C9_counterexample :
    Single.le (Single.num 0) FPSController__ctor.toNan.lookXLimit = true ∧
      FPSController__ctor.toNan.rotationX = Single.num 0 ∧
      FPSController__ctor.toNan.lookXLimit = Single.num 45 ∧
      (FPSController_Update_nan (Single.num 1)
          (FPSController_OnLook_nan ⟨Single.num 0, Single.nan⟩ FPSController__ctor.toNan)
          ⟨[], none⟩).1.rotationX = Single.nan ∧
      (FPSController_Update_nan (Single.num 1)
          (FPSController_OnLook_nan ⟨Single.num 0, Single.nan⟩ FPSController__ctor.toNan)
          ⟨[], none⟩).2.cameraPitch = some Single.nan ∧
      (FPSController_Update_nan Single.nan
          (FPSController_OnLook_nan ⟨Single.num 1, Single.num 0⟩ FPSController__ctor.toNan)
          ⟨[], none⟩).1.rotationX = Single.nan ∧
      Single.le (Single.neg (Single.num 45)) Single.nan = false ∧
      Single.le Single.nan (Single.num 45) = false := by
  refine ⟨?_, rfl, rfl, ?_, ?_, ?_, rfl, rfl⟩
  · simp [FPSController.toNan, FPSController__ctor, Single.le]
  · simp [FPSController_Update_nan, FPSController_HandleRotation_nan, FPSController_OnLook_nan,
      Vector2_op_Inequality_nan, Vector2_op_Equality_nan, FPSController.toNan,
      FPSController__ctor, Single.sub, Single.mul, Single.add, Single.neg, Single.lt,
      Single.gt, Mathf_Clamp_nan]
  · simp [FPSController_Update_nan, FPSController_HandleRotation_nan, FPSController_OnLook_nan,
      Vector2_op_Inequality_nan, Vector2_op_Equality_nan, FPSController.toNan,
      FPSController__ctor, Single.sub, Single.mul, Single.add, Single.neg, Single.lt,
      Single.gt, Mathf_Clamp_nan]
  · norm_num [FPSController_Update_nan, FPSController_HandleRotation_nan,
      FPSController_OnLook_nan, Vector2_op_Inequality_nan, Vector2_op_Equality_nan,
      FPSController.toNan, FPSController__ctor, Single.sub, Single.mul, Single.add,
      Single.neg, Single.lt, Single.gt, Mathf_Clamp_nan, kEpsilonSqr]

/-- C9. Mouse-look clamping as a reachable-state invariant, over exact
arithmetic (every float is a number, there is no NaN): for a controller whose
`lookXLimit` is at least 0 and whose `rotationX` starts at 0, after any
sequence of `OnMove`, `OnMoveCanceled`, `OnLook`, `OnLookCanceled`, `OnJump`,
`FixedUpdate` and `Update` with arbitrary numbers as inputs and frame times,
`lookXLimit` is unchanged and `-lookXLimit ≤ rotationX ≤ lookXLimit`; a
`HandleRotation` that acts (non-zero look input) gives the camera the Euler
angles `(rotationX, 0, 0)` of the clamped `rotationX` it has just stored; and
on these numbers `HandleRotation` on floats that may be NaN computes the same
`rotationX` and the same pitch. -/
theorem C9_rotationX_clamped (sqrtf : ℚ → ℚ) (c0 : FPSController) (e0 : Engine)
    (ops : List ControllerOp) (hl : 0 ≤ c0.lookXLimit) (h0 : c0.rotationX = 0) :
    (runOps sqrtf ops (c0, e0)).1.lookXLimit = c0.lookXLimit ∧
      -c0.lookXLimit ≤ (runOps sqrtf ops (c0, e0)).1.rotationX ∧
      (runOps sqrtf ops (c0, e0)).1.rotationX ≤ c0.lookXLimit ∧
      (∀ f : Frame,
        Vector2_op_Inequality (runOps sqrtf ops (c0, e0)).1.lookInput Vector2_get_zero = true →
        (FPSController_HandleRotation f (runOps sqrtf ops (c0, e0)).1
            (runOps sqrtf ops (c0, e0)).2).1.rotationX =
          Mathf_Clamp ((runOps sqrtf ops (c0, e0)).1.rotationX +
              (-(runOps sqrtf ops (c0, e0)).1.lookInput.y) *
                (runOps sqrtf ops (c0, e0)).1.lookSpeed * f.deltaTime)
            (-c0.lookXLimit) c0.lookXLimit ∧
        (FPSController_HandleRotation f (runOps sqrtf ops (c0, e0)).1
            (runOps sqrtf ops (c0, e0)).2).2.cameraLocalEuler =
          some ⟨(FPSController_HandleRotation f (runOps sqrtf ops (c0, e0)).1
            (runOps sqrtf ops (c0, e0)).2).1.rotationX, 0, 0⟩) ∧
      ∀ f : Frame,
        FPSController_HandleRotation_nan (Single.num f.deltaTime)
            (runOps sqrtf ops (c0, e0)).1.toNan (runOps sqrtf ops (c0, e0)).2.toNan =
          ((FPSController_HandleRotation f (runOps sqrtf ops (c0, e0)).1
              (runOps sqrtf ops (c0, e0)).2).1.toNan,
            (FPSController_HandleRotation f (runOps sqrtf ops (c0, e0)).1
              (runOps sqrtf ops (c0, e0)).2).2.toNan) := by
  have hinit : PitchClamped c0.lookXLimit (c0, e0) :=
    ⟨rfl, by simp only [h0]; linarith, by simp only [h0]; exact hl⟩
  obtain ⟨h1, h2, h3⟩ := runOps_clamped sqrtf c0.lookXLimit hl ops (c0, e0) hinit
  refine ⟨h1, h2, h3, ?_, fun f => HandleRotation_nan_num f _ _⟩
  intro f hne
  generalize runOps sqrtf ops (c0, e0) = s at h1 hne ⊢
  unfold FPSController_HandleRotation
  simp only [hne, if_true, h1, Vector3__ctor]
  exact ⟨trivial, trivial⟩

theorem C9_rotationX_clamped_witness :
    (runOps (fun q => q)
        [ControllerOp.OnLook ⟨3, -40⟩,
          ControllerOp.Update ⟨1, 1, ⟨0, -10, 0⟩, ⟨0, 0, 0⟩, ⟨0, 0, 1⟩, ⟨1, 0, 0⟩, ⟨1, 1, 1⟩,
            fun _ _ _ => true⟩]
        (FPSController__ctor, ⟨⟨0, 0, 0⟩, [], none⟩)).1.rotationX = 45 ∧
      -FPSController__ctor.lookXLimit ≤
        (runOps (fun q => q)
          [ControllerOp.OnLook ⟨3, -40⟩,
            ControllerOp.Update ⟨1, 1, ⟨0, -10, 0⟩, ⟨0, 0, 0⟩, ⟨0, 0, 1⟩, ⟨1, 0, 0⟩, ⟨1, 1, 1⟩,
              fun _ _ _ => true⟩]
          (FPSController__ctor, ⟨⟨0, 0, 0⟩, [], none⟩)).1.rotationX := by
  refine ⟨?_, (C9_rotationX_clamped (fun q => q) FPSController__ctor ⟨⟨0, 0, 0⟩, [], none⟩
    [ControllerOp.OnLook ⟨3, -40⟩,
      ControllerOp.Update ⟨1, 1, ⟨0, -10, 0⟩, ⟨0, 0, 0⟩, ⟨0, 0, 1⟩, ⟨1, 0, 0⟩, ⟨1, 1, 1⟩,
        fun _ _ _ => true⟩]
    (by norm_num [FPSController__ctor]) rfl).2.1⟩
  norm_num [runOps, ControllerOp.apply, FPSController_OnLook, FPSController_Update,
    FPSController_HandleRotation, Vector2_op_Inequality, Vector2_op_Equality, Vector2_get_zero,
    kEpsilonSqr, FPSController__ctor, Mathf_Clamp, Vector3__ctor]

/-- When the product of the target sizes fits, the set-up in machine
arithmetic is the set-up over exact integers. -/
theorem setup_int32_eq (tex : Texture2D) (nw nh pc : Int) (ub : Bool) (s0 : TextureScale)
    (h0 : 0 ≤ nw * nh) (h1 : nw * nh < 2 ^ 32) :
    ThreadedScale_setup_int32 tex nw nh ub pc s0 = ThreadedScale_setup tex nw nh ub pc s0 := by
  unfold ThreadedScale_setup_int32 ThreadedScale_setup
  rewrite [Int.emod_eq_of_lt h0 h1]
  rfl

end Zubara
